import Mathlib

/-!
Verification of the cycle-detecting garbage collector of `Modules/gcmodule.c`
and of the generator send guard of `Objects/genobject2.c` (nogil fork).

The development is a shallow embedding: object identities are natural
numbers, the `tp_traverse` callback of an object is a list of the ids of
its outgoing strong references (`children`), intrusive `PyGC_Head` lists
are Lean lists of ids, and the scratch field `gc_refs` stored in the
`_gc_prev` word is a map `Nat → Nat`.  The `NEXT_MASK_UNREACHABLE` /
`GC_UNREACHABLE_MASK` bit is the map `uflag`; the code's own comments
state that this bit is set exactly on the members of the `unreachable`
list, and the embedding maintains the bit explicitly alongside the list.

The recursion of `move_unreachable` is not structural (a traversed object
may move children from `unreachable` back to the tail of `young`), so the
loop is written with explicit fuel; `fuelFor` supplies the fuel actually
used by `deduce_unreachable`, and the lemmas below prove this fuel
suffices, so the embedded function terminates with the pending list empty
exactly as the C loop does.
-/

namespace GCV

/-- State of the `move_unreachable` scan (gcmodule.c:1046-1116).
`processed` is the prefix of `young` to the left of the cursor (objects
proven reachable), `pending` is the rest of the `young` list, `unreach`
is the `unreachable` list being built, `refs` is the `gc_refs` scratch
field and `uflag` the `UNREACHABLE` mask bit of each object. -/
structure MUState where
  processed : List Nat
  pending : List Nat
  unreach : List Nat
  refs : Nat → Nat
  uflag : Nat → Bool

/-- The traversal callback `visit_reachable` (gcmodule.c:970-1032) applied
to one visited child `c`.  `inPlay c = false` models `gc->_gc_next == 0`
(the child is not threaded into the lists of this scan and is ignored).
A child with the `UNREACHABLE` bit set is unlinked from `unreachable`,
appended to the tail of the `young` list (hence after every pending
object), given `gc_refs = 1`, and has the bit cleared.  A pending child
with `gc_refs == 0` is bumped to `gc_refs = 1`.  Anything else is left
alone. -/
def visitReachable (inPlay : Nat → Bool) (s : MUState) (c : Nat) : MUState :=
  if inPlay c = false then s
  else if s.uflag c = true then
    { s with
      unreach := s.unreach.erase c
      pending := s.pending ++ [c]
      refs := Function.update s.refs c 1
      uflag := Function.update s.uflag c false }
  else if s.refs c = 0 then
    { s with refs := Function.update s.refs c 1 }
  else s

/-- One call `traverse(op, visit_reachable, young)`: fold the callback
over the object's outgoing references in order. -/
def traverseAll (inPlay : Nat → Bool) (cs : List Nat) (s : MUState) : MUState :=
  cs.foldl (visitReachable inPlay) s

/-- The body of the `move_unreachable` loop for the object at the cursor:
if `gc_refs > 0` the object is traversed and joins the proven-reachable
prefix; otherwise it is moved to `unreachable` and its `UNREACHABLE` bit
is set (gcmodule.c:1062-1113). -/
def muStep (children : Nat → List Nat) (inPlay : Nat → Bool)
    (s : MUState) (x : Nat) (rest : List Nat) : MUState :=
  if 0 < s.refs x then
    traverseAll inPlay (children x)
      { s with processed := s.processed ++ [x], pending := rest }
  else
    { s with
      pending := rest
      unreach := s.unreach ++ [x]
      uflag := Function.update s.uflag x true }

/-- The `move_unreachable` scan with explicit fuel; the fuel supplied by
`deduce_unreachable` is proven sufficient below, so the function returns
with `pending = []` just as the C loop exits when the cursor reaches the
list head. -/
def muLoop (children : Nat → List Nat) (inPlay : Nat → Bool) :
    Nat → MUState → MUState
  | 0, s => s
  | fuel + 1, s =>
    match s.pending with
    | [] => s
    | x :: rest => muLoop children inPlay fuel (muStep children inPlay s x rest)

/-- Upper bound on the number of loop iterations of `move_unreachable`
on a list of this length (each iteration strictly decreases the measure
`muMeasure` below, which starts under this bound). -/
def fuelFor (base : List Nat) : Nat :=
  base.length * base.length + base.length + 1

/-- The function `deduce_unreachable(base, unreachable)`
(gcmodule.c:1581-1622): initialise `unreachable` empty and run
`move_unreachable`.  The result state carries the surviving `base`
(`processed`), the `unreachable` list (`unreach`), the final `gc_refs`
and the `UNREACHABLE` bits (left set on the unreachable list, exactly as
the C function leaves `NEXT_MASK_UNREACHABLE` set). -/
def deduce_unreachable (children : Nat → List Nat) (inPlay : Nat → Bool)
    (base : List Nat) (refs0 : Nat → Nat) : MUState :=
  muLoop children inPlay (fuelFor base) ⟨[], base, [], refs0, fun _ => false⟩

/-- Termination measure of the scan: with `A` the number of objects still
in `pending` or `unreach`, the measure is `A*A + |pending|`. -/
def muMeasure (s : MUState) : Nat :=
  (s.pending.length + s.unreach.length) * (s.pending.length + s.unreach.length)
    + s.pending.length

/-- Edge relation of the object graph: `b` is an outgoing reference of `a`. -/
def Edge (children : Nat → List Nat) (a b : Nat) : Prop :=
  b ∈ children a

/-- An object is reachable (directly or indirectly, in zero or more steps)
from some object of `base` whose `gc_refs` is positive at the start of
the scan. -/
def Reaches (children : Nat → List Nat) (base : List Nat) (refs0 : Nat → Nat)
    (o : Nat) : Prop :=
  ∃ r, r ∈ base ∧ 0 < refs0 r ∧ Relation.ReflTransGen (Edge children) r o

/-- Invariant of the scan state that does not mention the processed
prefix: the three lists partition `base`, the `UNREACHABLE` bit marks
exactly the members of `unreach`, members of `unreach` have `gc_refs = 0`,
objects whose initial `gc_refs` was positive still have positive
`gc_refs`, and positive `gc_refs` implies reachability from the initial
roots. -/
structure MUCore (children : Nat → List Nat) (base : List Nat)
    (refs0 : Nat → Nat) (s : MUState) : Prop where
  perm : (s.processed ++ s.pending ++ s.unreach).Perm base
  flag_iff : ∀ o, s.uflag o = true ↔ o ∈ s.unreach
  unreach_refs : ∀ o ∈ s.unreach, s.refs o = 0
  root_pos : ∀ o, 0 < refs0 o → 0 < s.refs o
  pos_reach : ∀ o ∈ base, 0 < s.refs o → Reaches children base refs0 o

/-- Invariant of the processed prefix `P`: every processed object has
positive `gc_refs`, and so does every in-play child of a processed
object (its traversal bumped the child and `gc_refs` never decreases
during the scan). -/
def ProcOK (children : Nat → List Nat) (inPlay : Nat → Bool)
    (s : MUState) (P : List Nat) : Prop :=
  (∀ o ∈ P, 0 < s.refs o) ∧
  (∀ o ∈ P, ∀ c ∈ children o, inPlay c = true → 0 < s.refs c)

/-- The heap seen by the collector.  `univ` is the fixed set of allocated
object ids in heap-walk order (`visit_heap` enumerates pages in a stable
order), `alive` marks the ids not yet freed, `children` is the object's
`tp_traverse` enumeration (its outgoing strong references), `extRefs` is
the number of references held from outside the tracked heap (C locals,
globals, the `gc.garbage` list, ...).  The type slots `tp_del`,
`tp_finalize`, `tp_clear` are booleans (`hasClear = true` means the type
has a `tp_clear` that drops all traverse-visible references), `finalized`
is the `FINALIZED` header bit.  `isWeakref` models `PyWeakref_Check`,
`wrCallback`/`wrTarget` the weakref's callback slot and referent, and
`wrList o` is the weakref chain hanging off object `o`, whose head is the
canonical root weakref (modelled from the spec: the weak-reference data
structure itself is outside gcmodule.c; the spec consumes only its
clear-one and iterate-callbacks operations, and `handle_weakrefs`
iterates the chain starting at `root->wr_next`). -/
structure Heap where
  univ : List Nat
  alive : Nat → Bool
  children : Nat → List Nat
  extRefs : Nat → Nat
  hasDel : Nat → Bool
  hasFinalize : Nat → Bool
  hasClear : Nat → Bool
  finalized : Nat → Bool
  isWeakref : Nat → Bool
  wrCallback : Nat → Bool
  wrTarget : Nat → Option Nat
  wrList : Nat → List Nat

/-- The tracked objects, in heap-walk order: `update_refs` threads exactly
these into the `young` list. -/
def aliveList (h : Heap) : List Nat :=
  h.univ.filter (fun o => h.alive o)

/-- Number of references to `o` held by the members of `ys`. -/
def refsFrom (h : Heap) (ys : List Nat) (o : Nat) : Nat :=
  (ys.map (fun p => (h.children p).count o)).sum

/-- The effective reference count `_Py_GC_REFCNT` (gcmodule.c:358-375):
references from outside the heap plus one per strong reference held by a
live tracked object.  (The local/shared split and the queued adjustment
of the C code produce exactly this total once cross-thread decrements
are merged at the start of a collection.) -/
def refcnt (h : Heap) (o : Nat) : Nat :=
  h.extRefs o + refsFrom h (aliveList h) o

/-- One simultaneous pass of reference-count reclamation: every live
object whose effective count is zero is freed.  Freeing removes the
object's outgoing references (its `tp_dealloc` drops them), which the
derived `refcnt` reflects automatically because dead objects no longer
contribute. -/
def reapStep (h : Heap) : Heap :=
  { h with alive := fun o => h.alive o && decide (0 < refcnt h o) }

/-- Iterated reclamation. -/
def reapN : Nat → Heap → Heap
  | 0, h => h
  | k + 1, h => reapN k (reapStep h)

/-- Reference-count reclamation run to its fixed point (the alive set can
shrink at most `univ.length` times).  This models both the
`find_dead_objects`/`clear_dead_objects` pickup at the start of `collect`
and the cascade of `Py_DECREF` frees inside `delete_garbage`. -/
def reap (h : Heap) : Heap :=
  reapN h.univ.length h

/-- Pass A, `update_refs` (gcmodule.c:774-824): copy every tracked
object's effective refcount into its `gc_refs` scratch field.  The same
walk threads the objects into `young`, which the embedding exposes as
`aliveList`. -/
def update_refs (h : Heap) : Nat → Nat :=
  fun o => refcnt h o

/-- The traversal callback `visit_decref` (gcmodule.c:896-912): decrement
the scratch count of a visited child if it is a tracked GC object. -/
def visit_decref (h : Heap) (r : Nat → Nat) (c : Nat) : Nat → Nat :=
  if h.alive c then Function.update r c (r c - 1) else r

/-- Pass B, `subtract_refs` (gcmodule.c:919-931): traverse each object in
`containers` and decrement the `gc_refs` of each visited tracked child. -/
def subtract_refs (h : Heap) (containers : List Nat) (refs : Nat → Nat) :
    Nat → Nat :=
  containers.foldl (fun r p => (h.children p).foldl (visit_decref h) r) refs

/-- The callback `visit_decref_unreachable` (gcmodule.c:934-949):
decrement only children carrying the `UNREACHABLE` bit. -/
def visit_decref_unreachable (uflag : Nat → Bool) (r : Nat → Nat) (c : Nat) :
    Nat → Nat :=
  if uflag c then Function.update r c (r c - 1) else r

/-- The walk `subtract_refs_unreachable` (gcmodule.c:956-967). -/
def subtract_refs_unreachable (h : Heap) (uflag : Nat → Bool)
    (containers : List Nat) (refs : Nat → Nat) : Nat → Nat :=
  containers.foldl
    (fun r p => (h.children p).foldl (visit_decref_unreachable uflag) r) refs

/-- Observable events of one collection: a `tp_finalize` call or a
weak-reference callback invocation. -/
inductive GCEvent where
  | finalizeEv (o : Nat)
  | callbackEv (w : Nat)
deriving DecidableEq

/-- The filter of `move_legacy_finalizers` (gcmodule.c:1179-1198): objects
of `unreachable` whose type has a legacy `tp_del` slot move (in list
order) to `finalizers` and lose their `UNREACHABLE` bit; the rest stay.
Returns `(finalizers, unreachable, flags)`. -/
def move_legacy_finalizers (h : Heap) (unreach : List Nat)
    (uflag : Nat → Bool) : List Nat × List Nat × (Nat → Bool) :=
  (unreach.filter (fun o => h.hasDel o),
   unreach.filter (fun o => !h.hasDel o),
   fun o => uflag o && !(h.hasDel o && unreach.contains o))

/-- The callback `visit_move` (gcmodule.c:1213-1224) folded over one
object's children: a child carrying the `UNREACHABLE` bit is unlinked
from `unreachable`, appended to the tail of `finalizers`, and loses the
bit.  The accumulator is `(newly moved, unreachable, flags)`. -/
def visit_move_fold (h : Heap) (x : Nat)
    (acc : List Nat × List Nat × (Nat → Bool)) :
    List Nat × List Nat × (Nat → Bool) :=
  (h.children x).foldl
    (fun acc c =>
      if acc.2.2 c then
        (acc.1 ++ [c], acc.2.1.erase c, Function.update acc.2.2 c false)
      else acc)
    acc

/-- The worklist of `move_legacy_finalizer_reachable` (gcmodule.c:1229-1241):
the `finalizers` list grows at its tail while it is walked, so it is run
with fuel; `move_legacy_finalizer_reachable` supplies enough. -/
def legacyReach (h : Heap) :
    Nat → List Nat → List Nat → List Nat → (Nat → Bool) →
    List Nat × List Nat × (Nat → Bool)
  | 0, done, queue, unreach, uflag => (done ++ queue, unreach, uflag)
  | _ + 1, done, [], unreach, uflag => (done, unreach, uflag)
  | fuel + 1, done, x :: rest, unreach, uflag =>
    let step := visit_move_fold h x ([], unreach, uflag)
    legacyReach h fuel (done ++ [x]) (rest ++ step.1) step.2.1 step.2.2

/-- Move everything of `unreachable` reachable from the `finalizers` list
into `finalizers` (gcmodule.c:1229-1241). -/
def move_legacy_finalizer_reachable (h : Heap) (finalizers unreach : List Nat)
    (uflag : Nat → Bool) : List Nat × List Nat × (Nat → Bool) :=
  legacyReach h (finalizers.length + 2 * unreach.length + 1)
    [] finalizers unreach uflag

/-- Clear one weak reference (`_PyWeakref_ClearRef`; modelled from the
spec's clear-one operation: the weakref stops referring to its target
and its callback will never trigger). -/
def clearWeakref (h : Heap) (w : Nat) : Heap :=
  { h with wrTarget := Function.update h.wrTarget w none }

/-- Clear every weak reference to `op` (`_PyObject_ClearWeakRefsFromGC`;
modelled from the spec's clear-one operation applied along the chain,
without invoking callbacks). -/
def clearAllWeakrefs (h : Heap) (op : Nat) : Heap :=
  let h1 := (h.wrList op).foldl clearWeakref h
  { h1 with wrList := Function.update h1.wrList op [] }

/-- The reference gained by a weak reference when it is copied onto
`wrcb_to_call` (gcmodule.c:1308-1318). -/
def extBump (hh : Heap) (wr : Nat) : Heap :=
  { hh with extRefs := Function.update hh.extRefs wr (hh.extRefs wr + 1) }

/-- First pass of `handle_weakrefs` (gcmodule.c:1273-1364) for one object
of `unreachable`: an unreachable weakref is cleared outright; then every
weakref to the object that has a callback and is *not* itself
unreachable is given a new reference and queued on `wrcb_to_call` (the
chain is iterated from `root->wr_next`, the root is only cleared); and
finally all weak references to the object are cleared. -/
def hw_obj_body (uflag : Nat → Bool) (h1 : Heap) (wcb : List Nat)
    (op : Nat) : Heap × List Nat :=
  if h1.wrList op = [] then (h1, wcb)
  else
    (clearAllWeakrefs
      (((h1.wrList op).tail.filter
          (fun wr => h1.wrCallback wr && !(uflag wr))).foldl extBump h1) op,
     wcb ++ (h1.wrList op).tail.filter
       (fun wr => h1.wrCallback wr && !(uflag wr)))

/-- One object of the first `handle_weakrefs` pass, after the
weakref-clearing of the object itself. -/
def hw_obj (uflag : Nat → Bool) (acc : Heap × List Nat) (op : Nat) :
    Heap × List Nat :=
  hw_obj_body uflag
    (if acc.1.isWeakref op then clearWeakref acc.1 op else acc.1) acc.2 op

/-- Second pass of `handle_weakrefs` (gcmodule.c:1369-1406): invoke each
queued callback once, drop the reference added in the first pass, and
count the weakref as freed if that drop took its count to zero. -/
def hw_invoke (acc : Heap × List GCEvent × Nat) (wr : Nat) :
    Heap × List GCEvent × Nat :=
  let evs := acc.2.1 ++ [GCEvent.callbackEv wr]
  let h1 := { acc.1 with
    extRefs := Function.update acc.1.extRefs wr (acc.1.extRefs wr - 1) }
  if refcnt h1 wr = 0 then
    (reap { h1 with alive := Function.update h1.alive wr false },
     evs, acc.2.2 + 1)
  else
    (h1, evs, acc.2.2)

/-- `handle_weakrefs(unreachable)` (gcmodule.c:1254-1409); returns the
updated heap, the callback events in invocation order, and `num_freed`. -/
def handle_weakrefs (h : Heap) (unreach : List Nat) (uflag : Nat → Bool) :
    Heap × List GCEvent × Nat :=
  let p1 := unreach.foldl (hw_obj uflag) (h, [])
  p1.2.foldl hw_invoke (p1.1, [], 0)

/-- `finalize_garbage` (gcmodule.c:1457-1489): for each object of the
list not yet `FINALIZED` whose type has `tp_finalize`, set `FINALIZED`
and call the finalizer (the temporary reference pair around the call has
no net effect; the collector does not model finalizer side effects, so
no object vanishes from the list during the walk). -/
def finalize_garbage (h : Heap) (collectable : List Nat) :
    Heap × List GCEvent :=
  collectable.foldl
    (fun (acc : Heap × List GCEvent) o =>
      if !acc.1.finalized o && acc.1.hasFinalize o then
        ({ acc.1 with finalized := Function.update acc.1.finalized o true },
         acc.2 ++ [GCEvent.finalizeEv o])
      else acc)
    (h, [])

/-- `handle_resurrected_objects` (gcmodule.c:1637-1661): reset each
unreachable object's scratch count to its current refcount, subtract the
references held by flagged objects, clear the `UNREACHABLE` bits and run
`deduce_unreachable` over the same list.  The result's `unreach` is the
`still_unreachable` list; its `processed` objects resurrected. -/
def handle_resurrected_objects (h : Heap) (unreach : List Nat)
    (uflag : Nat → Bool) : MUState :=
  let refs1 := unreach.foldl
    (fun r o => Function.update r o (refcnt h o)) (fun _ => 0)
  let refs2 := subtract_refs_unreachable h uflag unreach refs1
  deduce_unreachable h.children (fun o => unreach.contains o) unreach refs2

/-- `delete_garbage` (gcmodule.c:1495-1533): walk the final unreachable
list; under `SAVEALL` every object is appended to `gc.garbage` (gaining
a reference) instead of being cleared; otherwise an object whose type
has `tp_clear` has its outgoing references dropped, and the `Py_DECREF`
cascade frees every object whose count reaches zero.  An object still
alive after its turn is simply unlinked. -/
def dg_step (saveall : Bool) (acc : Heap × List Nat) (o : Nat) :
    Heap × List Nat :=
  if acc.1.alive o = false then acc
  else if saveall then
    ({ acc.1 with
       extRefs := Function.update acc.1.extRefs o (acc.1.extRefs o + 1) },
     acc.2 ++ [o])
  else if acc.1.hasClear o then
    (reap { acc.1 with children := Function.update acc.1.children o [] },
     acc.2)
  else acc

/-- The walk of `delete_garbage` over the final unreachable list. -/
def delete_garbage (h : Heap) (saveall : Bool) (collectable : List Nat)
    (garbage : List Nat) : Heap × List Nat :=
  collectable.foldl (dg_step saveall) (h, garbage)

/-- `handle_legacy_finalizers` (gcmodule.c:1425-1451): append to the
user-visible `gc.garbage` list (which takes a reference) every object of
`finalizers` that has a legacy finalizer, or every one under `SAVEALL`;
the `finalizers` list is then cleared but its objects stay alive and
tracked. -/
def handle_legacy_finalizers (h : Heap) (saveall : Bool)
    (finalizers garbage : List Nat) : Heap × List Nat :=
  finalizers.foldl
    (fun (acc : Heap × List Nat) o =>
      if saveall || acc.1.hasDel o then
        ({ acc.1 with
           extRefs := Function.update acc.1.extRefs o (acc.1.extRefs o + 1) },
         acc.2 ++ [o])
      else acc)
    (h, garbage)

/-- Stage 0 of `collect` (gcmodule.c:1743-1745): `find_dead_objects` and
`clear_dead_objects` free the objects whose effective count is already
zero, with the usual refcount cascade. -/
def heap0 (h : Heap) : Heap := reap h

/-- The `young` list built by `update_refs` inside `collect`. -/
def young0 (h : Heap) : List Nat := aliveList (heap0 h)

/-- `gc_refs` after `update_refs(&young)` (gcmodule.c:1747). -/
def refsA (h : Heap) : Nat → Nat := update_refs (heap0 h)

/-- `gc_refs` after `subtract_refs(&young)` (gcmodule.c:1748). -/
def refsB (h : Heap) : Nat → Nat :=
  subtract_refs (heap0 h) (young0 h) (refsA h)

/-- `deduce_unreachable(&young, &unreachable)` inside `collect`
(gcmodule.c:1749); every live object is threaded into the lists, so the
in-play test (`_gc_next != 0`) is liveness. -/
def deduce1 (h : Heap) : MUState :=
  deduce_unreachable (heap0 h).children (fun o => (heap0 h).alive o)
    (young0 h) (refsB h)

/-- The `finalizers` list after `move_legacy_finalizers` and
`move_legacy_finalizer_reachable` (gcmodule.c:1762-1768), together with
the remaining `unreachable` list and flags. -/
def legacyPhase (h : Heap) : List Nat × List Nat × (Nat → Bool) :=
  let m := move_legacy_finalizers (heap0 h) (deduce1 h).unreach (deduce1 h).uflag
  move_legacy_finalizer_reachable (heap0 h) m.1 m.2.1 m.2.2

/-- The legacy `finalizers` list of this collection. -/
def finalizersOf (h : Heap) : List Nat := (legacyPhase h).1

/-- The `unreachable` list after the legacy filter. -/
def unreach2 (h : Heap) : List Nat := (legacyPhase h).2.1

/-- The `UNREACHABLE` bits after the legacy filter. -/
def uflag2 (h : Heap) : Nat → Bool := (legacyPhase h).2.2

/-- The `handle_weakrefs` call of `collect` (gcmodule.c:1781). -/
def wrPhase (h : Heap) : Heap × List GCEvent × Nat :=
  handle_weakrefs (heap0 h) (unreach2 h) (uflag2 h)

/-- The `finalize_garbage` call of `collect` (gcmodule.c:1786). -/
def fgPhase (h : Heap) : Heap × List GCEvent :=
  finalize_garbage (wrPhase h).1 (unreach2 h)

/-- The `handle_resurrected_objects` call of `collect` (gcmodule.c:1794). -/
def resPhase (h : Heap) : MUState :=
  handle_resurrected_objects (fgPhase h).1 (unreach2 h) (uflag2 h)

/-- The `final_unreachable` list whose size is added to `n_collected`
*before* `delete_garbage` runs (gcmodule.c:1800). -/
def final_unreachable (h : Heap) : List Nat := (resPhase h).unreach

/-- The `delete_garbage` call of `collect` (gcmodule.c:1801). -/
def dgPhase (h : Heap) (saveall : Bool) : Heap × List Nat :=
  delete_garbage (fgPhase h).1 saveall (final_unreachable h) []

/-- The objects still on the `finalizers` list when `collect` counts
`n_uncollectable` (gcmodule.c:1807-1811): `delete_garbage` may have freed
some of them, and freed objects left the list. -/
def uncollectableOf (h : Heap) (saveall : Bool) : List Nat :=
  (finalizersOf h).filter (fun o => (dgPhase h saveall).1.alive o)

/-- The `handle_legacy_finalizers` call of `collect` (gcmodule.c:1824). -/
def hlPhase (h : Heap) (saveall : Bool) : Heap × List Nat :=
  handle_legacy_finalizers (dgPhase h saveall).1 saveall
    (uncollectableOf h saveall) (dgPhase h saveall).2

/-- Result of one collection. -/
structure CollectResult where
  heap : Heap
  garbage : List Nat
  events : List GCEvent
  nCollected : Nat
  nUncollectable : Nat

/-- One full collection `collect(tstate, reason)` (gcmodule.c:1685-1867)
on a stopped world: dead pickup, the cycle kernel, the legacy filter,
weakref handling, finalization, the resurrection pass, `tp_clear`, and
legacy-garbage publication.  `n_collected` is `handle_weakrefs`' freed
count plus the size of `final_unreachable` measured before
`delete_garbage`; the return value of the C function is
`n_collected + n_uncollectable`. -/
def collect (h : Heap) (saveall : Bool) : CollectResult :=
  { heap := (hlPhase h saveall).1
    garbage := (hlPhase h saveall).2
    events := (wrPhase h).2.1 ++ (fgPhase h).2
    nCollected := (wrPhase h).2.2 + (final_unreachable h).length
    nUncollectable := (uncollectableOf h saveall).length }

/-- The value returned by `collect` (gcmodule.c:1866). -/
def collectCount (h : Heap) (saveall : Bool) : Nat :=
  (collect h saveall).nCollected + (collect h saveall).nUncollectable

/-- Concatenated event trace of `k` successive collections with no
mutation in between. -/
def seqEvents (saveall : Bool) : Nat → Heap → List GCEvent
  | 0, _ => []
  | k + 1, h => (collect h saveall).events ++
      seqEvents saveall k (collect h saveall).heap

/-- The `k`-fold iterate of `collect` on the heap. -/
def seqHeap (saveall : Bool) : Nat → Heap → Heap
  | 0, h => h
  | k + 1, h => seqHeap saveall k (collect h saveall).heap

/-- Bit layout of the flag bits kept in the low bits of `_gc_prev`
(modelled from the spec: the masks live in `pycore_gc.h`, which is not
part of the sources; the spec fixes only that `TRACKED` and `FINALIZED`
are low bits of `prev` below the `gc_refs` shift). -/
def GC_TRACKED_MASK : Nat := 1

/-- The `FINALIZED` bit of `_gc_prev` (bit 1; modelled from the spec as
for `GC_TRACKED_MASK`). -/
def GC_FINALIZED_MASK : Nat := 2

/-- Effect of `gc_list_remove` (gcmodule.c:275-286) on the `_gc_prev`
word: `node->_gc_prev &= (GC_TRACKED_MASK | GC_FINALIZED_MASK)` keeps
only the two durable flag bits. -/
def gc_list_remove_prev (p : Nat) : Nat :=
  p &&& (GC_TRACKED_MASK ||| GC_FINALIZED_MASK)

/-- Effect of `gc_list_clear` (gcmodule.c:331-342) on each node's
`_gc_prev` word: the same durable-bit mask as `gc_list_remove`. -/
def gc_list_clear_prev (p : Nat) : Nat :=
  p &&& (GC_TRACKED_MASK ||| GC_FINALIZED_MASK)

/-- Concrete graph for witnesses: `2 → 1 → 0` with object `2` externally
rooted. -/
def chainChildren : Nat → List Nat :=
  fun o => if o = 2 then [1] else if o = 1 then [0] else []

/-- Entry `gc_refs` for the chain: only object `2` has external
references. -/
def chainRefs : Nat → Nat :=
  fun o => if o = 2 then 1 else 0

/-- Concrete heap for witnesses: `0 ↔ 1` is an externally unreferenced
cycle, `2 → 0` is externally rooted. -/
def heapW : Heap where
  univ := [0, 1, 2]
  alive := fun _ => true
  children := fun o =>
    if o = 0 then [1] else if o = 1 then [0] else if o = 2 then [0] else []
  extRefs := fun o => if o = 2 then 1 else 0
  hasDel := fun _ => false
  hasFinalize := fun _ => false
  hasClear := fun _ => true
  finalized := fun _ => false
  isWeakref := fun _ => false
  wrCallback := fun _ => false
  wrTarget := fun _ => none
  wrList := fun _ => []

/-- `update_gc_threshold` (gcmodule.c:1663-1672): the new trigger
threshold is `live + (live * gc_scale) / 100` in C `int64_t` arithmetic
(division truncating toward zero, hence `Int.tdiv`), floored at 7000. -/
def update_gc_threshold (live scale : Int) : Int :=
  let threshold := live + Int.tdiv (live * scale) 100
  if threshold < 7000 then 7000 else threshold

/-- The `gc_scale` initialisation of `_PyGC_InitState`
(gcmodule.c:149-156): default 100, replaced by the integer successfully
parsed from the `PYTHONGC` environment variable, read once at startup
(modelled from the spec: `_Py_GetEnv`/`_Py_str_to_int` live outside the
sources; `env` is the parsed value when the variable is present and
parses). -/
def initScale (env : Option Int) : Int :=
  env.getD 100

/-- `NUM_GENERATIONS` (modelled from the spec: the constant lives in
`pycore_gc.h`; the spec and the three-row `generations` initialiser of
`_PyGC_InitState` fix it at 3). -/
def NUM_GENERATIONS : Nat := 3

/-- The generation-argument validation of `gc.collect`
(gcmodule.c:1988-1993): out-of-range generations raise `ValueError`,
anything else returns the count produced by `collect`. -/
def gc_collect_impl (generation : Int) (count : Nat) : Except Unit Nat :=
  if generation < 0 ∨ (NUM_GENERATIONS : Int) ≤ generation then
    Except.error ()
  else
    Except.ok count

/-- `PyErr_WriteUnraisable` / `_PyErr_WriteUnraisableMsg` as seen by the
error flag: if the hook raised, the error is reported through the
unraisable channel and cleared; otherwise the flag is untouched. -/
def reportUnraisable (e : Bool) (raised : Bool) : Bool :=
  if raised then false else e

/-- A sequence of user hooks, each immediately reported unraisable on
failure (weakref callbacks at gcmodule.c:1381-1383, `tp_clear` at
1520-1523, gc callbacks at 1901-1903). -/
def runHookList (rs : List Bool) (e : Bool) : Bool :=
  rs.foldl reportUnraisable e

/-- The end-of-collect exception check (gcmodule.c:1826-1833): a pending
error is cleared silently during shutdown and reported unraisably (and
thereby cleared) otherwise. -/
def endOfCollectCheck (e : Bool) : Bool :=
  if e then false else e

/-- The ambient-exception flow of one `collect` (gcmodule.c:1685-1867).
Each `List Bool`/`Bool` input records which hook invocations raise.
Start callbacks run unless shutting down; weakref callbacks and
`tp_clear` failures are reported unraisably on the spot; an error left
by `tp_finalize` is carried (the code only asserts there) until the
end-of-collect check, and a failed `PyList_Append` onto `gc.garbage` is
cleared at gcmodule.c:1444. -/
def collectErrFlow (shutdown : Bool) (startCb wrCb fin clears : List Bool)
    (appendFails : Bool) (stopCb : List Bool) : Bool :=
  let e0 := false
  let e1 := if shutdown then e0 else runHookList startCb e0
  let e2 := runHookList wrCb e1
  let e3 := fin.foldl (fun e r => e || r) e2
  let e4 := runHookList clears e3
  let e5 := if appendFails then false else e4
  let e6 := endOfCollectCheck e5
  if shutdown then e6 else runHookList stopCb e6

/-- `PyGC_Collect` (gcmodule.c:2511-2527) fetches the caller's pending
exception before collecting and restores it afterwards: the ambient
exception the caller observes is exactly the one it had. -/
def pyGC_Collect_err (errIn : Bool) : Bool :=
  errIn

/-- A generator object of `genobject2.c`; only the `status` field matters
to the send guard. -/
structure Gen2 where
  status : Nat

/-- The just-started guard of `_PyGen2_Send` (genobject2.c:278):
`if (UNLIKELY(gen->status = GEN_STARTED && arg != Py_None))`.  In C,
`&&` binds tighter than `=`, so the right-hand side is the `int`
`(GEN_STARTED != 0) && (arg != Py_None)` (value 1 or 0), which is
*assigned* to `gen->status` and then tested.  The prior status is not
read at all.  Returns the new generator and whether the TypeError path
is taken. -/
def pyGen2SendGuard (genStarted : Nat) (g : Gen2) (argIsNone : Bool) :
    Gen2 × Bool :=
  let v : Nat := if genStarted ≠ 0 ∧ argIsNone = false then 1 else 0
  ({ status := v }, if v = 0 then false else true)

/-- Scenario heap for C3: a two-object cycle `A(=0) ↔ B(=1)` with no
external references, where A's type defines the legacy `tp_del` slot. -/
def heapC3 : Heap where
  univ := [0, 1]
  alive := fun _ => true
  children := fun o => if o = 0 then [1] else if o = 1 then [0] else []
  extRefs := fun _ => 0
  hasDel := fun o => o = 0
  hasFinalize := fun _ => false
  hasClear := fun _ => true
  finalized := fun _ => false
  isWeakref := fun _ => false
  wrCallback := fun _ => false
  wrTarget := fun _ => none
  wrList := fun _ => []

/-- Witness heap for C4: the C3 cycle with the `FINALIZED` bit already
set on object 0 and both types carrying `tp_finalize`. -/
def heapFin : Heap :=
  { heapC3 with
    finalized := fun o => o = 0
    hasFinalize := fun _ => true }

/-- Counterexample heap for C6: one self-referential object without
`tp_clear`.  Each collection counts it in `final_unreachable` but
`delete_garbage` cannot break the cycle, so the next quiescent
collection counts it again. -/
def heapC6 : Heap where
  univ := [0]
  alive := fun o => o == 0
  children := fun o => if o = 0 then [0] else []
  extRefs := fun _ => 0
  hasDel := fun _ => false
  hasFinalize := fun _ => false
  hasClear := fun _ => false
  finalized := fun _ => false
  isWeakref := fun _ => false
  wrCallback := fun _ => false
  wrTarget := fun _ => none
  wrList := fun _ => []

/-- Witness heap for the amended C6: an externally unreferenced cycle
`0 ↔ 1` whose types all have `tp_clear` and no legacy finalizers,
weakrefs or `tp_finalize`. -/
def hW6 : Heap where
  univ := [0, 1]
  alive := fun o => o == 0 || o == 1
  children := fun o => if o = 0 then [1] else if o = 1 then [0] else []
  extRefs := fun _ => 0
  hasDel := fun _ => false
  hasFinalize := fun _ => false
  hasClear := fun _ => true
  finalized := fun _ => false
  isWeakref := fun _ => false
  wrCallback := fun _ => false
  wrTarget := fun _ => none
  wrList := fun _ => []

/-- Witness heap for C5: the externally unreferenced cycle `0 ↔ 1`, and
a live, externally referenced weak reference `2 → 0` with a callback;
`3` is the chain-root control block of `0`'s weakref list. -/
def hW5 : Heap where
  univ := [0, 1, 2]
  alive := fun o => o == 0 || o == 1 || o == 2
  children := fun o => if o = 0 then [1] else if o = 1 then [0] else []
  extRefs := fun o => if o = 2 then 1 else 0
  hasDel := fun _ => false
  hasFinalize := fun _ => false
  hasClear := fun _ => true
  finalized := fun _ => false
  isWeakref := fun o => o == 2
  wrCallback := fun o => o == 2
  wrTarget := fun o => if o = 2 then some 0 else none
  wrList := fun o => if o = 0 then [3, 2] else []

/-- Second counterexample heap for C6: `0` is an unreachable self-cycle
that also holds the only reference to the legacy-finalizer object `1`
(`tp_del`), which in turn holds the only external reference to the
self-cycle `2`.  The first collect moves `1` and `2` to the finalizers
list, clears and frees `0`, and the refcount cascade then frees `1`;
`2` survives unrooted, so the second collect counts it. -/
def heapD6 : Heap where
  univ := [0, 1, 2]
  alive := fun o => o == 0 || o == 1 || o == 2
  children := fun o =>
    if o = 0 then [0, 1] else if o = 1 then [2] else if o = 2 then [2] else []
  extRefs := fun _ => 0
  hasDel := fun o => o == 1
  hasFinalize := fun _ => false
  hasClear := fun _ => true
  finalized := fun _ => false
  isWeakref := fun _ => false
  wrCallback := fun _ => false
  wrTarget := fun _ => none
  wrList := fun _ => []

theorem Reaches.tail {children : Nat → List Nat} {base : List Nat}
    {refs0 : Nat → Nat} {x c : Nat}
    (hx : Reaches children base refs0 x) (hc : c ∈ children x) :
    Reaches children base refs0 c := by
  obtain ⟨r, h1, h2, h3⟩ := hx
  exact ⟨r, h1, h2, h3.tail hc⟩

theorem visitReachable_pres {children : Nat → List Nat} {inPlay : Nat → Bool}
    {base : List Nat} {refs0 : Nat → Nat} {s : MUState} {x c : Nat}
    (hnd : base.Nodup)
    (hx : Reaches children base refs0 x) (hc : c ∈ children x)
    (h : MUCore children base refs0 s) :
    MUCore children base refs0 (visitReachable inPlay s c) ∧
    (∀ o, s.refs o ≤ (visitReachable inPlay s c).refs o) ∧
    (inPlay c = true → 0 < (visitReachable inPlay s c).refs c) ∧
    (visitReachable inPlay s c).processed = s.processed ∧
    (visitReachable inPlay s c).pending.length +
      (visitReachable inPlay s c).unreach.length =
      s.pending.length + s.unreach.length := by
  by_cases h1 : inPlay c = false
  · have hv : visitReachable inPlay s c = s := by
      unfold visitReachable; rw [if_pos h1]
    rw [hv]
    refine ⟨h, fun o => le_refl _, ?_, rfl, rfl⟩
    intro hct; rw [hct] at h1; cases h1
  · have h1' : inPlay c = true := by
      revert h1; cases inPlay c <;> simp
    have hpartnd : (s.processed ++ s.pending ++ s.unreach).Nodup :=
      h.perm.symm.nodup hnd
    have hUnd : s.unreach.Nodup := hpartnd.of_append_right
    by_cases h2 : s.uflag c = true
    · -- the child is in the unreachable list: move it back to young
      have hcU : c ∈ s.unreach := (h.flag_iff c).mp h2
      have hcE : c ∉ s.unreach.erase c := hUnd.not_mem_erase
      have hv : visitReachable inPlay s c =
          { s with
            unreach := s.unreach.erase c
            pending := s.pending ++ [c]
            refs := Function.update s.refs c 1
            uflag := Function.update s.uflag c false } := by
        unfold visitReachable
        rw [if_neg (by rw [h1']; simp), if_pos h2]
      rw [hv]
      refine ⟨?_, ?_, ?_, rfl, ?_⟩
      · refine ⟨?_, ?_, ?_, ?_, ?_⟩
        · -- permutation
          show (s.processed ++ (s.pending ++ [c]) ++ s.unreach.erase c).Perm base
          have hsplit : s.unreach.Perm (c :: s.unreach.erase c) :=
            List.perm_cons_erase hcU
          have e1 : s.processed ++ (s.pending ++ [c]) ++ s.unreach.erase c
              = s.processed ++ (s.pending ++ (c :: s.unreach.erase c)) := by
            simp
          rw [e1]
          refine List.Perm.trans ?_ h.perm
          have e2 : s.processed ++ s.pending ++ s.unreach
              = s.processed ++ (s.pending ++ s.unreach) := by simp
          rw [e2]
          exact List.Perm.append_left s.processed
            (List.Perm.append_left s.pending hsplit.symm)
        · intro o
          show Function.update s.uflag c false o = true ↔ o ∈ s.unreach.erase c
          by_cases ho : o = c
          · subst ho
            simp [Function.update_same, hcE]
          · simp only [Function.update_noteq ho]
            rw [h.flag_iff o]
            constructor
            · intro hm; exact (List.mem_erase_of_ne ho).mpr hm
            · intro hm; exact List.mem_of_mem_erase hm
        · intro o hoE
          show Function.update s.refs c 1 o = 0
          have honeq : o ≠ c := by
            intro he; subst he; exact hcE hoE
          simp only [Function.update_noteq honeq]
          exact h.unreach_refs o (List.mem_of_mem_erase hoE)
        · intro o hpos
          show 0 < Function.update s.refs c 1 o
          by_cases ho : o = c
          · subst ho; simp [Function.update_same]
          · simp only [Function.update_noteq ho]; exact h.root_pos o hpos
        · intro o hob hpos
          by_cases ho : o = c
          · subst ho; exact hx.tail hc
          · replace hpos : 0 < Function.update s.refs c 1 o := hpos
            rw [Function.update_noteq ho] at hpos
            exact h.pos_reach o hob hpos
      · intro o
        show s.refs o ≤ Function.update s.refs c 1 o
        by_cases ho : o = c
        · subst ho
          rw [h.unreach_refs o hcU]
          exact Nat.zero_le _
        · rw [Function.update_noteq ho]
      · intro _
        show 0 < Function.update s.refs c 1 c
        simp [Function.update_same]
      · show (s.pending ++ [c]).length + (s.unreach.erase c).length
            = s.pending.length + s.unreach.length
        have hlen := List.length_erase_of_mem hcU
        have hpos : 0 < s.unreach.length := List.length_pos_of_mem hcU
        simp only [List.length_append, List.length_cons, List.length_nil, hlen]
        omega
    · by_cases h3 : s.refs c = 0
      · -- pending child with gc_refs = 0: bump it to 1
        have hcU : c ∉ s.unreach := fun hm => h2 ((h.flag_iff c).mpr hm)
        have hv : visitReachable inPlay s c =
            { s with refs := Function.update s.refs c 1 } := by
          unfold visitReachable
          rw [if_neg (by rw [h1']; simp), if_neg h2, if_pos h3]
        rw [hv]
        refine ⟨⟨h.perm, h.flag_iff, ?_, ?_, ?_⟩, ?_, ?_, rfl, rfl⟩
        · intro o hoU
          show Function.update s.refs c 1 o = 0
          have honeq : o ≠ c := by
            intro he; subst he; exact hcU hoU
          simp only [Function.update_noteq honeq]
          exact h.unreach_refs o hoU
        · intro o hpos
          show 0 < Function.update s.refs c 1 o
          by_cases ho : o = c
          · subst ho; simp [Function.update_same]
          · simp only [Function.update_noteq ho]; exact h.root_pos o hpos
        · intro o hob hpos
          by_cases ho : o = c
          · subst ho; exact hx.tail hc
          · replace hpos : 0 < Function.update s.refs c 1 o := hpos
            rw [Function.update_noteq ho] at hpos
            exact h.pos_reach o hob hpos
        · intro o
          show s.refs o ≤ Function.update s.refs c 1 o
          by_cases ho : o = c
          · subst ho; rw [h3]; exact Nat.zero_le _
          · rw [Function.update_noteq ho]
        · intro _
          show 0 < Function.update s.refs c 1 c
          simp [Function.update_same]
      · -- child already has positive gc_refs: nothing to do
        have hv : visitReachable inPlay s c = s := by
          unfold visitReachable
          rw [if_neg (by rw [h1']; simp), if_neg h2, if_neg h3]
        rw [hv]
        exact ⟨h, fun o => le_refl _, fun _ => Nat.pos_of_ne_zero h3, rfl, rfl⟩

theorem traverseAll_pres {children : Nat → List Nat} {inPlay : Nat → Bool}
    {base : List Nat} {refs0 : Nat → Nat} {x : Nat}
    (hnd : base.Nodup) (hx : Reaches children base refs0 x) :
    ∀ (cs : List Nat) (s : MUState), MUCore children base refs0 s →
    (∀ c ∈ cs, c ∈ children x) →
    MUCore children base refs0 (traverseAll inPlay cs s) ∧
    (∀ o, s.refs o ≤ (traverseAll inPlay cs s).refs o) ∧
    (∀ c ∈ cs, inPlay c = true → 0 < (traverseAll inPlay cs s).refs c) ∧
    (traverseAll inPlay cs s).processed = s.processed ∧
    (traverseAll inPlay cs s).pending.length +
      (traverseAll inPlay cs s).unreach.length =
      s.pending.length + s.unreach.length := by
  intro cs
  induction cs with
  | nil =>
    intro s h _
    exact ⟨h, fun o => le_refl _, by simp, rfl, rfl⟩
  | cons c cs ih =>
    intro s h hsub
    have hc : c ∈ children x := hsub c (by simp)
    obtain ⟨h1, h2, h3, h4, h5⟩ :=
      @visitReachable_pres children inPlay base refs0 s x c hnd hx hc h
    have hsub' : ∀ d ∈ cs, d ∈ children x := fun d hd => hsub d (by simp [hd])
    obtain ⟨g1, g2, g3, g4, g5⟩ := ih (visitReachable inPlay s c) h1 hsub'
    have heq : traverseAll inPlay (c :: cs) s
        = traverseAll inPlay cs (visitReachable inPlay s c) := rfl
    rw [heq]
    refine ⟨g1, ?_, ?_, ?_, ?_⟩
    · intro o; exact le_trans (h2 o) (g2 o)
    · intro d hd hdp
      rcases List.mem_cons.mp hd with hdc | hdcs
      · subst hdc
        exact Nat.lt_of_lt_of_le (h3 hdp) (g2 d)
      · exact g3 d hdcs hdp
    · rw [g4, h4]
    · rw [g5, h5]

theorem muStep_pres {children : Nat → List Nat} {inPlay : Nat → Bool}
    {base : List Nat} {refs0 : Nat → Nat} {s : MUState} {x : Nat}
    {rest : List Nat}
    (hnd : base.Nodup) (hcore : MUCore children base refs0 s)
    (hproc : ProcOK children inPlay s s.processed)
    (hpend : s.pending = x :: rest) :
    MUCore children base refs0 (muStep children inPlay s x rest) ∧
    ProcOK children inPlay (muStep children inPlay s x rest)
      (muStep children inPlay s x rest).processed ∧
    (∀ o, s.refs o ≤ (muStep children inPlay s x rest).refs o) ∧
    muMeasure (muStep children inPlay s x rest) < muMeasure s := by
  by_cases hr : 0 < s.refs x
  · -- the object at the cursor is proven reachable: traverse it
    have hxbase : x ∈ base := by
      refine hcore.perm.subset ?_
      simp [hpend]
    have hxreach : Reaches children base refs0 x :=
      hcore.pos_reach x hxbase hr
    have hv : muStep children inPlay s x rest =
        traverseAll inPlay (children x)
          { s with processed := s.processed ++ [x], pending := rest } := by
      unfold muStep; rw [if_pos hr]
    set sMid : MUState :=
      { s with processed := s.processed ++ [x], pending := rest } with hsMid
    have hcoreMid : MUCore children base refs0 sMid := by
      refine ⟨?_, hcore.flag_iff, hcore.unreach_refs, hcore.root_pos,
        hcore.pos_reach⟩
      show ((s.processed ++ [x]) ++ rest ++ s.unreach).Perm base
      have e : (s.processed ++ [x]) ++ rest ++ s.unreach
          = s.processed ++ (x :: rest) ++ s.unreach := by simp
      rw [e, ← hpend]
      exact hcore.perm
    obtain ⟨g1, g2, g3, g4, g5⟩ :=
      @traverseAll_pres children inPlay base refs0 x hnd hxreach (children x)
        sMid hcoreMid (fun c hc => hc)
    rw [hv]
    refine ⟨g1, ⟨?_, ?_⟩, ?_, ?_⟩
    · intro o ho
      rw [g4] at ho
      show 0 < (traverseAll inPlay (children x) sMid).refs o
      rcases List.mem_append.mp ho with ho' | ho'
      · exact Nat.lt_of_lt_of_le (hproc.1 o ho') (g2 o)
      · have : o = x := by simpa using ho'
        subst this
        exact Nat.lt_of_lt_of_le hr (g2 o)
    · intro o ho c hc hcp
      rw [g4] at ho
      rcases List.mem_append.mp ho with ho' | ho'
      · exact Nat.lt_of_lt_of_le (hproc.2 o ho' c hc hcp) (g2 c)
      · have : o = x := by simpa using ho'
        subst this
        exact g3 c hc hcp
    · exact g2
    · -- measure strictly decreases
      show muMeasure (traverseAll inPlay (children x) sMid) < muMeasure s
      have hsum : (traverseAll inPlay (children x) sMid).pending.length +
          (traverseAll inPlay (children x) sMid).unreach.length
          = rest.length + s.unreach.length := g5
      have hple : (traverseAll inPlay (children x) sMid).pending.length ≤
          rest.length + s.unreach.length := by omega
      unfold muMeasure
      rw [hsum, hpend]
      simp only [List.length_cons]
      have hA2 : rest.length + 1 + s.unreach.length
          = (rest.length + s.unreach.length) + 1 := by omega
      rw [hA2]
      set B := rest.length + s.unreach.length with hB
      have key : B * B + (traverseAll inPlay (children x) sMid).pending.length
          ≤ B * B + B := Nat.add_le_add_left hple _
      refine Nat.lt_of_le_of_lt key ?_
      have e : (B + 1) * (B + 1) = B * B + 2 * B + 1 := by ring
      rw [e]
      have h1 : B * B + B < B * B + (2 * B + 1) :=
        Nat.add_lt_add_left (by omega) (B * B)
      have h2 : B * B + (2 * B + 1) = B * B + 2 * B + 1 := by ring
      rw [h2] at h1
      exact Nat.lt_of_lt_of_le h1 (Nat.le_add_right _ _)
  · -- the object at the cursor may be unreachable: move it out
    have hrz : s.refs x = 0 := Nat.eq_zero_of_not_pos hr
    have hv : muStep children inPlay s x rest =
        { s with
          pending := rest
          unreach := s.unreach ++ [x]
          uflag := Function.update s.uflag x true } := by
      unfold muStep; rw [if_neg hr]
    rw [hv]
    have hxU : x ∉ s.unreach := by
      have hpartnd : (s.processed ++ s.pending ++ s.unreach).Nodup :=
        hcore.perm.symm.nodup hnd
      intro hmem
      have hdisj : (s.processed ++ s.pending).Disjoint s.unreach :=
        List.disjoint_of_nodup_append hpartnd
      exact hdisj (by simp [hpend]) hmem
    refine ⟨⟨?_, ?_, ?_, hcore.root_pos, hcore.pos_reach⟩, ⟨hproc.1, hproc.2⟩,
      fun o => le_refl _, ?_⟩
    · show (s.processed ++ rest ++ (s.unreach ++ [x])).Perm base
      have base_step : List.Perm ((rest ++ s.unreach) ++ [x])
          (x :: (rest ++ s.unreach)) := by
        have hp := @List.perm_append_comm _ (rest ++ s.unreach) [x]
        simpa using hp
      refine List.Perm.trans ?_ hcore.perm
      rw [hpend]
      have e1 : s.processed ++ rest ++ (s.unreach ++ [x])
          = s.processed ++ ((rest ++ s.unreach) ++ [x]) := by simp
      have e2 : s.processed ++ (x :: rest) ++ s.unreach
          = s.processed ++ (x :: (rest ++ s.unreach)) := by simp
      rw [e1, e2]
      exact List.Perm.append_left s.processed base_step
    · intro o
      show Function.update s.uflag x true o = true ↔ o ∈ s.unreach ++ [x]
      by_cases ho : o = x
      · subst ho; simp [Function.update_same]
      · simp only [Function.update_noteq ho]
        rw [hcore.flag_iff o]
        simp [List.mem_append, ho]
    · intro o hoU
      rcases List.mem_append.mp hoU with ho' | ho'
      · exact hcore.unreach_refs o ho'
      · have : o = x := by simpa using ho'
        subst this; exact hrz
    · unfold muMeasure
      simp only [List.length_append, List.length_cons, List.length_nil]
      rw [hpend]
      simp only [List.length_cons]
      have e : rest.length + (s.unreach.length + 1)
          = rest.length + 1 + s.unreach.length := by omega
      rw [e]
      exact Nat.add_lt_add_left (by omega) _

theorem muLoop_end {children : Nat → List Nat} {inPlay : Nat → Bool}
    {base : List Nat} {refs0 : Nat → Nat}
    (hnd : base.Nodup) :
    ∀ (fuel : Nat) (s : MUState), muMeasure s < fuel →
    MUCore children base refs0 s → ProcOK children inPlay s s.processed →
    (muLoop children inPlay fuel s).pending = [] ∧
    MUCore children base refs0 (muLoop children inPlay fuel s) ∧
    ProcOK children inPlay (muLoop children inPlay fuel s)
      (muLoop children inPlay fuel s).processed ∧
    (∀ o, s.refs o ≤ (muLoop children inPlay fuel s).refs o) := by
  intro fuel
  induction fuel with
  | zero => intro s hm; omega
  | succ fuel ih =>
    intro s hm hcore hproc
    match hpend : s.pending with
    | [] =>
      have hv : muLoop children inPlay (fuel + 1) s = s := by
        unfold muLoop; rw [hpend]
      rw [hv]
      exact ⟨hpend, hcore, hproc, fun o => le_refl _⟩
    | x :: rest =>
      have hv : muLoop children inPlay (fuel + 1) s
          = muLoop children inPlay fuel (muStep children inPlay s x rest) := by
        conv_lhs => unfold muLoop
        rw [hpend]
      obtain ⟨g1, g2, g3, g4⟩ := muStep_pres hnd hcore hproc hpend
      have hm' : muMeasure (muStep children inPlay s x rest) < fuel := by omega
      obtain ⟨f1, f2, f3, f4⟩ := ih (muStep children inPlay s x rest) hm' g1 g2
      rw [hv]
      exact ⟨f1, f2, f3, fun o => le_trans (g3 o) (f4 o)⟩

theorem mem_base_of_path {children : Nat → List Nat} {base : List Nat}
    (hcl : ∀ o ∈ base, ∀ c ∈ children o, c ∈ base) {r o : Nat}
    (hr : r ∈ base) (hp : Relation.ReflTransGen (Edge children) r o) :
    o ∈ base := by
  induction hp with
  | refl => exact hr
  | tail _ e ih => exact hcl _ ih _ e

/-- Full correctness of `deduce_unreachable` (gcmodule.c:1581-1622): on a
duplicate-free `base` closed under `children` (the heap walk puts every
tracked object into `young`, so traversal never leaves the list), the
scan terminates with `pending` empty; the survivors plus the unreachable
list are a permutation of `base`; the survivors are exactly the objects
reachable from some object whose entry `gc_refs` is positive; members of
the unreachable list carry the `UNREACHABLE` bit (and nothing else does),
have final `gc_refs = 0`, and `gc_refs` never decreases during the scan. -/
theorem deduce_unreachable_spec (children : Nat → List Nat)
    (inPlay : Nat → Bool) (base : List Nat) (refs0 : Nat → Nat)
    (hnd : base.Nodup)
    (hcl : ∀ o ∈ base, ∀ c ∈ children o, c ∈ base)
    (hip : ∀ o ∈ base, inPlay o = true) :
    (deduce_unreachable children inPlay base refs0).pending = [] ∧
    ((deduce_unreachable children inPlay base refs0).processed ++
      (deduce_unreachable children inPlay base refs0).unreach).Perm base ∧
    (∀ o ∈ base, Reaches children base refs0 o →
      o ∈ (deduce_unreachable children inPlay base refs0).processed) ∧
    (∀ o ∈ (deduce_unreachable children inPlay base refs0).processed,
      Reaches children base refs0 o) ∧
    (∀ o ∈ base, ¬ Reaches children base refs0 o →
      o ∈ (deduce_unreachable children inPlay base refs0).unreach) ∧
    (∀ o, (deduce_unreachable children inPlay base refs0).uflag o = true ↔
      o ∈ (deduce_unreachable children inPlay base refs0).unreach) ∧
    (∀ o ∈ (deduce_unreachable children inPlay base refs0).unreach,
      ¬ Reaches children base refs0 o ∧
      (deduce_unreachable children inPlay base refs0).refs o = 0) ∧
    (∀ o, refs0 o ≤ (deduce_unreachable children inPlay base refs0).refs o) := by
  have hcore0 : MUCore children base refs0 ⟨[], base, [], refs0, fun _ => false⟩ := by
    refine ⟨by simp, by simp, by simp, fun o h => h, ?_⟩
    intro o hob hpos
    exact ⟨o, hob, hpos, Relation.ReflTransGen.refl⟩
  have hproc0 : ProcOK children inPlay
      ⟨[], base, [], refs0, fun _ => false⟩ [] := by
    constructor <;> simp
  have hm0 : muMeasure ⟨[], base, [], refs0, fun _ => false⟩ < fuelFor base := by
    unfold muMeasure fuelFor
    simp
  obtain ⟨f1, f2, f3, f4⟩ :=
    @muLoop_end children inPlay base refs0 hnd (fuelFor base)
      ⟨[], base, [], refs0, fun _ => false⟩ hm0 hcore0 hproc0
  set t := deduce_unreachable children inPlay base refs0 with ht
  have htt : t = muLoop children inPlay (fuelFor base)
      ⟨[], base, [], refs0, fun _ => false⟩ := rfl
  rw [← htt] at f1 f2 f3 f4
  have hperm2 : (t.processed ++ t.unreach).Perm base := by
    have := f2.perm
    rw [f1] at this
    simpa using this
  have hsound : ∀ o ∈ t.processed, Reaches children base refs0 o := by
    intro o ho
    refine f2.pos_reach o ?_ (f3.1 o ho)
    exact hperm2.subset (by simp [ho])
  have hnd2 : (t.processed ++ t.unreach).Nodup := hperm2.symm.nodup hnd
  have hdisj : t.processed.Disjoint t.unreach :=
    List.disjoint_of_nodup_append hnd2
  have hcomplete : ∀ o, Reaches children base refs0 o → o ∈ base →
      o ∈ t.processed := by
    intro o hreach
    obtain ⟨r, hrb, hrpos, hpath⟩ := hreach
    induction hpath with
    | refl =>
      intro _
      have hpos : 0 < t.refs r := f2.root_pos r hrpos
      have hrint : r ∈ t.processed ++ t.unreach := hperm2.symm.subset hrb
      rcases List.mem_append.mp hrint with h' | h'
      · exact h'
      · exfalso
        have := (f2.unreach_refs r h')
        omega
    | @tail b o hsteps hedge ih =>
      intro _
      have hbb : b ∈ base := mem_base_of_path hcl hrb hsteps
      have hbp : b ∈ t.processed := ih hbb
      have hob : o ∈ base := hcl b hbb o hedge
      have hpos : 0 < t.refs o :=
        f3.2 b hbp o hedge (hip o hob)
      have hoint : o ∈ t.processed ++ t.unreach := hperm2.symm.subset hob
      rcases List.mem_append.mp hoint with h' | h'
      · exact h'
      · exfalso
        have := f2.unreach_refs o h'
        omega
  refine ⟨f1, hperm2, ?_, hsound, ?_, f2.flag_iff, ?_, f4⟩
  · intro o hob hreach
    exact hcomplete o hreach hob
  · intro o hob hnreach
    have hoint : o ∈ t.processed ++ t.unreach := hperm2.symm.subset hob
    rcases List.mem_append.mp hoint with h' | h'
    · exact absurd (hsound o h') hnreach
    · exact h'
  · intro o hoU
    refine ⟨?_, f2.unreach_refs o hoU⟩
    intro hreach
    have hob : o ∈ base := hperm2.subset (by simp [hoU])
    exact hdisj (hcomplete o hreach hob) hoU

section Sanity

/-- Sanity: cycle `0 ↔ 1` with no external references is fully moved to
`unreachable`, object `2` with an external count stays. -/
example :
    let ch : Nat → List Nat := fun o => if o = 0 then [1] else if o = 1 then [0] else []
    let s := deduce_unreachable ch (fun o => decide (o < 3)) [0, 1, 2]
      (fun o => if o = 2 then 1 else 0)
    s.processed = [2] ∧ s.unreach = [0, 1] ∧ s.pending = [] := by
  refine ⟨?_, ?_, ?_⟩ <;> rfl

/-- Sanity: chain `2 → 1 → 0` rooted at `2`: objects 0 and 1 are moved out
and then rescued in reverse order, as the comment block in
`deduce_unreachable` describes. -/
example :
    let ch : Nat → List Nat := fun o => if o = 2 then [1] else if o = 1 then [0] else []
    let s := deduce_unreachable ch (fun o => decide (o < 3)) [0, 1, 2]
      (fun o => if o = 2 then 1 else 0)
    s.processed = [2, 1, 0] ∧ s.unreach = [] ∧ s.pending = [] := by
  refine ⟨?_, ?_, ?_⟩ <;> rfl

end Sanity

theorem foldl_visit_decref (h : Heap) :
    ∀ (cs : List Nat) (r : Nat → Nat) (o : Nat), h.alive o = true →
    (cs.foldl (visit_decref h) r) o = r o - cs.count o := by
  intro cs
  induction cs with
  | nil => intro r o _; simp
  | cons c cs ih =>
    intro r o ho
    have step : List.foldl (visit_decref h) r (c :: cs)
        = List.foldl (visit_decref h) (visit_decref h r c) cs := rfl
    rw [step, ih _ o ho]
    by_cases hco : c = o
    · subst hco
      have : visit_decref h r c c = r c - 1 := by
        unfold visit_decref
        rw [if_pos ho]
        simp [Function.update_same]
      rw [this, List.count_cons_self]
      omega
    · have : visit_decref h r c o = r o := by
        unfold visit_decref
        by_cases hc : h.alive c = true
        · rw [if_pos hc]
          exact Function.update_noteq (fun he => hco he.symm) _ _
        · rw [if_neg hc]
      rw [this, List.count_cons_of_ne (fun he => hco he.symm)]

theorem foldl_visit_decref_dead (h : Heap) :
    ∀ (cs : List Nat) (r : Nat → Nat) (o : Nat), h.alive o = false →
    (cs.foldl (visit_decref h) r) o = r o := by
  intro cs
  induction cs with
  | nil => intro r o _; rfl
  | cons c cs ih =>
    intro r o ho
    have step : List.foldl (visit_decref h) r (c :: cs)
        = List.foldl (visit_decref h) (visit_decref h r c) cs := rfl
    rw [step, ih _ o ho]
    unfold visit_decref
    by_cases hc : h.alive c = true
    · rw [if_pos hc]
      have hco : c ≠ o := by
        intro he; subst he; rw [hc] at ho; cases ho
      exact Function.update_noteq (fun he => hco he.symm) _ _
    · rw [if_neg hc]

theorem subtract_refs_eval (h : Heap) :
    ∀ (ys : List Nat) (r : Nat → Nat) (o : Nat), h.alive o = true →
    subtract_refs h ys r o = r o - refsFrom h ys o := by
  intro ys
  induction ys with
  | nil => intro r o _; simp [subtract_refs, refsFrom]
  | cons p ys ih =>
    intro r o ho
    have step : subtract_refs h (p :: ys) r
        = subtract_refs h ys ((h.children p).foldl (visit_decref h) r) := rfl
    rw [step, ih _ o ho, foldl_visit_decref h _ r o ho]
    have : refsFrom h (p :: ys) o
        = (h.children p).count o + refsFrom h ys o := by
      simp [refsFrom]
    rw [this]
    omega

theorem subtract_refs_dead (h : Heap) :
    ∀ (ys : List Nat) (r : Nat → Nat) (o : Nat), h.alive o = false →
    subtract_refs h ys r o = r o := by
  intro ys
  induction ys with
  | nil => intro r o _; rfl
  | cons p ys ih =>
    intro r o ho
    have step : subtract_refs h (p :: ys) r
        = subtract_refs h ys ((h.children p).foldl (visit_decref h) r) := rfl
    rw [step, ih _ o ho, foldl_visit_decref_dead h _ r o ho]

/-- C1: for every finite input list `base` (each object's scratch
`gc_refs` holding its count of references from outside the list) and
every traverse callback enumerating exactly the object's outgoing
references, `deduce_unreachable(base, unreachable)` (via
`move_unreachable`) partitions the input: every object directly or
indirectly reachable from some object with `gc_refs > 0` remains in
`base` (the surviving `processed` part of the scan state), and every
other object ends up in `unreachable` with its `UNREACHABLE` flag set. -/
theorem C1_deduce_unreachable_partitions (children : Nat → List Nat)
    (inPlay : Nat → Bool) (base : List Nat) (refs0 : Nat → Nat)
    (hnd : base.Nodup)
    (hcl : ∀ o ∈ base, ∀ c ∈ children o, c ∈ base)
    (hip : ∀ o ∈ base, inPlay o = true) :
    (∀ o ∈ base, Reaches children base refs0 o →
      o ∈ (deduce_unreachable children inPlay base refs0).processed) ∧
    (∀ o ∈ base, ¬ Reaches children base refs0 o →
      o ∈ (deduce_unreachable children inPlay base refs0).unreach ∧
      (deduce_unreachable children inPlay base refs0).uflag o = true) ∧
    ((deduce_unreachable children inPlay base refs0).processed ++
      (deduce_unreachable children inPlay base refs0).unreach).Perm base := by
  obtain ⟨_, hperm, hcompl, _, hunr, hflag, _, _⟩ :=
    deduce_unreachable_spec children inPlay base refs0 hnd hcl hip
  refine ⟨hcompl, ?_, hperm⟩
  intro o hob hnr
  have hm := hunr o hob hnr
  exact ⟨hm, (hflag o).mpr hm⟩

theorem C1_witness :
    [0, 1, 2].Nodup ∧
    0 ∈ (deduce_unreachable chainChildren (fun o => decide (o < 3))
      [0, 1, 2] chainRefs).processed := by
  refine ⟨by decide, ?_⟩
  have h := C1_deduce_unreachable_partitions chainChildren
    (fun o => decide (o < 3)) [0, 1, 2] chainRefs
    (by decide) (by decide) (by decide)
  refine h.1 0 (by decide) ?_
  refine ⟨2, by decide, by decide, ?_⟩
  have e21 : Edge chainChildren 2 1 := by
    show (1 : Nat) ∈ chainChildren 2
    decide
  have e10 : Edge chainChildren 1 0 := by
    show (0 : Nat) ∈ chainChildren 1
    decide
  exact Relation.ReflTransGen.tail (Relation.ReflTransGen.single e21) e10

/-- C2: after Pass B, given that `update_refs` initialised every tracked
object's `gc_refs` to its effective refcount, `subtract_refs(young)`
traverses every object and decrements each visited tracked child's
scratch count; at exit every tracked object's `gc_refs` equals the
number of references to it from outside `young` (untracked ids are
never decremented). -/
theorem C2_subtract_refs_external (h : Heap) :
    (∀ o, h.alive o = true →
      subtract_refs h (aliveList h) (update_refs h) o = h.extRefs o) ∧
    (∀ o, h.alive o = false →
      subtract_refs h (aliveList h) (update_refs h) o = update_refs h o) := by
  constructor
  · intro o ho
    rw [subtract_refs_eval h (aliveList h) _ o ho]
    show refcnt h o - refsFrom h (aliveList h) o = h.extRefs o
    unfold refcnt
    omega
  · intro o ho
    exact subtract_refs_dead h (aliveList h) _ o ho

/-- C3 counterexample: on the cycle `A ↔ B` with `A` carrying `tp_del`,
`collect()` does not return 0 (it returns `n_collected + n_uncollectable
= 0 + 2 = 2`), and `B` does not appear on the `garbage` list (only
objects with a legacy finalizer are appended when `SAVEALL` is off). -/
theorem C3_counterexample :
    (collectCount heapC3 false = 0 → False) ∧
    ((1 : Nat) ∈ (collect heapC3 false).garbage → False) := by
  constructor
  · intro hc
    have : collectCount heapC3 false = 2 := by decide
    rw [this] at hc
    cases hc
  · intro hm
    have : (collect heapC3 false).garbage = [0] := by decide
    rw [this] at hm
    exact absurd hm (by decide)

/-- C3 amended: one `collect()` on the externally unreachable cycle
`A ↔ B` with `A` carrying `tp_del` returns 2 (both objects are counted
uncollectable), frees neither object, and appends exactly `A` — not `B`
— to the user-visible `garbage` list (`B` would join it only under
`SAVEALL`). -/
theorem C3_legacy_cycle_uncollectable :
    collectCount heapC3 false = 2 ∧
    (collect heapC3 false).nCollected = 0 ∧
    (collect heapC3 false).nUncollectable = 2 ∧
    (collect heapC3 false).heap.alive 0 = true ∧
    (collect heapC3 false).heap.alive 1 = true ∧
    (collect heapC3 false).garbage = [0] := by
  refine ⟨?_, ?_, ?_, ?_, ?_, ?_⟩ <;> decide

theorem handle_legacy_finalizers_alive (saveall : Bool) :
    ∀ (fin : List Nat) (h : Heap) (g : List Nat) (o : Nat),
    (handle_legacy_finalizers h saveall fin g).1.alive o = h.alive o := by
  intro fin
  induction fin with
  | nil => intro h g o; rfl
  | cons x fin ih =>
    intro h g o
    have step : handle_legacy_finalizers h saveall (x :: fin) g
        = handle_legacy_finalizers
            (if saveall || h.hasDel x then
              { h with extRefs := Function.update h.extRefs x (h.extRefs x + 1) }
             else h)
            saveall fin
            (if saveall || h.hasDel x then g ++ [x] else g) := by
      unfold handle_legacy_finalizers
      by_cases hc : (saveall || h.hasDel x) = true
      · simp only [List.foldl, hc, if_true]
      · simp only [List.foldl, hc, if_false]
        have hc' : (saveall || h.hasDel x) = false := by
          revert hc; cases saveall || h.hasDel x <;> simp
        simp [hc']
    rw [step]
    by_cases hc : (saveall || h.hasDel x) = true
    · rw [if_pos hc, if_pos hc, ih]
    · rw [if_neg hc, if_neg hc, ih]

/-- C10: the value returned by a completed `collect` equals the number
of weakref objects drained during callback invocation plus the size of
the final unreachable set — measured before `tp_clear` runs, so objects
that resurrect during `tp_clear` are still counted — plus the number of
uncollectable objects left on the legacy-finalizers list; those
uncollectable objects contribute to the count even though the collection
leaves them alive. -/
theorem C10_collect_return_formula (h : Heap) (saveall : Bool) :
    collectCount h saveall
      = (wrPhase h).2.2 + (final_unreachable h).length
        + (uncollectableOf h saveall).length ∧
    (∀ o ∈ uncollectableOf h saveall,
      (collect h saveall).heap.alive o = true) := by
  constructor
  · rfl
  · intro o ho
    show (hlPhase h saveall).1.alive o = true
    unfold hlPhase
    rw [handle_legacy_finalizers_alive]
    exact (List.mem_filter.mp ho).2

theorem C10_witness :
    collectCount heapC3 false
      = (wrPhase heapC3).2.2 + (final_unreachable heapC3).length
        + (uncollectableOf heapC3 false).length ∧
    (collect heapC3 false).heap.alive 0 = true := by
  obtain ⟨h1, h2⟩ := C10_collect_return_formula heapC3 false
  exact ⟨h1, h2 0 (by decide)⟩

theorem runHookList_false : ∀ rs : List Bool, runHookList rs false = false := by
  intro rs
  induction rs with
  | nil => rfl
  | cons r rs ih =>
    have step : runHookList (r :: rs) false
        = runHookList rs (reportUnraisable false r) := rfl
    rw [step]
    have : reportUnraisable false r = false := by
      unfold reportUnraisable
      cases r <;> simp
    rw [this, ih]

/-- C7: whatever subset of `tp_finalize`, `tp_clear`, weakref-callback
and user GC-callback invocations raise, a completed `collect` returns
with no ambient exception set (failures are reported unraisably, or
silently cleared during shutdown); `PyGC_Collect` hands back exactly the
exception its caller already had; and only the generation-argument
validation of `gc.collect()` surfaces an error to the caller. -/
theorem C7_no_ambient_exception (shutdown : Bool)
    (startCb wrCb fin clears : List Bool) (appendFails : Bool)
    (stopCb : List Bool) :
    collectErrFlow shutdown startCb wrCb fin clears appendFails stopCb
      = false ∧
    (∀ errIn, pyGC_Collect_err errIn = errIn) ∧
    (∀ (g : Int) (count : Nat),
      gc_collect_impl g count = Except.error ()
        ↔ (g < 0 ∨ (NUM_GENERATIONS : Int) ≤ g)) := by
  refine ⟨?_, fun _ => rfl, ?_⟩
  · have key : ∀ e : Bool, endOfCollectCheck e = false := by
      intro e; cases e <;> rfl
    unfold collectErrFlow
    simp only [key]
    cases shutdown <;> simp [runHookList_false]
  · intro g count
    unfold gc_collect_impl
    by_cases hg : g < 0 ∨ (NUM_GENERATIONS : Int) ≤ g
    · rw [if_pos hg]
      simp [hg]
    · rw [if_neg hg]
      simp [hg]

/-- C8: after every completed collection `update_gc_threshold` sets the
trigger threshold to `max(7000, live + (live * scale) / 100)` with C
truncating integer division, where `scale` defaults to 100 and is
overridden by the environment variable read once at startup. -/
theorem C8_threshold_formula :
    (∀ live scale : Int,
      update_gc_threshold live scale
        = max 7000 (live + Int.tdiv (live * scale) 100)) ∧
    initScale none = 100 ∧
    (∀ k : Int, initScale (some k) = k) := by
  refine ⟨?_, rfl, fun k => rfl⟩
  intro live scale
  unfold update_gc_threshold
  by_cases hx : live + Int.tdiv (live * scale) 100 < 7000
  · rw [if_pos hx]
    exact (max_eq_left (le_of_lt hx)).symm
  · rw [if_neg hx]
    exact (max_eq_right (le_of_not_lt hx)).symm

/-- C9 divergence: for every admissible assignment of the status enum
(`GEN_STARTED` and `GEN_YIELD` distinct and below `GEN_RUNNING`), a
suspended generator (`status = GEN_YIELD < GEN_RUNNING`) sent a non-None
argument refutes the claim: the guard cannot both signal TypeError
exactly when `status == GEN_STARTED` and leave `gen->status` unchanged.
If `GEN_STARTED ≠ 0` the code raises TypeError although the status is
not `GEN_STARTED`; if `GEN_STARTED = 0` the code never raises and
overwrites the status with 0. -/
theorem C9_gen_send_guard_diverges (genStarted genYield genRunning : Nat)
    (h1 : genStarted < genRunning) (h2 : genYield < genRunning)
    (h3 : genStarted ≠ genYield) :
    ¬ (((pyGen2SendGuard genStarted { status := genYield } false).2 = true
          ↔ genYield = genStarted) ∧
       (pyGen2SendGuard genStarted { status := genYield } false).1.status
          = genYield) := by
  intro hcontra
  obtain ⟨hiff, hstat⟩ := hcontra
  by_cases hz : genStarted = 0
  · -- GEN_STARTED = 0: the assignment overwrites the status with 0
    have hv : (pyGen2SendGuard genStarted { status := genYield } false).1.status
        = 0 := by
      unfold pyGen2SendGuard
      simp [hz]
    rw [hv] at hstat
    exact h3 (by omega)
  · -- GEN_STARTED ≠ 0: TypeError is raised although status ≠ GEN_STARTED
    have hv : (pyGen2SendGuard genStarted { status := genYield } false).2
        = true := by
      unfold pyGen2SendGuard
      simp [hz]
    exact h3 ((hiff.mp hv).symm)

theorem C9_witness :
    (0 : Nat) < 2 ∧ (1 : Nat) < 2 ∧ (0 : Nat) ≠ 1 ∧
    ¬ (((pyGen2SendGuard 0 { status := 1 } false).2 = true ↔ (1 : Nat) = 0) ∧
       (pyGen2SendGuard 0 { status := 1 } false).1.status = 1) :=
  ⟨by decide, by decide, by decide,
   C9_gen_send_guard_diverges 0 1 2 (by decide) (by decide) (by decide)⟩

theorem foldl_preserve {α β : Type} {f : β → α → β} {P : β → Prop}
    (hf : ∀ b a, P b → P (f b a)) :
    ∀ (l : List α) (b : β), P b → P (l.foldl f b) := by
  intro l
  induction l with
  | nil => intro b hb; exact hb
  | cons a l ih => intro b hb; exact ih _ (hf b a hb)

theorem reapN_finalized : ∀ (k : Nat) (h : Heap),
    (reapN k h).finalized = h.finalized := by
  intro k
  induction k with
  | zero => intro h; rfl
  | succ k ih => intro h; exact ih (reapStep h)

theorem reap_finalized (h : Heap) : (reap h).finalized = h.finalized :=
  reapN_finalized _ _

theorem clearAllWeakrefs_finalized (h : Heap) (op : Nat) :
    (clearAllWeakrefs h op).finalized = h.finalized := by
  unfold clearAllWeakrefs
  have key : ∀ (l : List Nat) (hh : Heap), hh.finalized = h.finalized →
      (l.foldl clearWeakref hh).finalized = h.finalized :=
    foldl_preserve (fun b a hb => hb)
  exact key _ h rfl

theorem hw_obj_body_finalized (uflag : Nat → Bool) (h1 : Heap)
    (wcb : List Nat) (op : Nat) :
    (hw_obj_body uflag h1 wcb op).1.finalized = h1.finalized := by
  unfold hw_obj_body
  by_cases hL : h1.wrList op = []
  · rw [if_pos hL]
  · rw [if_neg hL]
    show (clearAllWeakrefs _ op).finalized = h1.finalized
    rw [clearAllWeakrefs_finalized]
    have key : ∀ (l : List Nat) (hh : Heap), hh.finalized = h1.finalized →
        ((l.foldl extBump hh).finalized = h1.finalized) :=
      foldl_preserve (fun b a hb => hb)
    exact key _ _ rfl

theorem hw_obj_finalized (uflag : Nat → Bool) (acc : Heap × List Nat)
    (op : Nat) : (hw_obj uflag acc op).1.finalized = acc.1.finalized := by
  unfold hw_obj
  rw [hw_obj_body_finalized]
  by_cases hw : acc.1.isWeakref op = true
  · rw [if_pos hw]; rfl
  · rw [if_neg hw]

theorem hw_invoke_finalized (acc : Heap × List GCEvent × Nat) (wr : Nat) :
    (hw_invoke acc wr).1.finalized = acc.1.finalized := by
  unfold hw_invoke
  by_cases hz : refcnt { acc.1 with
      extRefs := Function.update acc.1.extRefs wr (acc.1.extRefs wr - 1) } wr
      = 0
  · rw [if_pos hz]
    show (reap _).finalized = acc.1.finalized
    rw [reap_finalized]
  · rw [if_neg hz]

theorem handle_weakrefs_finalized (h : Heap) (unreach : List Nat)
    (uflag : Nat → Bool) :
    (handle_weakrefs h unreach uflag).1.finalized = h.finalized := by
  unfold handle_weakrefs
  have k1 : ∀ (l : List Nat) (acc : Heap × List Nat),
      acc.1.finalized = h.finalized →
      (l.foldl (hw_obj uflag) acc).1.finalized = h.finalized :=
    foldl_preserve (fun b a hb => by rw [hw_obj_finalized]; exact hb)
  have k2 : ∀ (l : List Nat) (acc : Heap × List GCEvent × Nat),
      acc.1.finalized = h.finalized →
      (l.foldl hw_invoke acc).1.finalized = h.finalized :=
    foldl_preserve (fun b a hb => by rw [hw_invoke_finalized]; exact hb)
  exact k2 _ _ (k1 _ _ rfl)

theorem handle_weakrefs_events_callback (h : Heap) (unreach : List Nat)
    (uflag : Nat → Bool) :
    ∀ e ∈ (handle_weakrefs h unreach uflag).2.1, ∃ w, e = GCEvent.callbackEv w := by
  unfold handle_weakrefs
  have key : ∀ (l : List Nat) (acc : Heap × List GCEvent × Nat),
      (∀ e ∈ acc.2.1, ∃ w, e = GCEvent.callbackEv w) →
      (∀ e ∈ (l.foldl hw_invoke acc).2.1, ∃ w, e = GCEvent.callbackEv w) := by
    refine foldl_preserve ?_
    intro b a hb
    unfold hw_invoke
    by_cases hz : refcnt { b.1 with
        extRefs := Function.update b.1.extRefs a (b.1.extRefs a - 1) } a = 0
    · rw [if_pos hz]
      intro e he
      rcases List.mem_append.mp he with h' | h'
      · exact hb e h'
      · refine ⟨a, ?_⟩
        simpa using h'
    · rw [if_neg hz]
      intro e he
      rcases List.mem_append.mp he with h' | h'
      · exact hb e h'
      · refine ⟨a, ?_⟩
        simpa using h'
  intro e he
  exact key _ _ (by intro e' he'; cases he') e he

theorem delete_garbage_finalized (saveall : Bool) :
    ∀ (cs : List Nat) (h : Heap) (g : List Nat),
    (delete_garbage h saveall cs g).1.finalized = h.finalized := by
  intro cs h g
  unfold delete_garbage
  have key : ∀ (l : List Nat) (acc : Heap × List Nat),
      acc.1.finalized = h.finalized →
      ((l.foldl (dg_step saveall) acc).1.finalized = h.finalized) := by
    refine foldl_preserve ?_
    intro b a hb
    unfold dg_step
    by_cases h1 : b.1.alive a = false
    · rw [if_pos h1]; exact hb
    · rw [if_neg h1]
      by_cases h2 : saveall
      · rw [if_pos h2]; exact hb
      · rw [if_neg h2]
        by_cases h3 : b.1.hasClear a = true
        · rw [if_pos h3]
          show (reap _).finalized = h.finalized
          rw [reap_finalized]
          exact hb
        · rw [if_neg h3]; exact hb
  exact key _ _ rfl

theorem handle_legacy_finalizers_finalized (saveall : Bool) :
    ∀ (fin : List Nat) (h : Heap) (g : List Nat),
    (handle_legacy_finalizers h saveall fin g).1.finalized = h.finalized := by
  intro fin h g
  unfold handle_legacy_finalizers
  have key : ∀ (l : List Nat) (acc : Heap × List Nat),
      acc.1.finalized = h.finalized →
      ((l.foldl (fun (acc : Heap × List Nat) o =>
        if saveall || acc.1.hasDel o then
          ({ acc.1 with
             extRefs := Function.update acc.1.extRefs o (acc.1.extRefs o + 1) },
           acc.2 ++ [o])
        else acc) acc).1.finalized = h.finalized) := by
    refine foldl_preserve ?_
    intro b a hb
    by_cases hc : (saveall || b.1.hasDel a) = true
    · rw [if_pos hc]; exact hb
    · rw [if_neg hc]; exact hb
  exact key _ _ rfl

/-- The step function of `finalize_garbage`, named for the fold lemmas. -/
theorem finalize_garbage_eq (h : Heap) (cs : List Nat) :
    finalize_garbage h cs
      = cs.foldl (fun (acc : Heap × List GCEvent) o =>
          if !acc.1.finalized o && acc.1.hasFinalize o then
            ({ acc.1 with finalized := Function.update acc.1.finalized o true },
             acc.2 ++ [GCEvent.finalizeEv o])
          else acc) (h, []) := rfl

theorem count_finalizeEv_singleton_ne {x o : Nat} (hxo : x ≠ o) :
    List.count (GCEvent.finalizeEv o) [GCEvent.finalizeEv x] = 0 := by
  have hne : GCEvent.finalizeEv o ≠ GCEvent.finalizeEv x := by
    intro he; cases he; exact hxo rfl
  rw [List.count_cons_of_ne hne, List.count_nil]

theorem fg_invariant (o : Nat) :
    ∀ (cs : List Nat) (acc : Heap × List GCEvent),
    acc.2.count (GCEvent.finalizeEv o)
      + (if acc.1.finalized o = true then 0 else 1) ≤ 1 →
    ((cs.foldl (fun (acc : Heap × List GCEvent) x =>
        if !acc.1.finalized x && acc.1.hasFinalize x then
          ({ acc.1 with finalized := Function.update acc.1.finalized x true },
           acc.2 ++ [GCEvent.finalizeEv x])
        else acc) acc).2.count (GCEvent.finalizeEv o)
      + (if (cs.foldl (fun (acc : Heap × List GCEvent) x =>
          if !acc.1.finalized x && acc.1.hasFinalize x then
            ({ acc.1 with finalized := Function.update acc.1.finalized x true },
             acc.2 ++ [GCEvent.finalizeEv x])
          else acc) acc).1.finalized o = true then 0 else 1) ≤ 1) := by
  refine foldl_preserve ?_
  intro b x hb
  by_cases hg : (!b.1.finalized x && b.1.hasFinalize x) = true
  · rw [if_pos hg]
    by_cases hxo : x = o
    · subst hxo
      have hflag : b.1.finalized x = false := by
        cases hbf : b.1.finalized x
        · rfl
        · exfalso; rw [hbf] at hg; simp at hg
      rw [hflag] at hb
      simp only [Bool.false_eq_true, if_false] at hb
      have hcount : b.2.count (GCEvent.finalizeEv x) = 0 := by omega
      show (b.2 ++ [GCEvent.finalizeEv x]).count (GCEvent.finalizeEv x)
          + (if Function.update b.1.finalized x true x = true then 0 else 1) ≤ 1
      rw [Function.update_same, List.count_append, hcount]
      simp
    · show (b.2 ++ [GCEvent.finalizeEv x]).count (GCEvent.finalizeEv o)
          + (if Function.update b.1.finalized x true o = true then 0 else 1) ≤ 1
      rw [Function.update_noteq (fun he => hxo he.symm), List.count_append]
      rw [count_finalizeEv_singleton_ne hxo]
      simpa using hb
  · rw [if_neg hg]
    exact hb

theorem fg_no_event_if_finalized (o : Nat) :
    ∀ (cs : List Nat) (acc : Heap × List GCEvent),
    acc.1.finalized o = true ∧ acc.2.count (GCEvent.finalizeEv o) = 0 →
    ((cs.foldl (fun (acc : Heap × List GCEvent) x =>
        if !acc.1.finalized x && acc.1.hasFinalize x then
          ({ acc.1 with finalized := Function.update acc.1.finalized x true },
           acc.2 ++ [GCEvent.finalizeEv x])
        else acc) acc).1.finalized o = true ∧
      (cs.foldl (fun (acc : Heap × List GCEvent) x =>
        if !acc.1.finalized x && acc.1.hasFinalize x then
          ({ acc.1 with finalized := Function.update acc.1.finalized x true },
           acc.2 ++ [GCEvent.finalizeEv x])
        else acc) acc).2.count (GCEvent.finalizeEv o) = 0) := by
  refine foldl_preserve ?_
  intro b x hb
  obtain ⟨hf, hc⟩ := hb
  by_cases hg : (!b.1.finalized x && b.1.hasFinalize x) = true
  · rw [if_pos hg]
    have hxo : x ≠ o := by
      intro he; subst he
      rw [hf] at hg
      simp at hg
    constructor
    · show Function.update b.1.finalized x true o = true
      rw [Function.update_noteq (fun he => hxo he.symm)]
      exact hf
    · show (b.2 ++ [GCEvent.finalizeEv x]).count (GCEvent.finalizeEv o) = 0
      rw [List.count_append, hc, count_finalizeEv_singleton_ne hxo]
  · rw [if_neg hg]
    exact ⟨hf, hc⟩

theorem fg_mono (o : Nat) :
    ∀ (cs : List Nat) (acc : Heap × List GCEvent),
    acc.1.finalized o = true →
    (cs.foldl (fun (acc : Heap × List GCEvent) x =>
        if !acc.1.finalized x && acc.1.hasFinalize x then
          ({ acc.1 with finalized := Function.update acc.1.finalized x true },
           acc.2 ++ [GCEvent.finalizeEv x])
        else acc) acc).1.finalized o = true := by
  refine foldl_preserve ?_
  intro b x hb
  by_cases hg : (!b.1.finalized x && b.1.hasFinalize x) = true
  · rw [if_pos hg]
    show Function.update b.1.finalized x true o = true
    by_cases hxo : x = o
    · subst hxo; rw [Function.update_same]
    · rw [Function.update_noteq (fun he => hxo he.symm)]; exact hb
  · rw [if_neg hg]; exact hb

theorem collect_finalized_mono (h : Heap) (saveall : Bool) (o : Nat)
    (hf : h.finalized o = true) :
    (collect h saveall).heap.finalized o = true := by
  show (hlPhase h saveall).1.finalized o = true
  unfold hlPhase
  rw [handle_legacy_finalizers_finalized]
  show (dgPhase h saveall).1.finalized o = true
  unfold dgPhase
  rw [delete_garbage_finalized]
  show (fgPhase h).1.finalized o = true
  unfold fgPhase
  rw [finalize_garbage_eq]
  refine fg_mono o _ _ ?_
  show (wrPhase h).1.finalized o = true
  unfold wrPhase
  rw [handle_weakrefs_finalized]
  show (heap0 h).finalized o = true
  unfold heap0
  rw [reap_finalized]
  exact hf

theorem collect_wr_count_zero (h : Heap) (saveall : Bool) (o : Nat) :
    ((wrPhase h).2.1).count (GCEvent.finalizeEv o) = 0 := by
  rw [List.count_eq_zero]
  intro hmem
  obtain ⟨w, hw⟩ := handle_weakrefs_events_callback (heap0 h) (unreach2 h)
    (uflag2 h) _ hmem
  cases hw

theorem collect_events_count_zero (h : Heap) (saveall : Bool) (o : Nat)
    (hf : h.finalized o = true) :
    ((collect h saveall).events).count (GCEvent.finalizeEv o) = 0 := by
  show (((wrPhase h).2.1) ++ (fgPhase h).2).count (GCEvent.finalizeEv o) = 0
  rw [List.count_append, collect_wr_count_zero h saveall o]
  have hwf : (wrPhase h).1.finalized o = true := by
    unfold wrPhase
    rw [handle_weakrefs_finalized]
    show (heap0 h).finalized o = true
    unfold heap0
    rw [reap_finalized]
    exact hf
  have := fg_no_event_if_finalized o (unreach2 h) ((wrPhase h).1, [])
    ⟨hwf, by simp⟩
  have h2 : (fgPhase h).2.count (GCEvent.finalizeEv o) = 0 := by
    show ((finalize_garbage (wrPhase h).1 (unreach2 h)).2).count
        (GCEvent.finalizeEv o) = 0
    rw [finalize_garbage_eq]
    exact this.2
  rw [h2]

theorem collect_events_count_le_one (h : Heap) (saveall : Bool) (o : Nat) :
    ((collect h saveall).events).count (GCEvent.finalizeEv o) ≤ 1 := by
  show (((wrPhase h).2.1) ++ (fgPhase h).2).count (GCEvent.finalizeEv o) ≤ 1
  rw [List.count_append, collect_wr_count_zero h saveall o]
  have hfg := fg_invariant o (unreach2 h) ((wrPhase h).1, [])
    (by by_cases hc : (wrPhase h).1.finalized o = true <;> simp [hc])
  have h2 : (fgPhase h).2.count (GCEvent.finalizeEv o)
      + (if (fgPhase h).1.finalized o = true then 0 else 1) ≤ 1 := by
    show ((finalize_garbage (wrPhase h).1 (unreach2 h)).2).count
          (GCEvent.finalizeEv o)
        + (if (finalize_garbage (wrPhase h).1 (unreach2 h)).1.finalized o
            = true then 0 else 1) ≤ 1
    rw [finalize_garbage_eq]
    exact hfg
  omega

theorem collect_event_implies_flag (h : Heap) (saveall : Bool) (o : Nat)
    (hc : 1 ≤ ((collect h saveall).events).count (GCEvent.finalizeEv o)) :
    (collect h saveall).heap.finalized o = true := by
  have hsplit : ((collect h saveall).events).count (GCEvent.finalizeEv o)
      = (fgPhase h).2.count (GCEvent.finalizeEv o) := by
    show (((wrPhase h).2.1) ++ (fgPhase h).2).count (GCEvent.finalizeEv o) = _
    rw [List.count_append, collect_wr_count_zero h saveall o]
    omega
  rw [hsplit] at hc
  have hfg := fg_invariant o (unreach2 h) ((wrPhase h).1, [])
    (by by_cases hcc : (wrPhase h).1.finalized o = true <;> simp [hcc])
  have h2 : (fgPhase h).2.count (GCEvent.finalizeEv o)
      + (if (fgPhase h).1.finalized o = true then 0 else 1) ≤ 1 := by
    show ((finalize_garbage (wrPhase h).1 (unreach2 h)).2).count
          (GCEvent.finalizeEv o)
        + (if (finalize_garbage (wrPhase h).1 (unreach2 h)).1.finalized o
            = true then 0 else 1) ≤ 1
    rw [finalize_garbage_eq]
    exact hfg
  have hflag : (fgPhase h).1.finalized o = true := by
    by_contra hne
    rw [if_neg hne] at h2
    omega
  show (hlPhase h saveall).1.finalized o = true
  unfold hlPhase
  rw [handle_legacy_finalizers_finalized]
  show (dgPhase h saveall).1.finalized o = true
  unfold dgPhase
  rw [delete_garbage_finalized]
  exact hflag

theorem seqEvents_facts (saveall : Bool) (o : Nat) :
    ∀ (k : Nat) (h : Heap),
    (h.finalized o = true →
      (seqEvents saveall k h).count (GCEvent.finalizeEv o) = 0) ∧
    (seqEvents saveall k h).count (GCEvent.finalizeEv o) ≤ 1 := by
  intro k
  induction k with
  | zero => intro h; exact ⟨fun _ => rfl, by simp [seqEvents]⟩
  | succ k ih =>
    intro h
    have hstep : seqEvents saveall (k + 1) h
        = (collect h saveall).events ++
          seqEvents saveall k (collect h saveall).heap := rfl
    rw [hstep, List.count_append]
    constructor
    · intro hf
      rw [collect_events_count_zero h saveall o hf,
        (ih (collect h saveall).heap).1 (collect_finalized_mono h saveall o hf)]
    · by_cases hc : 1 ≤ ((collect h saveall).events).count (GCEvent.finalizeEv o)
      · have hflag := collect_event_implies_flag h saveall o hc
        rw [(ih (collect h saveall).heap).1 hflag]
        have := collect_events_count_le_one h saveall o
        omega
      · have hz : ((collect h saveall).events).count (GCEvent.finalizeEv o)
            = 0 := by omega
        rw [hz]
        have := (ih (collect h saveall).heap).2
        omega

/-- C4: `tp_finalize` runs at most once per object across any number of
collections (the `FINALIZED` bit is set before the finalizer is called
and already-finalized objects are skipped), a set bit survives every
collection, and the `_gc_prev` masking done by `gc_list_remove` and
`gc_list_clear` preserves the `FINALIZED` bit. -/
theorem C4_finalized_monotone_and_once :
    (∀ p : Nat, (gc_list_remove_prev p).testBit 1 = p.testBit 1) ∧
    (∀ p : Nat, (gc_list_clear_prev p).testBit 1 = p.testBit 1) ∧
    (∀ (saveall : Bool) (h : Heap) (o : Nat), h.finalized o = true →
      (collect h saveall).heap.finalized o = true) ∧
    (∀ (saveall : Bool) (h : Heap) (o : Nat), h.finalized o = true →
      ((collect h saveall).events).count (GCEvent.finalizeEv o) = 0) ∧
    (∀ (saveall : Bool) (k : Nat) (h : Heap) (o : Nat),
      (seqEvents saveall k h).count (GCEvent.finalizeEv o) ≤ 1) := by
  refine ⟨?_, ?_, ?_, ?_, ?_⟩
  · intro p
    show (p &&& (GC_TRACKED_MASK ||| GC_FINALIZED_MASK)).testBit 1 = p.testBit 1
    rw [Nat.testBit_and]
    have : (GC_TRACKED_MASK ||| GC_FINALIZED_MASK).testBit 1 = true := by decide
    rw [this, Bool.and_true]
  · intro p
    show (p &&& (GC_TRACKED_MASK ||| GC_FINALIZED_MASK)).testBit 1 = p.testBit 1
    rw [Nat.testBit_and]
    have : (GC_TRACKED_MASK ||| GC_FINALIZED_MASK).testBit 1 = true := by decide
    rw [this, Bool.and_true]
  · exact fun saveall h o hf => collect_finalized_mono h saveall o hf
  · exact fun saveall h o hf => collect_events_count_zero h saveall o hf
  · exact fun saveall k h o => (seqEvents_facts saveall o k h).2

theorem C4_witness :
    heapFin.finalized 0 = true ∧
    (collect heapFin false).heap.finalized 0 = true ∧
    ((collect heapFin false).events).count (GCEvent.finalizeEv 0) = 0 ∧
    (seqEvents false 3 heapFin).count (GCEvent.finalizeEv 1) ≤ 1 := by
  obtain ⟨_, _, h3, h4, h5⟩ := C4_finalized_monotone_and_once
  exact ⟨by decide, h3 false heapFin 0 (by decide),
    h4 false heapFin 0 (by decide), h5 false 3 heapFin 1⟩

theorem muLoop_all_zero {children : Nat → List Nat} {inPlay : Nat → Bool} :
    ∀ (pending : List Nat) (fuel : Nat) (s : MUState),
    s.pending = pending → pending.length < fuel →
    (∀ o ∈ pending, s.refs o = 0) →
    (muLoop children inPlay fuel s).pending = [] ∧
    (muLoop children inPlay fuel s).unreach = s.unreach ++ pending := by
  intro pending
  induction pending with
  | nil =>
    intro fuel s hp hf _
    cases fuel with
    | zero => omega
    | succ f =>
      have hv : muLoop children inPlay (f + 1) s = s := by
        unfold muLoop; rw [hp]
      rw [hv, hp]
      simp
  | cons x rest ih =>
    intro fuel s hp hf hz
    cases fuel with
    | zero => simp at hf
    | succ f =>
      have hrx : s.refs x = 0 := hz x (by simp)
      have hstep : muStep children inPlay s x rest
          = { s with
              pending := rest
              unreach := s.unreach ++ [x]
              uflag := Function.update s.uflag x true } := by
        unfold muStep
        rw [if_neg (by omega)]
      have hv : muLoop children inPlay (f + 1) s
          = muLoop children inPlay f (muStep children inPlay s x rest) := by
        conv_lhs => unfold muLoop
        rw [hp]
      rw [hv, hstep]
      have hlen : rest.length < f := by
        simp at hf; omega
      obtain ⟨g1, g2⟩ := ih f
        { s with
          pending := rest
          unreach := s.unreach ++ [x]
          uflag := Function.update s.uflag x true }
        rfl hlen (fun o ho => hz o (by simp [ho]))
      refine ⟨g1, ?_⟩
      rw [g2]
      simp

theorem foldl_update_not_mem {g : Nat → Nat} :
    ∀ (l : List Nat) (r : Nat → Nat) (o : Nat), o ∉ l →
    (l.foldl (fun r x => Function.update r x (g x)) r) o = r o := by
  intro l
  induction l with
  | nil => intro r o _; rfl
  | cons x l ih =>
    intro r o ho
    have hxo : o ≠ x := fun he => ho (by simp [he])
    have step : (x :: l).foldl (fun r x => Function.update r x (g x)) r
        = l.foldl (fun r x => Function.update r x (g x))
            (Function.update r x (g x)) := rfl
    rw [step, ih _ o (fun hm => ho (by simp [hm]))]
    exact Function.update_noteq hxo _ _

theorem foldl_update_eval {g : Nat → Nat} :
    ∀ (l : List Nat) (r : Nat → Nat) (o : Nat), o ∈ l → l.Nodup →
    (l.foldl (fun r x => Function.update r x (g x)) r) o = g o := by
  intro l
  induction l with
  | nil => intro r o ho; cases ho
  | cons x l ih =>
    intro r o ho hnd
    have step : (x :: l).foldl (fun r x => Function.update r x (g x)) r
        = l.foldl (fun r x => Function.update r x (g x))
            (Function.update r x (g x)) := rfl
    rw [step]
    by_cases hxo : o = x
    · subst hxo
      have hno : o ∉ l := (List.nodup_cons.mp hnd).1
      rw [foldl_update_not_mem l _ o hno]
      exact Function.update_same _ _ _
    · have hol : o ∈ l := by
        rcases List.mem_cons.mp ho with h | h
        · exact absurd h hxo
        · exact h
      exact ih _ o hol (List.nodup_cons.mp hnd).2

theorem foldl_visit_decref_u_flagged (uflag : Nat → Bool) :
    ∀ (cs : List Nat) (r : Nat → Nat) (o : Nat), uflag o = true →
    (cs.foldl (visit_decref_unreachable uflag) r) o = r o - cs.count o := by
  intro cs
  induction cs with
  | nil => intro r o _; simp
  | cons c cs ih =>
    intro r o ho
    have step : List.foldl (visit_decref_unreachable uflag) r (c :: cs)
        = List.foldl (visit_decref_unreachable uflag)
            (visit_decref_unreachable uflag r c) cs := rfl
    rw [step, ih _ o ho]
    by_cases hco : c = o
    · subst hco
      have : visit_decref_unreachable uflag r c c = r c - 1 := by
        unfold visit_decref_unreachable
        rw [if_pos ho]
        simp [Function.update_same]
      rw [this, List.count_cons_self]
      omega
    · have : visit_decref_unreachable uflag r c o = r o := by
        unfold visit_decref_unreachable
        by_cases hc : uflag c = true
        · rw [if_pos hc]
          exact Function.update_noteq (fun he => hco he.symm) _ _
        · rw [if_neg hc]
      rw [this, List.count_cons_of_ne (fun he => hco he.symm)]

theorem subtract_refs_unreachable_eval (h : Heap) (uflag : Nat → Bool) :
    ∀ (ys : List Nat) (r : Nat → Nat) (o : Nat), uflag o = true →
    subtract_refs_unreachable h uflag ys r o = r o - refsFrom h ys o := by
  intro ys
  induction ys with
  | nil => intro r o _; simp [subtract_refs_unreachable, refsFrom]
  | cons p ys ih =>
    intro r o ho
    have step : subtract_refs_unreachable h uflag (p :: ys) r
        = subtract_refs_unreachable h uflag ys
            ((h.children p).foldl (visit_decref_unreachable uflag) r) := rfl
    rw [step, ih _ o ho, foldl_visit_decref_u_flagged uflag _ r o ho]
    have : refsFrom h (p :: ys) o
        = (h.children p).count o + refsFrom h ys o := by
      simp [refsFrom]
    rw [this]
    omega

theorem reapStep_id (h : Heap)
    (hpos : ∀ o, h.alive o = true → 0 < refcnt h o) : reapStep h = h := by
  unfold reapStep
  have halive : (fun o => h.alive o && decide (0 < refcnt h o)) = h.alive := by
    funext o
    cases ha : h.alive o
    · simp
    · simp [hpos o ha]
  rw [halive]

theorem reapN_of_id : ∀ (k : Nat) (h : Heap), reapStep h = h → reapN k h = h := by
  intro k
  induction k with
  | zero => intro h _; rfl
  | succ k ih =>
    intro h hfix
    show reapN k (reapStep h) = h
    rw [hfix]
    exact ih h hfix

theorem reap_id (h : Heap)
    (hpos : ∀ o, h.alive o = true → 0 < refcnt h o) : reap h = h :=
  reapN_of_id _ _ (reapStep_id h hpos)

theorem reapStep_alive_le (h : Heap) (o : Nat) :
    (reapStep h).alive o = true → h.alive o = true := by
  intro hx
  have hx' : (h.alive o && decide (0 < refcnt h o)) = true := hx
  cases ha : h.alive o
  · rw [ha] at hx'; simp at hx'
  · rfl

theorem filter_sublist_mono {p q : Nat → Bool}
    (hpq : ∀ a, p a = true → q a = true) :
    ∀ l : List Nat, (l.filter p).Sublist (l.filter q) := by
  intro l
  induction l with
  | nil => simp
  | cons x l ih =>
    by_cases hx : p x = true
    · rw [List.filter_cons_of_pos hx, List.filter_cons_of_pos (hpq x hx)]
      exact ih.cons₂ x
    · rw [List.filter_cons_of_neg (by simp [hx])]
      by_cases hqx : q x = true
      · rw [List.filter_cons_of_pos hqx]
        exact ih.cons x
      · rw [List.filter_cons_of_neg (by simp [hqx])]
        exact ih

theorem aliveList_reapStep_sublist (h : Heap) :
    (aliveList (reapStep h)).Sublist (aliveList h) := by
  unfold aliveList
  have huniv : (reapStep h).univ = h.univ := rfl
  rw [huniv]
  exact filter_sublist_mono (fun a ha => reapStep_alive_le h a ha) _

theorem reapStep_stationary (h : Heap)
    (hAU : ∀ o, h.alive o = true → o ∈ h.univ)
    (hc : (aliveList (reapStep h)).length = (aliveList h).length) :
    reapStep h = h := by
  have heq : aliveList (reapStep h) = aliveList h :=
    (aliveList_reapStep_sublist h).eq_of_length hc
  have halive : (reapStep h).alive = h.alive := by
    funext o
    by_cases ho : o ∈ h.univ
    · cases hro : (reapStep h).alive o
      · cases hho : h.alive o
        · rfl
        · exfalso
          have hm : o ∈ aliveList h := List.mem_filter.mpr ⟨ho, hho⟩
          rw [← heq] at hm
          have : (reapStep h).alive o = true := (List.mem_filter.mp hm).2
          rw [hro] at this
          cases this
      · exact (reapStep_alive_le h o hro).symm
    · have hfa : h.alive o = false := by
        cases hho : h.alive o
        · rfl
        · exact absurd (hAU o hho) ho
      have hfb : (reapStep h).alive o = false := by
        cases hro : (reapStep h).alive o
        · rfl
        · exact absurd (hAU o (reapStep_alive_le h o hro)) ho
      rw [hfa, hfb]
  have : (fun o => h.alive o && decide (0 < refcnt h o)) = h.alive := halive
  unfold reapStep
  rw [this]

theorem reapN_fixpoint :
    ∀ (n : Nat) (h : Heap), (aliveList h).length ≤ n →
    (∀ o, h.alive o = true → o ∈ h.univ) →
    (∀ o, (reapN n h).alive o = true → 0 < refcnt (reapN n h) o) ∧
    (∀ o, (reapN n h).alive o = true → h.alive o = true) := by
  intro n
  induction n with
  | zero =>
    intro h hc hAU
    have hnone : ∀ o, h.alive o = false := by
      intro o
      cases ho : h.alive o
      · rfl
      · exfalso
        have hm : o ∈ aliveList h := List.mem_filter.mpr ⟨hAU o ho, ho⟩
        have := List.length_pos_of_mem hm
        omega
    constructor
    · intro o ho
      have hz : h.alive o = true := ho
      rw [hnone o] at hz
      cases hz
    · intro o ho
      exact ho
  | succ n ih =>
    intro h hc hAU
    by_cases heq : (aliveList (reapStep h)).length = (aliveList h).length
    · have hfix := reapStep_stationary h hAU heq
      have hN : reapN (n + 1) h = h := reapN_of_id _ _ hfix
      rw [hN]
      refine ⟨?_, fun o ho => ho⟩
      intro o ho
      have h2 : (h.alive o && decide (0 < refcnt h o)) = true := by
        have hh : (reapStep h).alive o = true := by rw [hfix]; exact ho
        exact hh
      cases hd : decide (0 < refcnt h o)
      · rw [hd, ho] at h2; simp at h2
      · exact of_decide_eq_true hd
    · have hle : (aliveList (reapStep h)).length ≤ (aliveList h).length :=
        (aliveList_reapStep_sublist h).length_le
      have hAU' : ∀ o, (reapStep h).alive o = true → o ∈ (reapStep h).univ :=
        fun o ho => hAU o (reapStep_alive_le h o ho)
      obtain ⟨g1, g2⟩ := ih (reapStep h) (by omega) hAU'
      have hN : reapN (n + 1) h = reapN n (reapStep h) := rfl
      rw [hN]
      exact ⟨g1, fun o ho => reapStep_alive_le h o (g2 o ho)⟩

theorem reap_fixpoint (h : Heap)
    (hAU : ∀ o, h.alive o = true → o ∈ h.univ) :
    (∀ o, (reap h).alive o = true → 0 < refcnt (reap h) o) ∧
    (∀ o, (reap h).alive o = true → h.alive o = true) := by
  have hlen : (aliveList h).length ≤ h.univ.length := by
    unfold aliveList
    exact List.length_filter_le _ _
  exact reapN_fixpoint h.univ.length h hlen hAU

theorem reapN_fields : ∀ (k : Nat) (h : Heap),
    (reapN k h).univ = h.univ ∧ (reapN k h).children = h.children ∧
    (reapN k h).extRefs = h.extRefs ∧ (reapN k h).hasDel = h.hasDel ∧
    (reapN k h).hasClear = h.hasClear ∧ (reapN k h).wrList = h.wrList ∧
    (reapN k h).hasFinalize = h.hasFinalize ∧
    (reapN k h).isWeakref = h.isWeakref ∧
    (reapN k h).wrCallback = h.wrCallback ∧
    (reapN k h).wrTarget = h.wrTarget := by
  intro k
  induction k with
  | zero =>
    intro h
    exact ⟨rfl, rfl, rfl, rfl, rfl, rfl, rfl, rfl, rfl, rfl⟩
  | succ k ih =>
    intro h
    exact ih (reapStep h)

theorem move_legacy_finalizers_nodel (h : Heap) (unreach : List Nat)
    (uflag : Nat → Bool) (hnd : ∀ o, h.hasDel o = false) :
    move_legacy_finalizers h unreach uflag = ([], unreach, uflag) := by
  unfold move_legacy_finalizers
  have e1 : unreach.filter (fun o => h.hasDel o) = [] := by
    rw [List.filter_eq_nil_iff]
    intro o _
    simp [hnd o]
  have e2 : unreach.filter (fun o => !h.hasDel o) = unreach := by
    rw [List.filter_eq_self]
    intro o _
    simp [hnd o]
  have e3 : (fun o => uflag o && !(h.hasDel o && unreach.contains o)) = uflag := by
    funext o
    simp [hnd o]
  rw [e1, e2, e3]

theorem legacyReach_nil_queue (h : Heap) (fuel : Nat) (done unreach : List Nat)
    (uflag : Nat → Bool) (hf : fuel ≠ 0) :
    legacyReach h fuel done [] unreach uflag = (done, unreach, uflag) := by
  cases fuel with
  | zero => exact absurd rfl hf
  | succ f => rfl

theorem legacyPhase_nodel (h : Heap) (hnd : ∀ o, h.hasDel o = false) :
    legacyPhase h = ([], (deduce1 h).unreach, (deduce1 h).uflag) := by
  have hdel0 : ∀ o, (heap0 h).hasDel o = false := by
    intro o
    have hf := (reapN_fields h.univ.length h).2.2.2.1
    show (reapN h.univ.length h).hasDel o = false
    rw [hf]
    exact hnd o
  unfold legacyPhase
  rw [move_legacy_finalizers_nodel _ _ _ hdel0]
  unfold move_legacy_finalizer_reachable
  apply legacyReach_nil_queue
  omega

theorem clearWeakref_fields (h : Heap) (w : Nat) :
    (clearWeakref h w).alive = h.alive ∧
    (clearWeakref h w).children = h.children ∧
    (clearWeakref h w).extRefs = h.extRefs ∧
    (clearWeakref h w).univ = h.univ ∧
    (clearWeakref h w).wrList = h.wrList ∧
    (clearWeakref h w).hasDel = h.hasDel ∧
    (clearWeakref h w).hasClear = h.hasClear ∧
    (clearWeakref h w).finalized = h.finalized :=
  ⟨rfl, rfl, rfl, rfl, rfl, rfl, rfl, rfl⟩

theorem handle_weakrefs_nowr (h : Heap) (unreach : List Nat)
    (uflag : Nat → Bool) (hno : ∀ o, h.wrList o = []) :
    (handle_weakrefs h unreach uflag).1.alive = h.alive ∧
    (handle_weakrefs h unreach uflag).1.children = h.children ∧
    (handle_weakrefs h unreach uflag).1.extRefs = h.extRefs ∧
    (handle_weakrefs h unreach uflag).1.univ = h.univ ∧
    (handle_weakrefs h unreach uflag).1.wrList = h.wrList ∧
    (handle_weakrefs h unreach uflag).1.hasDel = h.hasDel ∧
    (handle_weakrefs h unreach uflag).1.hasClear = h.hasClear ∧
    (handle_weakrefs h unreach uflag).1.finalized = h.finalized ∧
    (handle_weakrefs h unreach uflag).2.1 = [] ∧
    (handle_weakrefs h unreach uflag).2.2 = 0 := by
  unfold handle_weakrefs
  have key : ∀ (l : List Nat) (acc : Heap × List Nat),
      (acc.1.alive = h.alive ∧ acc.1.children = h.children ∧
       acc.1.extRefs = h.extRefs ∧ acc.1.univ = h.univ ∧
       acc.1.wrList = h.wrList ∧ acc.1.hasDel = h.hasDel ∧
       acc.1.hasClear = h.hasClear ∧ acc.1.finalized = h.finalized ∧
       acc.2 = []) →
      ((l.foldl (hw_obj uflag) acc).1.alive = h.alive ∧
       (l.foldl (hw_obj uflag) acc).1.children = h.children ∧
       (l.foldl (hw_obj uflag) acc).1.extRefs = h.extRefs ∧
       (l.foldl (hw_obj uflag) acc).1.univ = h.univ ∧
       (l.foldl (hw_obj uflag) acc).1.wrList = h.wrList ∧
       (l.foldl (hw_obj uflag) acc).1.hasDel = h.hasDel ∧
       (l.foldl (hw_obj uflag) acc).1.hasClear = h.hasClear ∧
       (l.foldl (hw_obj uflag) acc).1.finalized = h.finalized ∧
       (l.foldl (hw_obj uflag) acc).2 = []) := by
    refine foldl_preserve ?_
    intro b op hb
    obtain ⟨b1, b2, b3, b4, b5, b6, b7, b8, b9⟩ := hb
    unfold hw_obj
    have hfields : ∀ (hh : Heap),
        hh = (if b.1.isWeakref op then clearWeakref b.1 op else b.1) →
        hh.alive = h.alive ∧ hh.children = h.children ∧
        hh.extRefs = h.extRefs ∧ hh.univ = h.univ ∧
        hh.wrList = h.wrList ∧ hh.hasDel = h.hasDel ∧
        hh.hasClear = h.hasClear ∧ hh.finalized = h.finalized := by
      intro hh hhh
      by_cases hw : b.1.isWeakref op = true
      · rw [if_pos hw] at hhh
        subst hhh
        exact ⟨b1, b2, b3, b4, b5, b6, b7, b8⟩
      · rw [if_neg hw] at hhh
        subst hhh
        exact ⟨b1, b2, b3, b4, b5, b6, b7, b8⟩
    obtain ⟨f1, f2, f3, f4, f5, f6, f7, f8⟩ :=
      hfields _ rfl
    have hL : (if b.1.isWeakref op then clearWeakref b.1 op else b.1).wrList op
        = [] := by
      rw [f5]
      exact hno op
    unfold hw_obj_body
    rw [if_pos hL]
    exact ⟨f1, f2, f3, f4, f5, f6, f7, f8, b9⟩
  obtain ⟨g1, g2, g3, g4, g5, g6, g7, g8, g9⟩ :=
    key unreach (h, []) ⟨rfl, rfl, rfl, rfl, rfl, rfl, rfl, rfl, rfl⟩
  dsimp only
  rw [g9]
  exact ⟨g1, g2, g3, g4, g5, g6, g7, g8, rfl, rfl⟩

theorem finalize_garbage_fields (h : Heap) (cs : List Nat) :
    (finalize_garbage h cs).1.alive = h.alive ∧
    (finalize_garbage h cs).1.children = h.children ∧
    (finalize_garbage h cs).1.extRefs = h.extRefs ∧
    (finalize_garbage h cs).1.univ = h.univ ∧
    (finalize_garbage h cs).1.wrList = h.wrList ∧
    (finalize_garbage h cs).1.hasDel = h.hasDel ∧
    (finalize_garbage h cs).1.hasClear = h.hasClear := by
  rw [finalize_garbage_eq]
  have key : ∀ (l : List Nat) (acc : Heap × List GCEvent),
      (acc.1.alive = h.alive ∧ acc.1.children = h.children ∧
       acc.1.extRefs = h.extRefs ∧ acc.1.univ = h.univ ∧
       acc.1.wrList = h.wrList ∧ acc.1.hasDel = h.hasDel ∧
       acc.1.hasClear = h.hasClear) →
      ((l.foldl (fun (acc : Heap × List GCEvent) x =>
          if !acc.1.finalized x && acc.1.hasFinalize x then
            ({ acc.1 with finalized := Function.update acc.1.finalized x true },
             acc.2 ++ [GCEvent.finalizeEv x])
          else acc) acc).1.alive = h.alive ∧
       (l.foldl (fun (acc : Heap × List GCEvent) x =>
          if !acc.1.finalized x && acc.1.hasFinalize x then
            ({ acc.1 with finalized := Function.update acc.1.finalized x true },
             acc.2 ++ [GCEvent.finalizeEv x])
          else acc) acc).1.children = h.children ∧
       (l.foldl (fun (acc : Heap × List GCEvent) x =>
          if !acc.1.finalized x && acc.1.hasFinalize x then
            ({ acc.1 with finalized := Function.update acc.1.finalized x true },
             acc.2 ++ [GCEvent.finalizeEv x])
          else acc) acc).1.extRefs = h.extRefs ∧
       (l.foldl (fun (acc : Heap × List GCEvent) x =>
          if !acc.1.finalized x && acc.1.hasFinalize x then
            ({ acc.1 with finalized := Function.update acc.1.finalized x true },
             acc.2 ++ [GCEvent.finalizeEv x])
          else acc) acc).1.univ = h.univ ∧
       (l.foldl (fun (acc : Heap × List GCEvent) x =>
          if !acc.1.finalized x && acc.1.hasFinalize x then
            ({ acc.1 with finalized := Function.update acc.1.finalized x true },
             acc.2 ++ [GCEvent.finalizeEv x])
          else acc) acc).1.wrList = h.wrList ∧
       (l.foldl (fun (acc : Heap × List GCEvent) x =>
          if !acc.1.finalized x && acc.1.hasFinalize x then
            ({ acc.1 with finalized := Function.update acc.1.finalized x true },
             acc.2 ++ [GCEvent.finalizeEv x])
          else acc) acc).1.hasDel = h.hasDel ∧
       (l.foldl (fun (acc : Heap × List GCEvent) x =>
          if !acc.1.finalized x && acc.1.hasFinalize x then
            ({ acc.1 with finalized := Function.update acc.1.finalized x true },
             acc.2 ++ [GCEvent.finalizeEv x])
          else acc) acc).1.hasClear = h.hasClear) := by
    refine foldl_preserve ?_
    intro b x hb
    obtain ⟨b1, b2, b3, b4, b5, b6, b7⟩ := hb
    by_cases hg : (!b.1.finalized x && b.1.hasFinalize x) = true
    · rw [if_pos hg]
      exact ⟨b1, b2, b3, b4, b5, b6, b7⟩
    · rw [if_neg hg]
      exact ⟨b1, b2, b3, b4, b5, b6, b7⟩
  exact key cs (h, []) ⟨rfl, rfl, rfl, rfl, rfl, rfl, rfl⟩

theorem refcnt_congr (g h : Heap) (huniv : g.univ = h.univ)
    (halive : g.alive = h.alive) (hch : g.children = h.children)
    (hext : g.extRefs = h.extRefs) : ∀ o, refcnt g o = refcnt h o := by
  intro o
  unfold refcnt refsFrom aliveList
  rw [huniv, halive, hch, hext]

theorem refsFrom_pos (h : Heap) {ys : List Nat} {p o : Nat}
    (hp : p ∈ ys) (ho : o ∈ h.children p) : 0 < refsFrom h ys o := by
  unfold refsFrom
  have hcount : 0 < (h.children p).count o := List.count_pos_iff.mpr ho
  have hmem : (h.children p).count o ∈ ys.map (fun q => (h.children q).count o) :=
    List.mem_map_of_mem _ hp
  have hle : (h.children p).count o
      ≤ (ys.map (fun q => (h.children q).count o)).sum :=
    List.single_le_sum (fun x _ => Nat.zero_le x) _ hmem
  omega

theorem refsFrom_eq_zero (h : Heap) {ys : List Nat} {o : Nat}
    (hz : ∀ p ∈ ys, (h.children p).count o = 0) : refsFrom h ys o = 0 := by
  unfold refsFrom
  apply List.sum_eq_zero
  intro x hx
  obtain ⟨p, hp, hpx⟩ := List.mem_map.mp hx
  rw [← hpx]
  exact hz p hp

theorem reapN_protect (hF : Heap) (S : Nat → Prop)
    (hAUF : ∀ o, hF.alive o = true → o ∈ hF.univ)
    (hS_alive : ∀ o, S o → hF.alive o = true)
    (hsup : ∀ o, S o → 0 < hF.extRefs o ∨ ∃ p, S p ∧ o ∈ hF.children p) :
    ∀ (k : Nat) (g : Heap), g.univ = hF.univ → g.extRefs = hF.extRefs →
    (∀ o, S o → g.alive o = true ∧ g.children o = hF.children o) →
    (∀ o, S o → (reapN k g).alive o = true ∧
      (reapN k g).children o = hF.children o) := by
  intro k
  induction k with
  | zero => intro g _ _ hinv o ho; exact hinv o ho
  | succ k ih =>
    intro g huniv hext hinv
    have hstep : ∀ o, S o → (reapStep g).alive o = true ∧
        (reapStep g).children o = hF.children o := by
      intro o ho
      obtain ⟨ha, hch⟩ := hinv o ho
      constructor
      · show (g.alive o && decide (0 < refcnt g o)) = true
        rw [ha]
        have hpos : 0 < refcnt g o := by
          rcases hsup o ho with hx | ⟨p, hp, hop⟩
          · have : refcnt g o = g.extRefs o + refsFrom g (aliveList g) o := rfl
            rw [hext] at this
            omega
          · obtain ⟨hap, hchp⟩ := hinv p hp
            have hpu : p ∈ g.univ := by
              rw [huniv]
              exact hAUF p (hS_alive p hp)
            have hpal : p ∈ aliveList g := List.mem_filter.mpr ⟨hpu, hap⟩
            have hop' : o ∈ g.children p := by rw [hchp]; exact hop
            have := refsFrom_pos g hpal hop'
            have e : refcnt g o = g.extRefs o + refsFrom g (aliveList g) o := rfl
            omega
        simp [hpos]
      · exact hch
    exact ih (reapStep g) huniv hext hstep

/-- Walk of `delete_garbage` (SAVEALL off) over a suffix of the final
unreachable list, carrying the full invariant: bookkeeping fields are
untouched, the alive set only shrinks, externally supported survivors
(`S`) keep their children, every already-processed collectable that is
still alive has had `tp_clear` empty its children, the heap stays at a
reap fixed point, children are either original or cleared, and no
garbage is appended. -/
theorem delete_garbage_go (hF : Heap) (S : Nat → Prop) (Fall : List Nat)
    (hAUF : ∀ o, hF.alive o = true → o ∈ hF.univ)
    (hS_alive : ∀ o, S o → hF.alive o = true)
    (hsup : ∀ o, S o → 0 < hF.extRefs o ∨ ∃ p, S p ∧ o ∈ hF.children p)
    (hSdisj : ∀ o, S o → o ∉ Fall)
    (hclear : ∀ o, o ∈ Fall → hF.hasClear o = true)
    (hFnd : Fall.Nodup) :
    ∀ (rest done : List Nat) (acc : Heap × List Nat),
      done ++ rest = Fall →
      acc.1.univ = hF.univ →
      acc.1.extRefs = hF.extRefs →
      acc.1.hasClear = hF.hasClear →
      (∀ o, acc.1.alive o = true → hF.alive o = true) →
      (∀ o, S o → acc.1.alive o = true ∧ acc.1.children o = hF.children o) →
      (∀ o, o ∈ done → acc.1.alive o = true → acc.1.children o = []) →
      (∀ o, acc.1.alive o = true → 0 < refcnt acc.1 o) →
      (∀ o, acc.1.children o = hF.children o ∨ acc.1.children o = []) →
      acc.1.hasDel = hF.hasDel →
      acc.1.wrList = hF.wrList →
      (rest.foldl (dg_step false) acc).1.univ = hF.univ ∧
      (rest.foldl (dg_step false) acc).1.extRefs = hF.extRefs ∧
      (∀ o, (rest.foldl (dg_step false) acc).1.alive o = true →
        hF.alive o = true) ∧
      (∀ o, S o → (rest.foldl (dg_step false) acc).1.alive o = true ∧
        (rest.foldl (dg_step false) acc).1.children o = hF.children o) ∧
      (∀ o, o ∈ Fall → (rest.foldl (dg_step false) acc).1.alive o = true →
        (rest.foldl (dg_step false) acc).1.children o = []) ∧
      (∀ o, (rest.foldl (dg_step false) acc).1.alive o = true →
        0 < refcnt (rest.foldl (dg_step false) acc).1 o) ∧
      (∀ o, (rest.foldl (dg_step false) acc).1.children o = hF.children o ∨
        (rest.foldl (dg_step false) acc).1.children o = []) ∧
      (rest.foldl (dg_step false) acc).2 = acc.2 ∧
      (rest.foldl (dg_step false) acc).1.hasDel = hF.hasDel ∧
      (rest.foldl (dg_step false) acc).1.wrList = hF.wrList := by
  intro rest
  induction rest with
  | nil =>
    intro done acc hsplit h1 h2 h3 h4 h5 h6 h7 h8 h9 h10
    simp only [List.append_nil] at hsplit
    subst hsplit
    exact ⟨h1, h2, h4, h5, h6, h7, h8, rfl, h9, h10⟩
  | cons x rest' ih =>
    intro done acc hsplit h1 h2 h3 h4 h5 h6 h7 h8 h9 h10
    have hxF : x ∈ Fall := by
      rw [← hsplit]
      exact List.mem_append_right _ (List.mem_cons_self x rest')
    have hxdone : x ∉ done := by
      have hnd' : (done ++ x :: rest').Nodup := by rw [hsplit]; exact hFnd
      intro hxd
      exact List.disjoint_of_nodup_append hnd' hxd (List.mem_cons_self x rest')
    have hfold : (x :: rest').foldl (dg_step false) acc
        = rest'.foldl (dg_step false) (dg_step false acc x) := rfl
    rw [hfold]
    by_cases hax : acc.1.alive x = false
    · have hstep : dg_step false acc x = acc := by
        unfold dg_step
        rw [if_pos hax]
      rw [hstep]
      refine ih (done ++ [x]) acc ?_ h1 h2 h3 h4 h5 ?_ h7 h8 h9 h10
      · rw [List.append_assoc]
        exact hsplit
      · intro o ho hao
        rcases List.mem_append.mp ho with hd | h1x
        · exact h6 o hd hao
        · have hex : o = x := by simpa using h1x
          rw [hex] at hao
          rw [hax] at hao
          exact absurd hao (by decide)
    · have hstep : dg_step false acc x
          = (reap { acc.1 with
               children := Function.update acc.1.children x [] }, acc.2) := by
        unfold dg_step
        rw [if_neg hax, if_neg (by decide),
          if_pos (by rw [h3]; exact hclear x hxF)]
      rw [hstep]
      set g : Heap :=
        { acc.1 with children := Function.update acc.1.children x [] } with hg
      have hguniv : g.univ = acc.1.univ := rfl
      have hgext : g.extRefs = acc.1.extRefs := rfl
      have hAUg : ∀ o, g.alive o = true → o ∈ g.univ := by
        intro o ho
        have hmem : o ∈ hF.univ := hAUF o (h4 o ho)
        rw [hguniv, h1]
        exact hmem
      have hrfix := reap_fixpoint g hAUg
      have hru : (reap g).univ = g.univ := (reapN_fields g.univ.length g).1
      have hrc : (reap g).children = g.children :=
        (reapN_fields g.univ.length g).2.1
      have hre : (reap g).extRefs = g.extRefs :=
        (reapN_fields g.univ.length g).2.2.1
      have hrcl : (reap g).hasClear = g.hasClear :=
        (reapN_fields g.univ.length g).2.2.2.2.1
      have hinvg : ∀ o, S o → g.alive o = true ∧ g.children o = hF.children o := by
        intro o ho
        obtain ⟨ha', hc'⟩ := h5 o ho
        refine ⟨ha', ?_⟩
        have hne : o ≠ x := by
          intro he
          exact hSdisj o ho (by rw [he]; exact hxF)
        show Function.update acc.1.children x [] o = hF.children o
        rw [Function.update_noteq hne]
        exact hc'
      refine ih (done ++ [x]) (reap g, acc.2) ?_ ?_ ?_ ?_ ?_ ?_ ?_ ?_ ?_ ?_ ?_
      · rw [List.append_assoc]
        exact hsplit
      · exact hru.trans (hguniv.trans h1)
      · exact hre.trans (hgext.trans h2)
      · exact hrcl.trans h3
      · intro o ho
        exact h4 o (hrfix.2 o ho)
      · intro o ho
        exact reapN_protect hF S hAUF hS_alive hsup g.univ.length g
          (hguniv.trans h1) (hgext.trans h2) hinvg o ho
      · intro o ho hao
        have hao' : acc.1.alive o = true := hrfix.2 o hao
        rw [hrc]
        show Function.update acc.1.children x [] o = []
        by_cases hox : o = x
        · rw [hox, Function.update_same]
        · rw [Function.update_noteq hox]
          rcases List.mem_append.mp ho with hd | h1x
          · exact h6 o hd hao'
          · exact absurd (by simpa using h1x) hox
      · exact hrfix.1
      · intro o
        rw [hrc]
        show Function.update acc.1.children x [] o = hF.children o ∨
          Function.update acc.1.children x [] o = []
        by_cases hox : o = x
        · right
          rw [hox, Function.update_same]
        · rw [Function.update_noteq hox]
          exact h8 o
      · exact ((reapN_fields g.univ.length g).2.2.2.1).trans h9
      · exact ((reapN_fields g.univ.length g).2.2.2.2.2.1).trans h10

/-- `delete_garbage` with SAVEALL off, applied to a final unreachable
list `Fall` whose members all have `tp_clear` and no external references,
frees every member of `Fall` (the `tp_clear` calls break the cycles and
the cascading `Py_DECREF`s reclaim them), while every externally
supported object outside `Fall` survives untouched and nothing is
appended to the garbage list. -/
theorem delete_garbage_master (hF : Heap) (S : Nat → Prop) (Fall : List Nat)
    (hAUF : ∀ o, hF.alive o = true → o ∈ hF.univ)
    (hSdef : ∀ o, S o ↔ (hF.alive o = true ∧ o ∉ Fall))
    (hsup : ∀ o, S o → 0 < hF.extRefs o ∨ ∃ p, S p ∧ o ∈ hF.children p)
    (hiso : ∀ p, S p → ∀ c ∈ hF.children p, c ∉ Fall)
    (hclear : ∀ o, o ∈ Fall → hF.hasClear o = true)
    (hext0 : ∀ o, o ∈ Fall → hF.extRefs o = 0)
    (hFnd : Fall.Nodup)
    (hfix0 : ∀ o, hF.alive o = true → 0 < refcnt hF o) :
    (∀ o, o ∈ Fall → (delete_garbage hF false Fall []).1.alive o = false) ∧
    (∀ o, S o → (delete_garbage hF false Fall []).1.alive o = true ∧
      (delete_garbage hF false Fall []).1.children o = hF.children o) ∧
    (delete_garbage hF false Fall []).1.univ = hF.univ ∧
    (delete_garbage hF false Fall []).1.extRefs = hF.extRefs ∧
    (∀ o, (delete_garbage hF false Fall []).1.alive o = true →
      hF.alive o = true) ∧
    (delete_garbage hF false Fall []).2 = [] ∧
    (delete_garbage hF false Fall []).1.hasDel = hF.hasDel ∧
    (delete_garbage hF false Fall []).1.wrList = hF.wrList ∧
    (∀ o, (delete_garbage hF false Fall []).1.alive o = true →
      0 < refcnt (delete_garbage hF false Fall []).1 o) := by
  have hS_alive : ∀ o, S o → hF.alive o = true :=
    fun o ho => ((hSdef o).mp ho).1
  have hSdisj : ∀ o, S o → o ∉ Fall :=
    fun o ho => ((hSdef o).mp ho).2
  have hgo := delete_garbage_go hF S Fall hAUF hS_alive hsup hSdisj hclear
    hFnd Fall [] (hF, []) rfl rfl rfl rfl (fun _ h => h)
    (fun o ho => ⟨hS_alive o ho, rfl⟩)
    (fun o ho => absurd ho (List.not_mem_nil o))
    hfix0 (fun _ => Or.inl rfl) rfl rfl
  obtain ⟨g1, g2, g3, g4, g5, g6, g7, g8, g9, g10⟩ := hgo
  have hT : delete_garbage hF false Fall []
      = Fall.foldl (dg_step false) (hF, []) := rfl
  rw [hT]
  refine ⟨?_, g4, g1, g2, g3, g8, g9, g10, g6⟩
  intro o ho
  cases hb : (Fall.foldl (dg_step false) (hF, [])).1.alive o
  · rfl
  · exfalso
    have hc0 := g5 o ho hb
    have hpos := g6 o hb
    have hext : (Fall.foldl (dg_step false) (hF, [])).1.extRefs o
        = hF.extRefs o := congrFun g2 o
    have hz : refsFrom (Fall.foldl (dg_step false) (hF, [])).1
        (aliveList (Fall.foldl (dg_step false) (hF, [])).1) o = 0 := by
      apply refsFrom_eq_zero
      intro p hp
      have hpal : (Fall.foldl (dg_step false) (hF, [])).1.alive p = true :=
        (List.mem_filter.mp hp).2
      rcases g7 p with hpc | hpc
      · by_cases hpF : p ∈ Fall
        · rw [g5 p hpF hpal]
          rfl
        · have hSp : S p := (hSdef p).mpr ⟨g3 p hpal, hpF⟩
          rw [hpc]
          by_cases hoc : o ∈ hF.children p
          · exact absurd ho (hiso p hSp o hoc)
          · exact List.count_eq_zero.mpr hoc
      · rw [hpc]
        rfl
    have he : refcnt (Fall.foldl (dg_step false) (hF, [])).1 o
        = (Fall.foldl (dg_step false) (hF, [])).1.extRefs o
          + refsFrom (Fall.foldl (dg_step false) (hF, [])).1
            (aliveList (Fall.foldl (dg_step false) (hF, [])).1) o := rfl
    rw [he, hext, hext0 o ho, hz] at hpos
    exact absurd hpos (by decide)

/-- `refsFrom` only inspects the `children` field. -/
theorem refsFrom_congr (g h : Heap) (hch : g.children = h.children)
    (ys : List Nat) (o : Nat) : refsFrom g ys o = refsFrom h ys o := by
  unfold refsFrom
  rw [hch]

/-- Sum comparison over duplicate-free index lists: if every index of
`ys` with a positive value also occurs in `zs`, the `ys`-sum is bounded
by the `zs`-sum. -/
theorem sum_map_le_of_support_subset (f : Nat → Nat) :
    ∀ (ys zs : List Nat), ys.Nodup → zs.Nodup →
    (∀ p ∈ ys, 0 < f p → p ∈ zs) →
    (ys.map f).sum ≤ (zs.map f).sum := by
  intro ys
  induction ys with
  | nil =>
    intro zs _ _ _
    simp
  | cons y ys ih =>
    intro zs hynd hznd hsub
    have hyt : ys.Nodup := (List.nodup_cons.mp hynd).2
    by_cases hy : 0 < f y
    · have hyz : y ∈ zs := hsub y (List.mem_cons_self y ys) hy
      have hperm : zs.Perm (y :: zs.erase y) := List.perm_cons_erase hyz
      have hsum : (zs.map f).sum = ((y :: zs.erase y).map f).sum :=
        List.Perm.sum_eq (hperm.map f)
      rw [hsum]
      have hz2 : (zs.erase y).Nodup := hznd.erase y
      have hsub2 : ∀ p ∈ ys, 0 < f p → p ∈ zs.erase y := by
        intro p hp hfp
        have hpz := hsub p (List.mem_cons_of_mem y hp) hfp
        have hpy : p ≠ y := fun he => (List.nodup_cons.mp hynd).1 (he ▸ hp)
        exact (List.mem_erase_of_ne hpy).mpr hpz
      have hrec := ih (zs.erase y) hyt hz2 hsub2
      simp only [List.map_cons, List.sum_cons]
      omega
    · have hfy : f y = 0 := by omega
      have hrec := ih zs hyt hznd
        (fun p hp hfp => hsub p (List.mem_cons_of_mem y hp) hfp)
      simp only [List.map_cons, List.sum_cons, hfy]
      omega

/-- On a heap already at its reap fixed point, `gc_refs` after Pass B
equals the external reference count for every live object (the effect of
`update_refs` followed by `subtract_refs`, gcmodule.c:774-931). -/
theorem refsB_eq_ext (g : Heap)
    (hfix : ∀ o, g.alive o = true → 0 < refcnt g o) :
    ∀ o, g.alive o = true → refsB g o = g.extRefs o := by
  have hg0 : heap0 g = g := reap_id g hfix
  intro o ho
  show subtract_refs (heap0 g) (young0 g) (refsA g) o = g.extRefs o
  unfold young0 refsA
  rw [hg0]
  rw [subtract_refs_eval g (aliveList g) (update_refs g) o ho]
  show refcnt g o - refsFrom g (aliveList g) o = g.extRefs o
  unfold refcnt
  omega

/-- If every unreachable object's full refcount is covered by references
held inside the unreachable list itself, `handle_resurrected_objects`
resurrects nothing: the second `deduce_unreachable` sees all-zero
scratch counts and returns the whole list. -/
theorem handle_resurrected_id (hh : Heap) (U : List Nat) (uflag : Nat → Bool)
    (hund : U.Nodup)
    (hflag : ∀ o ∈ U, uflag o = true)
    (hle : ∀ o ∈ U, refcnt hh o ≤ refsFrom hh U o) :
    (handle_resurrected_objects hh U uflag).unreach = U := by
  unfold handle_resurrected_objects
  dsimp only
  unfold deduce_unreachable
  have hz : ∀ o ∈ U,
      subtract_refs_unreachable hh uflag U
        (U.foldl (fun r o => Function.update r o (refcnt hh o))
          (fun _ => 0)) o = 0 := by
    intro o ho
    rw [subtract_refs_unreachable_eval hh uflag U _ o (hflag o ho)]
    rw [foldl_update_eval U _ o ho hund]
    exact Nat.sub_eq_zero_of_le (hle o ho)
  have hfuel : U.length < fuelFor U := by
    show U.length < U.length * U.length + U.length + 1
    have h1 : U.length + 1 ≤ U.length * U.length + (U.length + 1) :=
      Nat.le_add_left _ _
    rw [Nat.add_assoc]
    exact Nat.lt_of_lt_of_le (Nat.lt_succ_self _) h1
  obtain ⟨m1, m2⟩ := muLoop_all_zero U (fuelFor U)
    ⟨[], U, [],
     subtract_refs_unreachable hh uflag U
       (U.foldl (fun r o => Function.update r o (refcnt hh o)) (fun _ => 0)),
     fun _ => false⟩ rfl hfuel hz
  rw [m2]
  simp

/-- Core facts of one collection on a quiescent heap (duplicate-free
universe, live set closed under `children`, positive refcounts, no
legacy `tp_del`, `tp_clear` everywhere), parameterised by the effect of
`handle_weakrefs` on the six fields the later phases read: the collect
frees exactly the unreachable objects of the cycle scan, leaves every
reachable object with its original children and a positive refcount,
and disturbs no bookkeeping field.  Also records the entry facts of the
scan. -/
theorem collect_facts_core (h : Heap)
    (hnd : h.univ.Nodup)
    (hAU : ∀ o, h.alive o = true → o ∈ h.univ)
    (hclosed : ∀ o, h.alive o = true → ∀ c ∈ h.children o, h.alive c = true)
    (hfix : ∀ o, h.alive o = true → 0 < refcnt h o)
    (hdel : ∀ o, h.hasDel o = false)
    (hclr : ∀ o, h.alive o = true → h.hasClear o = true)
    (hwa : (wrPhase h).1.alive = h.alive)
    (hwc : (wrPhase h).1.children = h.children)
    (hwe : (wrPhase h).1.extRefs = h.extRefs)
    (hwu : (wrPhase h).1.univ = h.univ)
    (hwd : (wrPhase h).1.hasDel = h.hasDel)
    (hwcl : (wrPhase h).1.hasClear = h.hasClear) :
    (collect h false).heap.univ = h.univ ∧
    (collect h false).heap.extRefs = h.extRefs ∧
    (collect h false).heap.hasDel = h.hasDel ∧
    (collect h false).heap.wrList = (wrPhase h).1.wrList ∧
    (∀ o, (collect h false).heap.alive o = true ↔
      (h.alive o = true ∧ o ∉ (deduce1 h).unreach)) ∧
    (∀ o, (collect h false).heap.alive o = true →
      (collect h false).heap.children o = h.children o) ∧
    (∀ o, (collect h false).heap.alive o = true →
      0 < refcnt (collect h false).heap o) ∧
    (∀ o, h.alive o = true → o ∉ (deduce1 h).unreach →
      Reaches h.children (aliveList h) (refsB h) o) ∧
    (∀ o ∈ (deduce1 h).unreach,
      ¬ Reaches h.children (aliveList h) (refsB h) o) ∧
    (∀ o, h.alive o = true → refsB h o = h.extRefs o) := by
  have hg0 : heap0 h = h := reap_id h hfix
  have hD : deduce1 h
      = deduce_unreachable h.children (fun o => h.alive o)
          (aliveList h) (refsB h) := by
    unfold deduce1 young0
    rw [hg0]
  have hbnd : (aliveList h).Nodup := hnd.filter _
  have hclb : ∀ o ∈ aliveList h, ∀ c ∈ h.children o, c ∈ aliveList h := by
    intro o ho c hc
    have hoa : h.alive o = true := (List.mem_filter.mp ho).2
    have hca := hclosed o hoa c hc
    exact List.mem_filter.mpr ⟨hAU c hca, hca⟩
  have hip : ∀ o ∈ aliveList h, (fun o => h.alive o) o = true :=
    fun o ho => (List.mem_filter.mp ho).2
  obtain ⟨s1, s2, s3, s4, s5, s6, s7, s8⟩ :=
    deduce_unreachable_spec h.children (fun o => h.alive o)
      (aliveList h) (refsB h) hbnd hclb hip
  rw [← hD] at s2 s3 s4 s5 s6 s7 s8
  have h10 : ∀ o, h.alive o = true → refsB h o = h.extRefs o :=
    refsB_eq_ext h hfix
  have halive_of_unreach : ∀ o ∈ (deduce1 h).unreach, h.alive o = true := by
    intro o ho
    have hob : o ∈ aliveList h := s2.subset (List.mem_append_right _ ho)
    exact (List.mem_filter.mp hob).2
  have hPUnd : ((deduce1 h).processed ++ (deduce1 h).unreach).Nodup :=
    s2.nodup_iff.mpr hbnd
  have hund : (deduce1 h).unreach.Nodup := hPUnd.of_append_right
  have hdisj : (deduce1 h).processed.Disjoint (deduce1 h).unreach :=
    List.disjoint_of_nodup_append hPUnd
  have hproc_of : ∀ o, h.alive o = true → o ∉ (deduce1 h).unreach →
      o ∈ (deduce1 h).processed := by
    intro o hoa hoU
    have hob : o ∈ aliveList h := List.mem_filter.mpr ⟨hAU o hoa, hoa⟩
    rcases List.mem_append.mp (s2.symm.subset hob) with hP | hU2
    · exact hP
    · exact absurd hU2 hoU
  have hext0 : ∀ o ∈ (deduce1 h).unreach, h.extRefs o = 0 := by
    intro o ho
    have hoa := halive_of_unreach o ho
    have e1 := h10 o hoa
    have e2 := (s7 o ho).2
    have e3 := s8 o
    omega
  have h8 : ∀ o, h.alive o = true → o ∉ (deduce1 h).unreach →
      Reaches h.children (aliveList h) (refsB h) o :=
    fun o hoa hoU => s4 o (hproc_of o hoa hoU)
  have h9 : ∀ o ∈ (deduce1 h).unreach,
      ¬ Reaches h.children (aliveList h) (refsB h) o :=
    fun o ho => (s7 o ho).1
  obtain ⟨f1, f2, f3, f4, f5, f6, f7⟩ :=
    finalize_garbage_fields (wrPhase h).1 (unreach2 h)
  have F1 : (fgPhase h).1.alive = h.alive := f1.trans hwa
  have F2 : (fgPhase h).1.children = h.children := f2.trans hwc
  have F3 : (fgPhase h).1.extRefs = h.extRefs := f3.trans hwe
  have F4 : (fgPhase h).1.univ = h.univ := f4.trans hwu
  have F5 : (fgPhase h).1.wrList = (wrPhase h).1.wrList := f5
  have F6 : (fgPhase h).1.hasDel = h.hasDel := f6.trans hwd
  have F7 : (fgPhase h).1.hasClear = h.hasClear := f7.trans hwcl
  have F1' : ∀ o, (fgPhase h).1.alive o = h.alive o := fun o => congrFun F1 o
  have hleg := legacyPhase_nodel h hdel
  have hu2 : unreach2 h = (deduce1 h).unreach := by
    unfold unreach2
    rw [hleg]
  have huf2 : uflag2 h = (deduce1 h).uflag := by
    unfold uflag2
    rw [hleg]
  have hfin : finalizersOf h = [] := by
    unfold finalizersOf
    rw [hleg]
  have hfu : final_unreachable h = (deduce1 h).unreach := by
    show (resPhase h).unreach = (deduce1 h).unreach
    unfold resPhase
    rw [hu2, huf2]
    apply handle_resurrected_id _ _ _ hund (fun o ho => (s6 o).mpr ho)
    intro o ho
    have hrc : refcnt (fgPhase h).1 o = refcnt h o :=
      refcnt_congr _ h F4 F1 F2 F3 o
    have hrf : refsFrom (fgPhase h).1 (deduce1 h).unreach o
        = refsFrom h (deduce1 h).unreach o :=
      refsFrom_congr _ h F2 _ o
    rw [hrc, hrf]
    have hcc : refcnt h o = refsFrom h (aliveList h) o := by
      unfold refcnt
      rw [hext0 o ho]
      omega
    rw [hcc]
    show ((aliveList h).map (fun p => (h.children p).count o)).sum
      ≤ (((deduce1 h).unreach).map (fun p => (h.children p).count o)).sum
    apply sum_map_le_of_support_subset (fun p => (h.children p).count o)
      (aliveList h) (deduce1 h).unreach hbnd hund
    intro p hp hpos
    have hop : o ∈ h.children p := List.count_pos_iff.mp hpos
    rcases List.mem_append.mp (s2.symm.subset hp) with hP | hU2
    · exfalso
      exact (s7 o ho).1 ((s4 p hP).tail hop)
    · exact hU2
  obtain ⟨M1, M2, M3, M4, M5, M6, M7, M8, M9⟩ :=
    delete_garbage_master (fgPhase h).1
      (fun o => (fgPhase h).1.alive o = true ∧ o ∉ (deduce1 h).unreach)
      (deduce1 h).unreach
      (by
        intro o ho
        have hoa : h.alive o = true := (F1' o).symm.trans ho
        rw [F4]
        exact hAU o hoa)
      (fun o => Iff.rfl)
      (by
        intro o hS
        obtain ⟨hoA, hoU⟩ := hS
        have hoa : h.alive o = true := (F1' o).symm.trans hoA
        obtain ⟨r, hrb, hrpos, hpath⟩ := h8 o hoa hoU
        rcases Relation.ReflTransGen.cases_tail hpath with heq | ⟨p, hpp, hedge⟩
        · left
          have hra : h.alive r = true := (List.mem_filter.mp hrb).2
          have he1 := h10 r hra
          have he2 := congrFun F3 o
          rw [he2, heq, ← he1]
          exact hrpos
        · right
          have hpb : p ∈ aliveList h := mem_base_of_path hclb hrb hpp
          have hpa : h.alive p = true := (List.mem_filter.mp hpb).2
          have hpP : p ∈ (deduce1 h).processed :=
            s3 p hpb ⟨r, hrb, hrpos, hpp⟩
          have hpU : p ∉ (deduce1 h).unreach := fun hc => hdisj hpP hc
          refine ⟨p, ⟨(F1' p).trans hpa, hpU⟩, ?_⟩
          have := congrFun F2 p
          rw [this]
          exact hedge)
      (by
        intro p hS c hc
        obtain ⟨hpA, hpU⟩ := hS
        have hpa : h.alive p = true := (F1' p).symm.trans hpA
        have hpb : p ∈ aliveList h := List.mem_filter.mpr ⟨hAU p hpa, hpa⟩
        have hpR := s4 p (hproc_of p hpa hpU)
        have hcc : c ∈ h.children p := by
          have := congrFun F2 p
          rw [← this]
          exact hc
        have hcb : c ∈ aliveList h := hclb p hpb c hcc
        have hcP : c ∈ (deduce1 h).processed := s3 c hcb (hpR.tail hcc)
        exact fun hcu => hdisj hcP hcu)
      (by
        intro o ho
        have := congrFun F7 o
        rw [this]
        exact hclr o (halive_of_unreach o ho))
      (by
        intro o ho
        have := congrFun F3 o
        rw [this]
        exact hext0 o ho)
      hund
      (by
        intro o ho
        have hoa : h.alive o = true := (F1' o).symm.trans ho
        have hrc : refcnt (fgPhase h).1 o = refcnt h o :=
          refcnt_congr _ h F4 F1 F2 F3 o
        rw [hrc]
        exact hfix o hoa)
  have huncoll : uncollectableOf h false = [] := by
    unfold uncollectableOf
    rw [hfin]
    rfl
  have hhl : (collect h false).heap
      = (delete_garbage (fgPhase h).1 false (deduce1 h).unreach []).1 := by
    show (hlPhase h false).1 = _
    unfold hlPhase
    rw [huncoll]
    show (dgPhase h false).1 = _
    unfold dgPhase
    rw [hfu]
  rw [hhl]
  refine ⟨M3.trans F4, M4.trans F3, M7.trans F6, M8.trans F5, ?_, ?_, M9,
    h8, h9, h10⟩
  · intro o
    constructor
    · intro hTa
      have hfa : (fgPhase h).1.alive o = true := M5 o hTa
      refine ⟨(F1' o).symm.trans hfa, ?_⟩
      intro hoU
      have := M1 o hoU
      rw [hTa] at this
      exact absurd this (by decide)
    · intro hS
      obtain ⟨hoa, hoU⟩ := hS
      exact (M2 o ⟨(F1' o).trans hoa, hoU⟩).1
  · intro o hTa
    have hfa : (fgPhase h).1.alive o = true := M5 o hTa
    have hoU : o ∉ (deduce1 h).unreach := by
      intro hoU
      have := M1 o hoU
      rw [hTa] at this
      exact absurd this (by decide)
    have := (M2 o ⟨hfa, hoU⟩).2
    rw [this]
    exact congrFun F2 o

/-- One collection on a quiescent heap without weak references: the
specialisation of the core facts used by the idempotence claim. -/
theorem quiescent_collect_facts (h : Heap)
    (hnd : h.univ.Nodup)
    (hAU : ∀ o, h.alive o = true → o ∈ h.univ)
    (hclosed : ∀ o, h.alive o = true → ∀ c ∈ h.children o, h.alive c = true)
    (hfix : ∀ o, h.alive o = true → 0 < refcnt h o)
    (hdel : ∀ o, h.hasDel o = false)
    (hwr : ∀ o, h.wrList o = [])
    (hclr : ∀ o, h.alive o = true → h.hasClear o = true) :
    (collect h false).heap.univ = h.univ ∧
    (collect h false).heap.extRefs = h.extRefs ∧
    (collect h false).heap.hasDel = h.hasDel ∧
    (collect h false).heap.wrList = h.wrList ∧
    (∀ o, (collect h false).heap.alive o = true ↔
      (h.alive o = true ∧ o ∉ (deduce1 h).unreach)) ∧
    (∀ o, (collect h false).heap.alive o = true →
      (collect h false).heap.children o = h.children o) ∧
    (∀ o, (collect h false).heap.alive o = true →
      0 < refcnt (collect h false).heap o) ∧
    (∀ o, h.alive o = true → o ∉ (deduce1 h).unreach →
      Reaches h.children (aliveList h) (refsB h) o) ∧
    (∀ o ∈ (deduce1 h).unreach,
      ¬ Reaches h.children (aliveList h) (refsB h) o) ∧
    (∀ o, h.alive o = true → refsB h o = h.extRefs o) := by
  have hg0 : heap0 h = h := reap_id h hfix
  obtain ⟨w1, w2, w3, w4, w5, w6, w7, w8, w9, w10⟩ :=
    handle_weakrefs_nowr (heap0 h) (unreach2 h) (uflag2 h)
      (fun o => by rw [hg0]; exact hwr o)
  obtain ⟨c1, c2, c3, c4, c5, c6, c7, c8, c9, c10⟩ :=
    collect_facts_core h hnd hAU hclosed hfix hdel hclr
      (w1.trans (congrArg Heap.alive hg0))
      (w2.trans (congrArg Heap.children hg0))
      (w3.trans (congrArg Heap.extRefs hg0))
      (w4.trans (congrArg Heap.univ hg0))
      (w6.trans (congrArg Heap.hasDel hg0))
      (w7.trans (congrArg Heap.hasClear hg0))
  exact ⟨c1, c2, c3, c4.trans (w5.trans (congrArg Heap.wrList hg0)),
    c5, c6, c7, c8, c9, c10⟩

/-- On a quiescent heap in which every live object is reachable from an
externally referenced one, `collect` finds nothing: the unreachable list
is empty (so `handle_weakrefs` walks nothing and drains no weakrefs) and
no legacy finalizers remain, so the return value
`n_collected + n_uncollectable` is 0. -/
theorem collect_zero_of_all_reachable (g : Heap)
    (hnd : g.univ.Nodup)
    (hAU : ∀ o, g.alive o = true → o ∈ g.univ)
    (hclosed : ∀ o, g.alive o = true → ∀ c ∈ g.children o, g.alive c = true)
    (hfix : ∀ o, g.alive o = true → 0 < refcnt g o)
    (hdel : ∀ o, g.hasDel o = false)
    (hreach : ∀ o, g.alive o = true →
      Reaches g.children (aliveList g) (refsB g) o) :
    collectCount g false = 0 := by
  have hg0 : heap0 g = g := reap_id g hfix
  have hD : deduce1 g
      = deduce_unreachable g.children (fun o => g.alive o)
          (aliveList g) (refsB g) := by
    unfold deduce1 young0
    rw [hg0]
  have hbnd : (aliveList g).Nodup := hnd.filter _
  have hclb : ∀ o ∈ aliveList g, ∀ c ∈ g.children o, c ∈ aliveList g := by
    intro o ho c hc
    have hoa : g.alive o = true := (List.mem_filter.mp ho).2
    have hca := hclosed o hoa c hc
    exact List.mem_filter.mpr ⟨hAU c hca, hca⟩
  have hip : ∀ o ∈ aliveList g, (fun o => g.alive o) o = true :=
    fun o ho => (List.mem_filter.mp ho).2
  obtain ⟨s1, s2, s3, s4, s5, s6, s7, s8⟩ :=
    deduce_unreachable_spec g.children (fun o => g.alive o)
      (aliveList g) (refsB g) hbnd hclb hip
  rw [← hD] at s2 s7
  have hue : (deduce1 g).unreach = [] := by
    by_contra hne
    obtain ⟨x, hx⟩ := List.exists_mem_of_ne_nil _ hne
    have hxb : x ∈ aliveList g := s2.subset (List.mem_append_right _ hx)
    have hxa : g.alive x = true := (List.mem_filter.mp hxb).2
    exact (s7 x hx).1 (hreach x hxa)
  have hleg := legacyPhase_nodel g hdel
  have hfin : finalizersOf g = [] := by
    unfold finalizersOf
    rw [hleg]
  have hu2 : unreach2 g = [] := by
    unfold unreach2
    rw [hleg]
    exact hue
  have hwn : (wrPhase g).2.2 = 0 := by
    show (handle_weakrefs (heap0 g) (unreach2 g) (uflag2 g)).2.2 = 0
    rw [hu2]
    rfl
  have hfu : final_unreachable g = [] := by
    show (resPhase g).unreach = []
    unfold resPhase
    rw [hu2]
    rfl
  have hun : uncollectableOf g false = [] := by
    unfold uncollectableOf
    rw [hfin]
    rfl
  have hform : collectCount g false
      = (wrPhase g).2.2 + (final_unreachable g).length
        + (uncollectableOf g false).length := rfl
  rw [hform, hwn, hfu, hun]
  rfl

/-- The reference bump applied to each queued weak reference during the
first pass of `handle_weakrefs` (gcmodule.c:1308-1318): `extRefs` gains
one per occurrence, nothing else changes. -/
theorem foldl_extbump_facts :
    ∀ (l : List Nat) (g : Heap),
    (∀ o, (l.foldl extBump g).extRefs o = g.extRefs o + l.count o) ∧
    (l.foldl extBump g).alive = g.alive ∧
    (l.foldl extBump g).children = g.children ∧
    (l.foldl extBump g).univ = g.univ ∧
    (l.foldl extBump g).hasDel = g.hasDel ∧
    (l.foldl extBump g).hasClear = g.hasClear ∧
    (l.foldl extBump g).finalized = g.finalized ∧
    (l.foldl extBump g).wrCallback = g.wrCallback ∧
    (l.foldl extBump g).wrList = g.wrList ∧
    (l.foldl extBump g).wrTarget = g.wrTarget := by
  intro l
  induction l with
  | nil =>
    intro g
    exact ⟨fun o => by simp, rfl, rfl, rfl, rfl, rfl, rfl, rfl, rfl, rfl⟩
  | cons w l ih =>
    intro g
    obtain ⟨e1, e2, e3, e4, e5, e6, e7, e8, e9, e10⟩ := ih (extBump g w)
    have hstep : (w :: l).foldl extBump g = l.foldl extBump (extBump g w) := rfl
    rw [hstep]
    refine ⟨?_, e2, e3, e4, e5, e6, e7, e8, e9, e10⟩
    intro o
    rw [e1 o]
    show Function.update g.extRefs w (g.extRefs w + 1) o + l.count o
      = g.extRefs o + (w :: l).count o
    by_cases how : o = w
    · subst how
      rw [Function.update_same, List.count_cons_self]
      omega
    · rw [Function.update_noteq how, List.count_cons_of_ne how]

/-- Clearing a chain of weak references only changes `wrTarget`. -/
theorem foldl_clearWeakref_facts :
    ∀ (l : List Nat) (g : Heap),
    (l.foldl clearWeakref g).alive = g.alive ∧
    (l.foldl clearWeakref g).children = g.children ∧
    (l.foldl clearWeakref g).extRefs = g.extRefs ∧
    (l.foldl clearWeakref g).univ = g.univ ∧
    (l.foldl clearWeakref g).hasDel = g.hasDel ∧
    (l.foldl clearWeakref g).hasClear = g.hasClear ∧
    (l.foldl clearWeakref g).finalized = g.finalized ∧
    (l.foldl clearWeakref g).wrCallback = g.wrCallback ∧
    (l.foldl clearWeakref g).wrList = g.wrList := by
  intro l
  induction l with
  | nil =>
    intro g
    exact ⟨rfl, rfl, rfl, rfl, rfl, rfl, rfl, rfl, rfl⟩
  | cons w l ih =>
    intro g
    obtain ⟨e1, e2, e3, e4, e5, e6, e7, e8, e9⟩ := ih (clearWeakref g w)
    exact ⟨e1, e2, e3, e4, e5, e6, e7, e8, e9⟩

/-- `_PyObject_ClearWeakRefsFromGC` only changes `wrTarget` and the
object's own `wrList`. -/
theorem clearAllWeakrefs_facts (g : Heap) (op : Nat) :
    (clearAllWeakrefs g op).alive = g.alive ∧
    (clearAllWeakrefs g op).children = g.children ∧
    (clearAllWeakrefs g op).extRefs = g.extRefs ∧
    (clearAllWeakrefs g op).univ = g.univ ∧
    (clearAllWeakrefs g op).hasDel = g.hasDel ∧
    (clearAllWeakrefs g op).hasClear = g.hasClear ∧
    (clearAllWeakrefs g op).finalized = g.finalized ∧
    (clearAllWeakrefs g op).wrCallback = g.wrCallback ∧
    (∀ q, q ≠ op → (clearAllWeakrefs g op).wrList q = g.wrList q) := by
  obtain ⟨e1, e2, e3, e4, e5, e6, e7, e8, e9⟩ :=
    foldl_clearWeakref_facts (g.wrList op) g
  refine ⟨e1, e2, e3, e4, e5, e6, e7, e8, ?_⟩
  intro q hq
  show Function.update ((g.wrList op).foldl clearWeakref g).wrList op [] q
    = g.wrList q
  rw [Function.update_noteq hq]
  rw [e9]

/-- Once a weak reference is seen by the chain clear, or was already
cleared, its target is `none` afterwards. -/
theorem foldl_clearWeakref_none (W : Nat) :
    ∀ (l : List Nat) (g : Heap),
    (g.wrTarget W = none ∨ W ∈ l) →
    (l.foldl clearWeakref g).wrTarget W = none := by
  intro l
  induction l with
  | nil =>
    intro g hg
    rcases hg with hg | hg
    · exact hg
    · cases hg
  | cons w l ih =>
    intro g hg
    by_cases hWw : W = w
    · refine ih (clearWeakref g w) (Or.inl ?_)
      show Function.update g.wrTarget w none W = none
      rw [hWw, Function.update_same]
    · rcases hg with hg | hg
      · refine ih (clearWeakref g w) (Or.inl ?_)
        show Function.update g.wrTarget w none W = none
        rw [Function.update_noteq hWw]
        exact hg
      · rcases List.mem_cons.mp hg with he | hm
        · exact absurd he hWw
        · exact ih (clearWeakref g w) (Or.inr hm)

theorem clearAllWeakrefs_none (g : Heap) (op W : Nat)
    (h : g.wrTarget W = none ∨ W ∈ g.wrList op) :
    (clearAllWeakrefs g op).wrTarget W = none := by
  show ((g.wrList op).foldl clearWeakref g).wrTarget W = none
  exact foldl_clearWeakref_none W (g.wrList op) g h

/-- Each callback invocation of the second `handle_weakrefs` pass
appends exactly one event. -/
theorem hw_invoke_events (acc : Heap × List GCEvent × Nat) (wr : Nat) :
    (hw_invoke acc wr).2.1 = acc.2.1 ++ [GCEvent.callbackEv wr] := by
  unfold hw_invoke
  by_cases hz : refcnt { acc.1 with
      extRefs := Function.update acc.1.extRefs wr (acc.1.extRefs wr - 1) } wr
      = 0
  · rw [if_pos hz]
  · rw [if_neg hz]

theorem count_callbackEv_singleton_ne {x o : Nat} (hxo : x ≠ o) :
    ([GCEvent.callbackEv x].count (GCEvent.callbackEv o)) = 0 := by
  rw [List.count_singleton]
  simp only [beq_iff_eq]
  rw [if_neg]
  intro he
  cases he
  exact hxo rfl

theorem count_callbackEv_singleton_self (x : Nat) :
    ([GCEvent.callbackEv x].count (GCEvent.callbackEv x)) = 1 := by
  rw [List.count_singleton]
  simp

/-- Running the second pass over a queue produces exactly one
`callbackEv W` per occurrence of `W` in the queue. -/
theorem foldl_hw_invoke_count (W : Nat) :
    ∀ (q : List Nat) (acc : Heap × List GCEvent × Nat),
    ((q.foldl hw_invoke acc).2.1).count (GCEvent.callbackEv W)
      = (acc.2.1).count (GCEvent.callbackEv W) + q.count W := by
  intro q
  induction q with
  | nil =>
    intro acc
    simp
  | cons wr q ih =>
    intro acc
    have hstep : (wr :: q).foldl hw_invoke acc = q.foldl hw_invoke (hw_invoke acc wr) := rfl
    rw [hstep, ih (hw_invoke acc wr), hw_invoke_events acc wr,
      List.count_append]
    by_cases hwW : wr = W
    · subst hwW
      rw [count_callbackEv_singleton_self, List.count_cons_self]
      omega
    · rw [count_callbackEv_singleton_ne hwW,
        List.count_cons_of_ne (fun he => hwW he.symm)]
      omega

theorem reap_wrTarget (h : Heap) : (reap h).wrTarget = h.wrTarget :=
  (reapN_fields _ _).2.2.2.2.2.2.2.2.2

/-- Effect of one first-pass step of `handle_weakrefs` on the scan
state: the object's filtered callback chain is appended to
`wrcb_to_call`, each queued weakref gains a reference, other objects'
weakref lists and all remaining fields are untouched. -/
theorem hw_obj_body_step (uflag : Nat → Bool) (h1 : Heap) (wcb : List Nat)
    (op : Nat) :
    (hw_obj_body uflag h1 wcb op).2
      = wcb ++ (h1.wrList op).tail.filter
          (fun wr => h1.wrCallback wr && !(uflag wr)) ∧
    (∀ o, (hw_obj_body uflag h1 wcb op).1.extRefs o
      = h1.extRefs o + ((h1.wrList op).tail.filter
          (fun wr => h1.wrCallback wr && !(uflag wr))).count o) ∧
    (hw_obj_body uflag h1 wcb op).1.alive = h1.alive ∧
    (hw_obj_body uflag h1 wcb op).1.children = h1.children ∧
    (hw_obj_body uflag h1 wcb op).1.univ = h1.univ ∧
    (hw_obj_body uflag h1 wcb op).1.hasDel = h1.hasDel ∧
    (hw_obj_body uflag h1 wcb op).1.hasClear = h1.hasClear ∧
    (hw_obj_body uflag h1 wcb op).1.finalized = h1.finalized ∧
    (hw_obj_body uflag h1 wcb op).1.wrCallback = h1.wrCallback ∧
    (∀ q, q ≠ op → (hw_obj_body uflag h1 wcb op).1.wrList q = h1.wrList q) := by
  unfold hw_obj_body
  by_cases hL : h1.wrList op = []
  · rw [if_pos hL, hL]
    refine ⟨by simp, ?_, rfl, rfl, rfl, rfl, rfl, rfl, rfl, fun q _ => rfl⟩
    intro o
    simp
  · rw [if_neg hL]
    obtain ⟨b1, b2, b3, b4, b5, b6, b7, b8, b9, b10⟩ :=
      foldl_extbump_facts ((h1.wrList op).tail.filter
        (fun wr => h1.wrCallback wr && !(uflag wr))) h1
    obtain ⟨c1, c2, c3, c4, c5, c6, c7, c8, c9⟩ :=
      clearAllWeakrefs_facts (((h1.wrList op).tail.filter
        (fun wr => h1.wrCallback wr && !(uflag wr))).foldl extBump h1) op
    exact ⟨rfl, fun o => (congrFun c3 o).trans (b1 o), c1.trans b2,
      c2.trans b3, c4.trans b4, c5.trans b5, c6.trans b6, c7.trans b7,
      c8.trans b8, fun q hq => (c9 q hq).trans (congrFun b9 q)⟩

theorem hw_obj_step (uflag : Nat → Bool) (acc : Heap × List Nat) (op : Nat) :
    (hw_obj uflag acc op).2
      = acc.2 ++ (acc.1.wrList op).tail.filter
          (fun wr => acc.1.wrCallback wr && !(uflag wr)) ∧
    (∀ o, (hw_obj uflag acc op).1.extRefs o
      = acc.1.extRefs o + ((acc.1.wrList op).tail.filter
          (fun wr => acc.1.wrCallback wr && !(uflag wr))).count o) ∧
    (hw_obj uflag acc op).1.alive = acc.1.alive ∧
    (hw_obj uflag acc op).1.children = acc.1.children ∧
    (hw_obj uflag acc op).1.univ = acc.1.univ ∧
    (hw_obj uflag acc op).1.hasDel = acc.1.hasDel ∧
    (hw_obj uflag acc op).1.hasClear = acc.1.hasClear ∧
    (hw_obj uflag acc op).1.finalized = acc.1.finalized ∧
    (hw_obj uflag acc op).1.wrCallback = acc.1.wrCallback ∧
    (∀ q, q ≠ op → (hw_obj uflag acc op).1.wrList q = acc.1.wrList q) := by
  unfold hw_obj
  have hfields : ∀ (g : Heap),
      g = (if acc.1.isWeakref op then clearWeakref acc.1 op else acc.1) →
      g.wrList = acc.1.wrList ∧ g.wrCallback = acc.1.wrCallback ∧
      g.extRefs = acc.1.extRefs ∧ g.alive = acc.1.alive ∧
      g.children = acc.1.children ∧ g.univ = acc.1.univ ∧
      g.hasDel = acc.1.hasDel ∧ g.hasClear = acc.1.hasClear ∧
      g.finalized = acc.1.finalized := by
    intro g hg
    by_cases hiw : acc.1.isWeakref op = true
    · rw [if_pos hiw] at hg
      subst hg
      exact ⟨rfl, rfl, rfl, rfl, rfl, rfl, rfl, rfl, rfl⟩
    · rw [if_neg hiw] at hg
      subst hg
      exact ⟨rfl, rfl, rfl, rfl, rfl, rfl, rfl, rfl, rfl⟩
  obtain ⟨g1, g2, g3, g4, g5, g6, g7, g8, g9⟩ := hfields _ rfl
  obtain ⟨s1, s2, s3, s4, s5, s6, s7, s8, s9, s10⟩ :=
    hw_obj_body_step uflag
      (if acc.1.isWeakref op then clearWeakref acc.1 op else acc.1) acc.2 op
  rw [g1, g2] at s1
  rw [g1, g2, g3] at s2
  exact ⟨s1, s2, s3.trans g4, s4.trans g5, s5.trans g6, s6.trans g7,
    s7.trans g8, s8.trans g9, s9.trans g2,
    fun q hq => (s10 q hq).trans (congrFun g1 q)⟩

theorem hw_obj_body_none (uflag : Nat → Bool) (g : Heap) (wcb : List Nat)
    (op W : Nat)
    (h : g.wrTarget W = none ∨ W ∈ g.wrList op) :
    (hw_obj_body uflag g wcb op).1.wrTarget W = none := by
  unfold hw_obj_body
  by_cases hL : g.wrList op = []
  · rw [if_pos hL]
    show g.wrTarget W = none
    rcases h with hnone | hmem
    · exact hnone
    · rw [hL] at hmem
      cases hmem
  · rw [if_neg hL]
    show (clearAllWeakrefs (((g.wrList op).tail.filter
      (fun wr => g.wrCallback wr && !(uflag wr))).foldl extBump g)
      op).wrTarget W = none
    apply clearAllWeakrefs_none
    obtain ⟨b1, b2, b3, b4, b5, b6, b7, b8, b9, b10⟩ :=
      foldl_extbump_facts ((g.wrList op).tail.filter
        (fun wr => g.wrCallback wr && !(uflag wr))) g
    rcases h with hnone | hmem
    · left
      rw [b10]
      exact hnone
    · right
      rw [b9]
      exact hmem

/-- A weak reference to `op` is cleared when `op` is processed; a weak
reference already cleared stays cleared. -/
theorem hw_obj_none (uflag : Nat → Bool) (acc : Heap × List Nat)
    (op W : Nat)
    (h : acc.1.wrTarget W = none ∨ W ∈ acc.1.wrList op) :
    (hw_obj uflag acc op).1.wrTarget W = none := by
  unfold hw_obj
  have hT : ∀ (g : Heap),
      g = (if acc.1.isWeakref op then clearWeakref acc.1 op else acc.1) →
      (g.wrTarget W = acc.1.wrTarget W ∨ g.wrTarget W = none) ∧
      g.wrList op = acc.1.wrList op := by
    intro g hg
    by_cases hiw : acc.1.isWeakref op = true
    · rw [if_pos hiw] at hg
      subst hg
      refine ⟨?_, rfl⟩
      show (Function.update acc.1.wrTarget op none W = acc.1.wrTarget W) ∨
        (Function.update acc.1.wrTarget op none W = none)
      by_cases hWo : W = op
      · right
        rw [hWo, Function.update_same]
      · left
        rw [Function.update_noteq hWo]
    · rw [if_neg hiw] at hg
      subst hg
      exact ⟨Or.inl rfl, rfl⟩
  obtain ⟨hT1, hT2⟩ := hT _ rfl
  apply hw_obj_body_none
  rcases h with hnone | hmem
  · rcases hT1 with he | he
    · left
      exact he.trans hnone
    · left
      exact he
  · right
    rw [hT2]
    exact hmem

theorem hw_invoke_none (acc : Heap × List GCEvent × Nat) (wr W : Nat)
    (h : acc.1.wrTarget W = none) :
    (hw_invoke acc wr).1.wrTarget W = none := by
  unfold hw_invoke
  by_cases hz : refcnt { acc.1 with
      extRefs := Function.update acc.1.extRefs wr (acc.1.extRefs wr - 1) } wr
      = 0
  · rw [if_pos hz]
    show (reap _).wrTarget W = none
    rw [reap_wrTarget]
    exact h
  · rw [if_neg hz]
    exact h

/-- A weak reference carrying the `UNREACHABLE` flag never enters
`wrcb_to_call` (gcmodule.c:1286-1306: both parties are trash, the
callback is discarded). -/
theorem hw_pass1_not_queued (uflag : Nat → Bool) (W : Nat)
    (hW : uflag W = true) :
    ∀ (l : List Nat) (acc : Heap × List Nat), W ∉ acc.2 →
    W ∉ (l.foldl (hw_obj uflag) acc).2 := by
  refine foldl_preserve ?_
  intro b a hb hmem
  rw [(hw_obj_step uflag b a).1] at hmem
  rcases List.mem_append.mp hmem with hm | hm
  · exact hb hm
  · have := List.of_mem_filter hm
    rw [hW] at this
    simp at this

/-- The whole first pass of `handle_weakrefs`: the queue collects, in
order, each unreachable object's filtered callback chain computed on the
entry heap; `extRefs` gains one per queued occurrence; the other fields
the collector later reads are unchanged. -/
theorem hw_pass1_facts (h : Heap) (uflag : Nat → Bool) :
    ∀ (rest : List Nat) (acc : Heap × List Nat),
    rest.Nodup →
    (∀ op ∈ rest, acc.1.wrList op = h.wrList op) →
    acc.1.wrCallback = h.wrCallback →
    (rest.foldl (hw_obj uflag) acc).2
      = acc.2 ++ (rest.map (fun op => (h.wrList op).tail.filter
          (fun wr => h.wrCallback wr && !(uflag wr)))).flatten ∧
    (∀ o, (rest.foldl (hw_obj uflag) acc).1.extRefs o
      = acc.1.extRefs o + ((rest.map (fun op => (h.wrList op).tail.filter
          (fun wr => h.wrCallback wr && !(uflag wr)))).flatten).count o) ∧
    (rest.foldl (hw_obj uflag) acc).1.alive = acc.1.alive ∧
    (rest.foldl (hw_obj uflag) acc).1.children = acc.1.children ∧
    (rest.foldl (hw_obj uflag) acc).1.univ = acc.1.univ ∧
    (rest.foldl (hw_obj uflag) acc).1.hasDel = acc.1.hasDel ∧
    (rest.foldl (hw_obj uflag) acc).1.hasClear = acc.1.hasClear ∧
    (rest.foldl (hw_obj uflag) acc).1.finalized = acc.1.finalized := by
  intro rest
  induction rest with
  | nil =>
    intro acc _ _ _
    exact ⟨by simp, fun o => by simp, rfl, rfl, rfl, rfl, rfl, rfl⟩
  | cons x rest ih =>
    intro acc hnd hwl hwc
    obtain ⟨t1, t2, t3, t4, t5, t6, t7, t8, t9, t10⟩ := hw_obj_step uflag acc x
    have hLx : (acc.1.wrList x).tail.filter
        (fun wr => acc.1.wrCallback wr && !(uflag wr))
        = (h.wrList x).tail.filter
            (fun wr => h.wrCallback wr && !(uflag wr)) := by
      rw [hwl x (List.mem_cons_self x rest), hwc]
    have hx_not : x ∉ rest := (List.nodup_cons.mp hnd).1
    obtain ⟨r1, r2, r3, r4, r5, r6, r7, r8⟩ := ih (hw_obj uflag acc x)
      (List.nodup_cons.mp hnd).2
      (fun op hop => by
        rw [t10 op (fun he => hx_not (he ▸ hop))]
        exact hwl op (List.mem_cons_of_mem x hop))
      (t9.trans hwc)
    have hstep : (x :: rest).foldl (hw_obj uflag) acc
        = rest.foldl (hw_obj uflag) (hw_obj uflag acc x) := rfl
    rw [hstep]
    refine ⟨?_, ?_, r3.trans t3, r4.trans t4, r5.trans t5, r6.trans t6,
      r7.trans t7, r8.trans t8⟩
    · rw [r1, t1, hLx]
      simp only [List.map_cons, List.flatten_cons, List.append_assoc]
    · intro o
      rw [r2 o, t2 o, hLx]
      simp only [List.map_cons, List.flatten_cons, List.count_append]
      omega

theorem flatten_map_if_eq_nil (A : Nat) (v : List Nat) :
    ∀ l : List Nat, A ∉ l →
    (l.map (fun op => if op = A then v else [])).flatten = [] := by
  intro l
  induction l with
  | nil =>
    intro
    rfl
  | cons x l ih =>
    intro hA
    simp only [List.map_cons, List.flatten_cons]
    rw [if_neg (fun he => hA (by rw [← he]; exact List.mem_cons_self x l)),
      ih (fun hm => hA (List.mem_cons_of_mem x hm))]
    rfl

theorem flatten_map_if_eq (A : Nat) (v : List Nat) :
    ∀ l : List Nat, l.Nodup → A ∈ l →
    (l.map (fun op => if op = A then v else [])).flatten = v := by
  intro l
  induction l with
  | nil =>
    intro _ h
    cases h
  | cons x l ih =>
    intro hnd hA
    simp only [List.map_cons, List.flatten_cons]
    by_cases hxA : x = A
    · subst hxA
      rw [if_pos rfl, flatten_map_if_eq_nil x v l (List.nodup_cons.mp hnd).1]
      exact List.append_nil v
    · rw [if_neg hxA]
      have hAl : A ∈ l := by
        rcases List.mem_cons.mp hA with he | hm
        · exact absurd he.symm hxA
        · exact hm
      rw [ih (List.nodup_cons.mp hnd).2 hAl]
      rfl

/-- Monotonicity of the effective refcount under pointwise-larger
external counts (same universe, liveness and references). -/
theorem refcnt_ge (g h : Heap) (huniv : g.univ = h.univ)
    (halive : g.alive = h.alive) (hch : g.children = h.children)
    (hext : ∀ o, h.extRefs o ≤ g.extRefs o) :
    ∀ o, refcnt h o ≤ refcnt g o := by
  intro o
  unfold refcnt refsFrom aliveList
  rw [huniv, halive, hch]
  have := hext o
  omega

/-- The second pass of `handle_weakrefs` (gcmodule.c:1369-1406) on a
heap at its refcount fixed point: every queued weak reference still
holds the reference added in the first pass while the earlier drops
only returned other weakrefs to their entry counts, so a live weakref
is never freed by its own drop (a dead id on a malformed chain is a
no-op), and the fields the collector later reads are unchanged; on
completion `extRefs` is back to its entry value. -/
theorem hw_pass2_facts (h : Heap)
    (hfix : ∀ o, h.alive o = true → 0 < refcnt h o) :
    ∀ (q : List Nat) (acc : Heap × List GCEvent × Nat),
    acc.1.alive = h.alive →
    acc.1.children = h.children →
    acc.1.univ = h.univ →
    acc.1.hasDel = h.hasDel →
    acc.1.hasClear = h.hasClear →
    (∀ o, acc.1.extRefs o = h.extRefs o + q.count o) →
    (q.foldl hw_invoke acc).1.alive = h.alive ∧
    (q.foldl hw_invoke acc).1.children = h.children ∧
    (q.foldl hw_invoke acc).1.univ = h.univ ∧
    (q.foldl hw_invoke acc).1.hasDel = h.hasDel ∧
    (q.foldl hw_invoke acc).1.hasClear = h.hasClear ∧
    (q.foldl hw_invoke acc).1.extRefs = h.extRefs := by
  intro q
  induction q with
  | nil =>
    intro acc a1 a2 a3 a4 a5 a6
    refine ⟨a1, a2, a3, a4, a5, funext fun o => ?_⟩
    have h6 := a6 o
    simpa using h6
  | cons wr q ih =>
    intro acc a1 a2 a3 a4 a5 a6
    have hstep : (wr :: q).foldl hw_invoke acc
        = q.foldl hw_invoke (hw_invoke acc wr) := rfl
    rw [hstep]
    have hext1 : ∀ o, Function.update acc.1.extRefs wr
        (acc.1.extRefs wr - 1) o = h.extRefs o + q.count o := by
      intro o
      by_cases how : o = wr
      · subst how
        rw [Function.update_same, a6 o, List.count_cons_self]
        omega
      · rw [Function.update_noteq how, a6 o, List.count_cons_of_ne how]
    have hge1 : ∀ o, refcnt h o ≤ refcnt { acc.1 with
        extRefs := Function.update acc.1.extRefs wr
          (acc.1.extRefs wr - 1) } o := by
      refine refcnt_ge _ h a3 a1 a2 ?_
      intro o
      show h.extRefs o ≤ Function.update acc.1.extRefs wr
        (acc.1.extRefs wr - 1) o
      rw [hext1 o]
      omega
    by_cases hk : refcnt { acc.1 with
        extRefs := Function.update acc.1.extRefs wr
          (acc.1.extRefs wr - 1) } wr = 0
    · have hwrdead : h.alive wr = false := by
        cases hb : h.alive wr
        · rfl
        · exfalso
          have hp := hfix wr hb
          have hg := hge1 wr
          omega
      have halid : Function.update acc.1.alive wr false = acc.1.alive := by
        funext o
        by_cases how : o = wr
        · subst how
          rw [Function.update_same, a1, hwrdead]
        · rw [Function.update_noteq how]
      have hstepv : hw_invoke acc wr
          = (reap { acc.1 with
              extRefs := Function.update acc.1.extRefs wr
                (acc.1.extRefs wr - 1),
              alive := Function.update acc.1.alive wr false },
             acc.2.1 ++ [GCEvent.callbackEv wr], acc.2.2 + 1) := by
        unfold hw_invoke
        rw [if_pos hk]
      have hXfix : ∀ o, ({ acc.1 with
          extRefs := Function.update acc.1.extRefs wr
            (acc.1.extRefs wr - 1),
          alive := Function.update acc.1.alive wr false } : Heap).alive o
            = true →
          0 < refcnt { acc.1 with
            extRefs := Function.update acc.1.extRefs wr
              (acc.1.extRefs wr - 1),
            alive := Function.update acc.1.alive wr false } o := by
        intro o ho
        have ho' : h.alive o = true := by
          rw [← a1, ← halid]
          exact ho
        have hgeX : ∀ o, refcnt h o ≤ refcnt { acc.1 with
            extRefs := Function.update acc.1.extRefs wr
              (acc.1.extRefs wr - 1),
            alive := Function.update acc.1.alive wr false } o := by
          refine refcnt_ge _ h a3 (halid.trans a1) a2 ?_
          intro o
          show h.extRefs o ≤ Function.update acc.1.extRefs wr
            (acc.1.extRefs wr - 1) o
          rw [hext1 o]
          omega
        have hp := hfix o ho'
        have hg := hgeX o
        omega
      have hreapid : reap { acc.1 with
          extRefs := Function.update acc.1.extRefs wr
            (acc.1.extRefs wr - 1),
          alive := Function.update acc.1.alive wr false }
          = { acc.1 with
              extRefs := Function.update acc.1.extRefs wr
                (acc.1.extRefs wr - 1),
              alive := Function.update acc.1.alive wr false } :=
        reap_id _ hXfix
      rw [hstepv]
      refine ih _ ?_ ?_ ?_ ?_ ?_ ?_
      · show (reap _).alive = h.alive
        rw [hreapid]
        exact halid.trans a1
      · show (reap _).children = h.children
        rw [hreapid]
        exact a2
      · show (reap _).univ = h.univ
        rw [hreapid]
        exact a3
      · show (reap _).hasDel = h.hasDel
        rw [hreapid]
        exact a4
      · show (reap _).hasClear = h.hasClear
        rw [hreapid]
        exact a5
      · intro o
        show (reap _).extRefs o = h.extRefs o + q.count o
        rw [hreapid]
        exact hext1 o
    · have hstepv : hw_invoke acc wr
          = ({ acc.1 with
              extRefs := Function.update acc.1.extRefs wr
                (acc.1.extRefs wr - 1) },
             acc.2.1 ++ [GCEvent.callbackEv wr], acc.2.2) := by
        unfold hw_invoke
        rw [if_neg hk]
      rw [hstepv]
      exact ih _ a1 a2 a3 a4 a5 hext1

/-- `handle_weakrefs` on a heap at its refcount fixed point leaves
liveness, references, the universe and the legacy/clear slots unchanged,
and returns `extRefs` to its entry value: the first pass only queues and
bumps, the second pass drops every bump and frees nothing live. -/
theorem handle_weakrefs_quiescent (h : Heap) (U : List Nat)
    (F : Nat → Bool) (hund : U.Nodup)
    (hfix : ∀ o, h.alive o = true → 0 < refcnt h o) :
    (handle_weakrefs h U F).1.alive = h.alive ∧
    (handle_weakrefs h U F).1.children = h.children ∧
    (handle_weakrefs h U F).1.univ = h.univ ∧
    (handle_weakrefs h U F).1.hasDel = h.hasDel ∧
    (handle_weakrefs h U F).1.hasClear = h.hasClear ∧
    (handle_weakrefs h U F).1.extRefs = h.extRefs := by
  obtain ⟨e1, e2, e3, e4, e5, e6, e7, e8⟩ :=
    hw_pass1_facts h F U (h, []) hund (fun op _ => rfl) rfl
  have hinv : ∀ o, (U.foldl (hw_obj F) (h, [])).1.extRefs o
      = h.extRefs o + ((U.foldl (hw_obj F) (h, [])).2).count o := by
    intro o
    rw [e2 o, e1]
    rfl
  exact hw_pass2_facts h hfix ((U.foldl (hw_obj F) (h, [])).2)
    (((U.foldl (hw_obj F) (h, [])).1), [], 0) e3 e4 e5 e6 e7 hinv

/-- The unreachable list of the cycle scan is duplicate-free on a
quiescent heap. -/
theorem deduce1_unreach_nodup (h : Heap) (hnd : h.univ.Nodup)
    (hAU : ∀ o, h.alive o = true → o ∈ h.univ)
    (hclosed : ∀ o, h.alive o = true → ∀ c ∈ h.children o, h.alive c = true)
    (hfix : ∀ o, h.alive o = true → 0 < refcnt h o) :
    (deduce1 h).unreach.Nodup := by
  have hg0 : heap0 h = h := reap_id h hfix
  have hD : deduce1 h
      = deduce_unreachable h.children (fun o => h.alive o)
          (aliveList h) (refsB h) := by
    unfold deduce1 young0
    rw [hg0]
  have hbnd : (aliveList h).Nodup := hnd.filter _
  have hclb : ∀ o ∈ aliveList h, ∀ c ∈ h.children o, c ∈ aliveList h := by
    intro o ho c hc
    have hoa : h.alive o = true := (List.mem_filter.mp ho).2
    have hca := hclosed o hoa c hc
    exact List.mem_filter.mpr ⟨hAU c hca, hca⟩
  have hip : ∀ o ∈ aliveList h, (fun o => h.alive o) o = true :=
    fun o ho => (List.mem_filter.mp ho).2
  obtain ⟨s1, s2, s3, s4, s5, s6, s7, s8⟩ :=
    deduce_unreachable_spec h.children (fun o => h.alive o)
      (aliveList h) (refsB h) hbnd hclb hip
  rw [← hD] at s2
  exact (s2.nodup_iff.mpr hbnd).of_append_right

theorem sum_map_if_eq_zero (A : Nat) :
    ∀ l : List Nat, A ∉ l →
    (l.map (fun op => if op = A then (1 : Nat) else 0)).sum = 0 := by
  intro l
  induction l with
  | nil =>
    intro
    rfl
  | cons x l ih =>
    intro hA
    simp only [List.map_cons, List.sum_cons]
    rw [if_neg (fun he => hA (by rw [← he]; exact List.mem_cons_self x l)),
      ih (fun hm => hA (List.mem_cons_of_mem x hm))]

theorem sum_map_if_eq_one (A : Nat) :
    ∀ l : List Nat, l.Nodup → A ∈ l →
    (l.map (fun op => if op = A then (1 : Nat) else 0)).sum = 1 := by
  intro l
  induction l with
  | nil =>
    intro _ h
    cases h
  | cons x l ih =>
    intro hnd hA
    simp only [List.map_cons, List.sum_cons]
    by_cases hxA : x = A
    · subst hxA
      rw [if_pos rfl, sum_map_if_eq_zero x l (List.nodup_cons.mp hnd).1]
    · rw [if_neg hxA]
      have hAl : A ∈ l := by
        rcases List.mem_cons.mp hA with he | hm
        · exact absurd he.symm hxA
        · exact hm
      rw [ih (List.nodup_cons.mp hnd).2 hAl]

theorem count_filter_of_pred {p : Nat → Bool} {a : Nat}
    (hpa : p a = true) :
    ∀ l : List Nat, (l.filter p).count a = l.count a := by
  intro l
  induction l with
  | nil =>
    rfl
  | cons x l ih =>
    by_cases hpx : p x = true
    · rw [List.filter_cons_of_pos hpx, List.count_cons, List.count_cons, ih]
    · rw [List.filter_cons_of_neg (by simp [hpx]), ih, List.count_cons]
      have hxa : (x == a) = false := by
        rw [beq_eq_false_iff_ne]
        intro he
        rw [he] at hpx
        exact hpx hpa
      rw [hxa]
      simp

/-- C5: policy of `handle_weakrefs` (gcmodule.c:1254-1409) for a weak
reference `W` whose referent `A` is in the unreachable set — `W` sits on
`A`'s weakref chain after the chain root, and, as for every real weak
reference, occurs once there and on no other object's chain.  If `W` is
itself unreachable, its callback is never invoked (no `callbackEv W`
event is emitted; both parties are trash and the callback is discarded)
and `W` is cleared.  If `W` is outside the unreachable set and has a
callback, its callback is invoked exactly once — whatever other weak
references are queued alongside it — `W` is cleared, and the referent
`A` is freed by the rest of the collection (the quiescence and
`tp_clear` hypotheses make `A` collectable). -/
theorem C5_weakref_callback_policy (h : Heap) (W A : Nat)
    (hnd : h.univ.Nodup)
    (hAU : ∀ o, h.alive o = true → o ∈ h.univ)
    (hclosed : ∀ o, h.alive o = true → ∀ c ∈ h.children o, h.alive c = true)
    (hfix : ∀ o, h.alive o = true → 0 < refcnt h o)
    (hdel : ∀ o, h.hasDel o = false)
    (hclr : ∀ o, h.alive o = true → h.hasClear o = true)
    (hA : A ∈ (deduce1 h).unreach)
    (hW_tail : W ∈ (h.wrList A).tail) :
    ((deduce1 h).uflag W = true →
      ((wrPhase h).2.1).count (GCEvent.callbackEv W) = 0 ∧
      (wrPhase h).1.wrTarget W = none) ∧
    ((deduce1 h).uflag W = false →
      h.wrCallback W = true →
      ((h.wrList A).tail).count W = 1 →
      (∀ op ∈ (deduce1 h).unreach, op ≠ A → W ∉ (h.wrList op).tail) →
      ((wrPhase h).2.1).count (GCEvent.callbackEv W) = 1 ∧
      (wrPhase h).1.wrTarget W = none ∧
      (collect h false).heap.alive A = false) := by
  have hg0 : heap0 h = h := reap_id h hfix
  have hleg := legacyPhase_nodel h hdel
  have hu2 : unreach2 h = (deduce1 h).unreach := by
    unfold unreach2
    rw [hleg]
  have huf2 : uflag2 h = (deduce1 h).uflag := by
    unfold uflag2
    rw [hleg]
  have hwr_eq : wrPhase h
      = handle_weakrefs h (deduce1 h).unreach (deduce1 h).uflag := by
    unfold wrPhase
    rw [hg0, hu2, huf2]
  have hund := deduce1_unreach_nodup h hnd hAU hclosed hfix
  obtain ⟨pre, post, hsplit⟩ := List.append_of_mem hA
  have hApre : A ∉ pre := by
    have hnd2 := hund
    rw [hsplit] at hnd2
    intro hm
    exact (List.disjoint_of_nodup_append hnd2) hm (List.mem_cons_self A post)
  have hpres : ∀ (l : List Nat), A ∉ l → ∀ (acc : Heap × List Nat),
      (l.foldl (hw_obj (deduce1 h).uflag) acc).1.wrList A
        = acc.1.wrList A := by
    intro l
    induction l with
    | nil =>
      intro _ acc
      rfl
    | cons x l ihl =>
      intro hAx acc
      have hstep : (x :: l).foldl (hw_obj (deduce1 h).uflag) acc
          = l.foldl (hw_obj (deduce1 h).uflag)
              (hw_obj (deduce1 h).uflag acc x) := rfl
      rw [hstep,
        ihl (fun hm => hAx (List.mem_cons_of_mem x hm)) _]
      exact (hw_obj_step (deduce1 h).uflag acc x).2.2.2.2.2.2.2.2.2 A
        (fun he => hAx (by rw [he]; exact List.mem_cons_self x l))
  have hfoldsplit : (deduce1 h).unreach.foldl
        (hw_obj (deduce1 h).uflag) (h, [])
      = post.foldl (hw_obj (deduce1 h).uflag)
          (hw_obj (deduce1 h).uflag
            (pre.foldl (hw_obj (deduce1 h).uflag) (h, [])) A) := by
    rw [hsplit, List.foldl_append]
    rfl
  have hAstep : (hw_obj (deduce1 h).uflag
      (pre.foldl (hw_obj (deduce1 h).uflag) (h, [])) A).1.wrTarget W
      = none := by
    apply hw_obj_none
    right
    rw [hpres pre hApre (h, [])]
    exact List.mem_of_mem_tail hW_tail
  have hp1tgt : ((deduce1 h).unreach.foldl
      (hw_obj (deduce1 h).uflag) (h, [])).1.wrTarget W = none := by
    rw [hfoldsplit]
    exact foldl_preserve
      (fun b a hb => hw_obj_none (deduce1 h).uflag b a W (Or.inl hb))
      post _ hAstep
  constructor
  · intro hWu
    constructor
    · rw [hwr_eq]
      show ((((deduce1 h).unreach.foldl (hw_obj (deduce1 h).uflag)
          (h, [])).2).foldl hw_invoke
          ((((deduce1 h).unreach.foldl (hw_obj (deduce1 h).uflag)
            (h, [])).1), [], 0)).2.1.count (GCEvent.callbackEv W) = 0
      rw [foldl_hw_invoke_count W _ _]
      have hnq : W ∉ ((deduce1 h).unreach.foldl
          (hw_obj (deduce1 h).uflag) (h, [])).2 :=
        hw_pass1_not_queued (deduce1 h).uflag W hWu (deduce1 h).unreach
          (h, []) (List.not_mem_nil W)
      rw [List.count_eq_zero.mpr hnq]
      rfl
    · rw [hwr_eq]
      show ((((deduce1 h).unreach.foldl (hw_obj (deduce1 h).uflag)
          (h, [])).2).foldl hw_invoke
          ((((deduce1 h).unreach.foldl (hw_obj (deduce1 h).uflag)
            (h, [])).1), [], 0)).1.wrTarget W = none
      exact foldl_preserve (fun b a hb => hw_invoke_none b a W hb)
        _ _ hp1tgt
  · intro hWu hcb hcnt hother
    obtain ⟨e1, e2, e3, e4, e5, e6, e7, e8⟩ :=
      hw_pass1_facts h (deduce1 h).uflag (deduce1 h).unreach (h, [])
        hund (fun op _ => rfl) rfl
    have hpW : (h.wrCallback W && !((deduce1 h).uflag W)) = true := by
      rw [hcb, hWu]
      rfl
    have hqcount : (((deduce1 h).unreach.foldl
        (hw_obj (deduce1 h).uflag) (h, [])).2).count W = 1 := by
      rw [e1]
      show (([] : List Nat) ++ (((deduce1 h).unreach.map
        (fun op => (h.wrList op).tail.filter
          (fun wr => h.wrCallback wr
            && !((deduce1 h).uflag wr)))).flatten)).count W = 1
      rw [List.nil_append, List.count_flatten, List.map_map]
      have hpt : ∀ op ∈ (deduce1 h).unreach,
          (List.count W ∘ fun op => (h.wrList op).tail.filter
            (fun wr => h.wrCallback wr && !((deduce1 h).uflag wr))) op
          = (fun op => if op = A then (1 : Nat) else 0) op := by
        intro op hop
        show ((h.wrList op).tail.filter
          (fun wr => h.wrCallback wr && !((deduce1 h).uflag wr))).count W
          = if op = A then 1 else 0
        by_cases hopA : op = A
        · subst hopA
          rw [if_pos rfl, count_filter_of_pred hpW]
          exact hcnt
        · rw [if_neg hopA, List.count_eq_zero]
          intro hm
          exact hother op hop hopA (List.mem_of_mem_filter hm)
      rw [List.map_congr_left hpt]
      exact sum_map_if_eq_one A (deduce1 h).unreach hund hA
    refine ⟨?_, ?_, ?_⟩
    · rw [hwr_eq]
      show ((((deduce1 h).unreach.foldl (hw_obj (deduce1 h).uflag)
          (h, [])).2).foldl hw_invoke
          ((((deduce1 h).unreach.foldl (hw_obj (deduce1 h).uflag)
            (h, [])).1), [], 0)).2.1.count (GCEvent.callbackEv W) = 1
      rw [foldl_hw_invoke_count W _ _, hqcount]
      rfl
    · rw [hwr_eq]
      show ((((deduce1 h).unreach.foldl (hw_obj (deduce1 h).uflag)
          (h, [])).2).foldl hw_invoke
          ((((deduce1 h).unreach.foldl (hw_obj (deduce1 h).uflag)
            (h, [])).1), [], 0)).1.wrTarget W = none
      exact foldl_preserve (fun b a hb => hw_invoke_none b a W hb)
        _ _ hp1tgt
    · obtain ⟨W1, W2, W3, W4, W5, W6⟩ :=
        handle_weakrefs_quiescent h (deduce1 h).unreach (deduce1 h).uflag
          hund hfix
      obtain ⟨q1, q2, q3, q4, q5, q6, q7, q8, q9, q10⟩ :=
        collect_facts_core h hnd hAU hclosed hfix hdel hclr
          (by rw [hwr_eq]; exact W1)
          (by rw [hwr_eq]; exact W2)
          (by rw [hwr_eq]; exact W6)
          (by rw [hwr_eq]; exact W3)
          (by rw [hwr_eq]; exact W4)
          (by rw [hwr_eq]; exact W5)
      cases hb : (collect h false).heap.alive A
      · rfl
      · exfalso
        exact ((q5 A).mp hb).2 hA

theorem C5_witness :
    ((wrPhase hW5).2.1).count (GCEvent.callbackEv 2) = 1 ∧
    (wrPhase hW5).1.wrTarget 2 = none ∧
    (collect hW5 false).heap.alive 0 = false := by
  refine (C5_weakref_callback_policy hW5 2 0 ?_ ?_ ?_ ?_ ?_ ?_ ?_ ?_).2
    ?_ ?_ ?_ ?_
  · decide
  · intro o ho
    have ho' : (o == 0 || o == 1 || o == 2) = true := ho
    simp at ho'
    rcases ho' with (rfl | rfl) | rfl <;> decide
  · intro o ho c hc
    have ho' : (o == 0 || o == 1 || o == 2) = true := ho
    simp at ho'
    rcases ho' with (rfl | rfl) | rfl
    · have hc' : c ∈ ([1] : List Nat) := hc
      simp at hc'
      subst hc'
      decide
    · have hc' : c ∈ ([0] : List Nat) := hc
      simp at hc'
      subst hc'
      decide
    · have hc' : c ∈ ([] : List Nat) := hc
      cases hc'
  · intro o ho
    have ho' : (o == 0 || o == 1 || o == 2) = true := ho
    simp at ho'
    rcases ho' with (rfl | rfl) | rfl <;> decide
  · intro o
    rfl
  · intro o ho
    rfl
  · decide
  · decide
  · decide
  · decide
  · decide
  · decide

/-- C6 counterexamples, one per forced exclusion.  `heapC6`: a
self-referential object without `tp_clear` is counted by the first
collect but cannot be freed, so the second quiescent collect returns 1,
not 0.  `heapD6`: with a legacy `tp_del` finalizer present, the object
`2` moved to the finalizers list to protect the finalizer `1` loses its
protector to the refcount cascade of `delete_garbage` (which frees `1`
together with the cycle `0`), survives unrooted, and is counted by the
second collect, which returns 1, not 0. -/
theorem C6_counterexample :
    (collectCount (collect heapC6 false).heap false = 0 → False) ∧
    collectCount heapC6 false = 1 ∧
    collectCount (collect heapC6 false).heap false = 1 ∧
    (collectCount (collect heapD6 false).heap false = 0 → False) ∧
    collectCount heapD6 false = 2 ∧
    collectCount (collect heapD6 false).heap false = 1 := by
  decide

/-- C6 (amended): idempotence under quiescence for collectable garbage.
On a quiescent heap (duplicate-free universe, live set closed under
`children`, live objects positively referenced) where every live
object's type provides `tp_clear` and no object carries a legacy
`tp_del` finalizer — weak references and callbacks are permitted — a
second `collect()` immediately following a completed `collect()` with
no mutation in between returns 0: the first collection reclaims the
entire unreachable set, so the second finds every surviving object
reachable from an external reference.  Both exclusions are forced by
the two counterexample heaps above; without them an unreachable object
can survive the first collection unrooted and be counted again. -/
theorem C6_second_collect_zero (h : Heap)
    (hnd : h.univ.Nodup)
    (hAU : ∀ o, h.alive o = true → o ∈ h.univ)
    (hclosed : ∀ o, h.alive o = true → ∀ c ∈ h.children o, h.alive c = true)
    (hfix : ∀ o, h.alive o = true → 0 < refcnt h o)
    (hdel : ∀ o, h.hasDel o = false)
    (hclr : ∀ o, h.alive o = true → h.hasClear o = true) :
    collectCount (collect h false).heap false = 0 := by
  have hg0 : heap0 h = h := reap_id h hfix
  have hleg := legacyPhase_nodel h hdel
  have hu2 : unreach2 h = (deduce1 h).unreach := by
    unfold unreach2
    rw [hleg]
  have huf2 : uflag2 h = (deduce1 h).uflag := by
    unfold uflag2
    rw [hleg]
  have hwr_eq : wrPhase h
      = handle_weakrefs h (deduce1 h).unreach (deduce1 h).uflag := by
    unfold wrPhase
    rw [hg0, hu2, huf2]
  have hund := deduce1_unreach_nodup h hnd hAU hclosed hfix
  obtain ⟨W1, W2, W3, W4, W5, W6⟩ :=
    handle_weakrefs_quiescent h (deduce1 h).unreach (deduce1 h).uflag
      hund hfix
  obtain ⟨q1, q2, q3, q4, q5, q6, q7, q8, q9, q10⟩ :=
    collect_facts_core h hnd hAU hclosed hfix hdel hclr
      (by rw [hwr_eq]; exact W1)
      (by rw [hwr_eq]; exact W2)
      (by rw [hwr_eq]; exact W6)
      (by rw [hwr_eq]; exact W3)
      (by rw [hwr_eq]; exact W4)
      (by rw [hwr_eq]; exact W5)
  have hclb : ∀ o ∈ aliveList h, ∀ c ∈ h.children o, c ∈ aliveList h := by
    intro o ho c hc
    have hoa : h.alive o = true := (List.mem_filter.mp ho).2
    have hca := hclosed o hoa c hc
    exact List.mem_filter.mpr ⟨hAU c hca, hca⟩
  apply collect_zero_of_all_reachable
  · rw [q1]
    exact hnd
  · intro o ho
    rw [q1]
    exact hAU o ((q5 o).mp ho).1
  · intro o ho c hc
    obtain ⟨hoa, hoU⟩ := (q5 o).mp ho
    have hch := q6 o ho
    have hc2 : c ∈ h.children o := by
      rw [← hch]
      exact hc
    have hca := hclosed o hoa c hc2
    have hoR := q8 o hoa hoU
    have hcU : c ∉ (deduce1 h).unreach := fun hcu => q9 c hcu (hoR.tail hc2)
    exact (q5 c).mpr ⟨hca, hcU⟩
  · exact q7
  · intro o
    exact (congrFun q3 o).trans (hdel o)
  · intro o ho
    obtain ⟨hoa, hoU⟩ := (q5 o).mp ho
    obtain ⟨r, hrb, hrpos, hpath⟩ := q8 o hoa hoU
    have hra : h.alive r = true := (List.mem_filter.mp hrb).2
    have hrU : r ∉ (deduce1 h).unreach :=
      fun hru => q9 r hru ⟨r, hrb, hrpos, Relation.ReflTransGen.refl⟩
    have hrT : (collect h false).heap.alive r = true := (q5 r).mpr ⟨hra, hrU⟩
    have hrbT : r ∈ aliveList (collect h false).heap :=
      List.mem_filter.mpr ⟨by rw [q1]; exact hAU r hra, hrT⟩
    have hrpos2 : 0 < refsB (collect h false).heap r := by
      rw [refsB_eq_ext (collect h false).heap q7 r hrT]
      have e1 := q10 r hra
      have e2 := congrFun q2 r
      rw [e2, ← e1]
      exact hrpos
    have htrans : ∀ x, Relation.ReflTransGen (Edge h.children) r x →
        Relation.ReflTransGen (Edge (collect h false).heap.children) r x := by
      intro x hp
      induction hp with
      | refl => exact Relation.ReflTransGen.refl
      | @tail b c hp2 he ih =>
        have hpb : b ∈ aliveList h := mem_base_of_path hclb hrb hp2
        have hpa : h.alive b = true := (List.mem_filter.mp hpb).2
        have hbU : b ∉ (deduce1 h).unreach :=
          fun hu => q9 b hu ⟨r, hrb, hrpos, hp2⟩
        have hbT : (collect h false).heap.alive b = true :=
          (q5 b).mpr ⟨hpa, hbU⟩
        have hcb := q6 b hbT
        refine ih.tail ?_
        show c ∈ (collect h false).heap.children b
        rw [hcb]
        exact he
    exact ⟨r, hrbT, hrpos2, htrans o hpath⟩

theorem C6_witness :
    collectCount (collect hW6 false).heap false = 0 := by
  refine C6_second_collect_zero hW6 ?_ ?_ ?_ ?_ ?_ ?_
  · decide
  · intro o ho
    have ho' : (o == 0 || o == 1) = true := ho
    simp at ho'
    rcases ho' with rfl | rfl <;> decide
  · intro o ho c hc
    have ho' : (o == 0 || o == 1) = true := ho
    simp at ho'
    rcases ho' with rfl | rfl
    · have hc' : c ∈ ([1] : List Nat) := hc
      simp at hc'
      subst hc'
      decide
    · have hc' : c ∈ ([0] : List Nat) := hc
      simp at hc'
      subst hc'
      decide
  · intro o ho
    have ho' : (o == 0 || o == 1) = true := ho
    simp at ho'
    rcases ho' with rfl | rfl <;> decide
  · intro o
    rfl
  · intro o ho
    rfl

theorem C2_witness :
    heapW.alive 0 = true ∧
    subtract_refs heapW (aliveList heapW) (update_refs heapW) 0
      = heapW.extRefs 0 := by
  refine ⟨by decide, ?_⟩
  exact (C2_subtract_refs_external heapW).1 0 (by decide)

end GCV
